import Mathlib

/-!
The flat, breadth-ordered document tree of jxxson.

Shallow embedding of `jxxson.hpp`.

Modelling conventions.
* `std::vector<document_tree_node>` is a `List document_tree_node`; container iterators,
  tree iterators and node pointers into it are positions (`Nat`), the past-the-end
  iterator being the length of the list.  A null node pointer is `none`.
* `std::ptrdiff_t` is `Int`, `std::size_t` is `Nat`; where the source computes with
  `size_t` values that can wrap (`i + 1` in `access`), the wrap is written out with
  `% SIZE_MOD`.
* `CharT` is `Char`; strings, string views and the value buffer are `List Char`.
* Operations that mutate the tree return the new node list (and the returned iterator).
-/

namespace jxxson

/-- The value kinds (`enum class document_tree_node_type`). -/
inductive document_tree_node_type where
  | null
  | boolean
  | integer
  | floating_point
  | string
  | array
  | object
  | root
  deriving DecidableEq

/-- Number of values of `std::size_t` (a 64-bit target). -/
def SIZE_MOD : Nat := 2 ^ 64

/-- The size in bytes of `std::size_t`, the only member of the three tag structs. -/
def SIZEOF_SIZE_T : Nat := 8

/-- The size in bytes of the default `Integer` template argument, `int`. -/
def SIZEOF_INT : Nat := 4

/-- The object representation of an `int`: little-endian two's complement bytes. -/
def int_bytes (i : Int) : List Char :=
  (List.range SIZEOF_INT).map fun k => Char.ofNat ((i % 2 ^ (8 * SIZEOF_INT)).toNat / 256 ^ k % 256)

/-- The `int` whose object representation the first `SIZEOF_INT` bytes of a buffer hold
(`*reinterpret_cast<const int*>(buffer.data())`). -/
def bytes_int (buffer : List Char) : Int :=
  let u : Nat := ((List.range SIZEOF_INT).map fun k => (buffer.getD k (Char.ofNat 0)).toNat * 256 ^ k).sum
  if u < 2 ^ (8 * SIZEOF_INT - 1) then (u : Int) else (u : Int) - 2 ^ (8 * SIZEOF_INT)

/-- Tagged value (`class document_node_value`): a kind and one byte buffer. -/
structure document_node_value where
  type : document_tree_node_type := document_tree_node_type.null
  buffer : List Char := []
  deriving DecidableEq

namespace document_node_value

/-- Constructor `document_node_value(const BufferAllocator&)`: the null value. -/
def of_null : document_node_value := { type := document_tree_node_type.null, buffer := [] }

/-- Constructor `document_node_value(const bool b, ...)`. -/
def of_bool (b : Bool) : document_node_value :=
  { type := document_tree_node_type.boolean, buffer := [Char.ofNat (if b then 1 else 0)] }

/-- Constructor `document_node_value(const int_type i, ...)`. -/
def of_int (i : Int) : document_node_value :=
  { type := document_tree_node_type.integer, buffer := int_bytes i }

/-- Constructor `document_node_value(const string_view s, ...)`. -/
def of_string (s : List Char) : document_node_value :=
  { type := document_tree_node_type.string, buffer := s }

/-- Constructor from `document_node_root_tag`: the buffer is the tag's zeroed padding. -/
def of_root_tag : document_node_value :=
  { type := document_tree_node_type.root, buffer := List.replicate SIZEOF_SIZE_T (Char.ofNat 0) }

/-- Constructor from `document_node_array_tag`. -/
def of_array_tag : document_node_value :=
  { type := document_tree_node_type.array, buffer := List.replicate SIZEOF_SIZE_T (Char.ofNat 0) }

/-- Constructor from `document_node_object_tag`. -/
def of_object_tag : document_node_value :=
  { type := document_tree_node_type.object, buffer := List.replicate SIZEOF_SIZE_T (Char.ofNat 0) }

/-- Accessor `as<bool>()`: the first buffer byte read as a `bool`. -/
def as_bool (v : document_node_value) : Bool :=
  (v.buffer.getD 0 (Char.ofNat 0)).toNat != 0

/-- Accessor `as<int_type>()`. -/
def as_int (v : document_node_value) : Int := bytes_int v.buffer

/-- Method `parent_type()`: object, array or root. -/
def parent_type (v : document_node_value) : Bool :=
  v.type == document_tree_node_type.object || v.type == document_tree_node_type.array
    || v.type == document_tree_node_type.root

end document_node_value

/-- A node of the flat store (`class document_tree_node`). -/
structure document_tree_node where
  name_ : List Char := []
  value_ : document_node_value := {}
  pid_ : Int := -1
  tombed_ : Bool := false
  deriving DecidableEq

namespace document_tree_node

/-- Constructor `document_tree_node(pointer parent, pointer beg, string_view n, value_type v)`:
`parent` is the parent's offset from `beg`, or `none` for a null pointer. -/
def of_pointer (parent : Option Nat) (n : List Char) (v : document_node_value) : document_tree_node :=
  { name_ := n, value_ := v, pid_ := match parent with
                                       | some p => (p : Int)
                                       | none => -1 }

/-- Constructor `document_tree_node(std::ptrdiff_t pid, string_view n, value_type v)`. -/
def of_pid (pid : Int) (n : List Char) (v : document_node_value) : document_tree_node :=
  { name_ := n, value_ := v, pid_ := pid }

/-- Setter `dying(bool v)`. -/
def dying (nd : document_tree_node) (v : Bool) : document_tree_node := { nd with tombed_ := v }

/-- The effect of `++nd.parent_index()`. -/
def inc_parent_index (nd : document_tree_node) : document_tree_node := { nd with pid_ := nd.pid_ + 1 }

/-- The effect of `--n.parent_index()`. -/
def dec_parent_index (nd : document_tree_node) : document_tree_node := { nd with pid_ := nd.pid_ - 1 }

end document_tree_node

namespace document_tree

/-- Read `nodes_[i].parent_index()`; positions outside the array are never read by a
call that respects the source's contract. -/
def parent_index_at (nodes_ : List document_tree_node) (i : Nat) : Int :=
  match nodes_[i]? with
  | some nd => nd.pid_
  | none => -1

/-- The binary search of `std::ranges::upper_bound` over a projected sequence `proj`:
`len` halves until it is zero; the first argument bounds the number of iterations and
is always given as the initial `len`, which the loop never outlasts. -/
def upper_bound_loop (proj : Nat → Int) (value : Int) : Nat → Nat → Nat → Nat
  | 0, first, _ => first
  | fuel + 1, first, len =>
    if len = 0 then first
    else
      let half := len / 2
      let middle := first + half
      if value < proj middle then upper_bound_loop proj value fuel first half
      else upper_bound_loop proj value fuel (middle + 1) (len - half - 1)

/-- Call `std::ranges::upper_bound(first, last, value, std::less, upper_bound_proj)` on
positions `[first, last)` of `nodes_`. -/
def upper_bound (nodes_ : List document_tree_node) (first last : Nat) (value : Int) : Nat :=
  upper_bound_loop (parent_index_at nodes_) value (last - first) first (last - first)

/-- A `std::ranges::for_each(first, nodes_.end(), f)` that rewrites nodes in place. -/
def for_each_from (nodes_ : List document_tree_node) (first : Nat)
    (f : document_tree_node → document_tree_node) : List document_tree_node :=
  nodes_.take first ++ (nodes_.drop first).map f

/-- Call `nodes_.emplace(nodes_.begin() + pos, ...)` with the already constructed node. -/
def vector_emplace (nodes_ : List document_tree_node) (pos : Nat) (nd : document_tree_node) :
    List document_tree_node :=
  nodes_.take pos ++ nd :: nodes_.drop pos

/-- Method `emplace_back_(parent, data(), name, value)`. -/
def emplace_back_ (nodes_ : List document_tree_node) (parent : Option Nat) (name : List Char)
    (value : document_node_value) : List document_tree_node × Nat :=
  (vector_emplace nodes_ nodes_.length (document_tree_node.of_pointer parent name value), nodes_.length)

/-- Method `emplace_sorted_(parent, data(), name, value)`. -/
def emplace_sorted_ (nodes_ : List document_tree_node) (parent : Nat) (name : List Char)
    (value : document_node_value) : List document_tree_node × Nat :=
  let insert_pos := upper_bound nodes_ 0 nodes_.length (parent : Int)
  let update_itr := upper_bound nodes_ 0 nodes_.length ((insert_pos : Int) - 1)
  let nodes1 := for_each_from nodes_ update_itr document_tree_node.inc_parent_index
  (vector_emplace nodes1 insert_pos (document_tree_node.of_pointer (some parent) name value), insert_pos)

/-- Method `emplace_auto_(parent, data(), name, value)`; the result `nodes_.end()` is the
length of the unchanged array. -/
def emplace_auto_ (nodes_ : List document_tree_node) (parent : Nat) (name : List Char)
    (value : document_node_value) : List document_tree_node × Nat :=
  match nodes_[parent]?, nodes_.getLast? with
  | some nd, some back =>
    if nd.value_.parent_type then
      if (parent : Int) ≥ back.pid_ then emplace_back_ nodes_ (some parent) name value
      else emplace_sorted_ nodes_ parent name value
    else (nodes_, nodes_.length)
  | _, _ => (nodes_, nodes_.length)

/-- Constructor `document_tree(init_cap, buf_alloc, tree_alloc)`: the capacity hint has
no effect on the contents. -/
def ctor (_init_cap : Nat) : List document_tree_node :=
  (emplace_back_ [] none [] document_node_value.of_root_tag).1

/-- Method `emplace(parent, name, value)`. -/
def emplace (nodes_ : List document_tree_node) (parent : Nat) (name : List Char)
    (value : document_node_value) : List document_tree_node × Nat :=
  emplace_auto_ nodes_ parent name value

/-- Method `search_child_begin(parent)`. -/
def search_child_begin (nodes_ : List document_tree_node) (parent : Nat) : Nat :=
  let it := upper_bound nodes_ parent nodes_.length ((parent : Int) - 1)
  if it = nodes_.length ∨ parent_index_at nodes_ it ≠ (parent : Int) then nodes_.length else it

/-- Method `search_child_end(parent)`. -/
def search_child_end (nodes_ : List document_tree_node) (parent : Nat) : Nat :=
  let it := upper_bound nodes_ parent nodes_.length (parent : Int)
  if it = nodes_.length ∨ parent_index_at nodes_ (it - 1) ≠ (parent : Int) then nodes_.length else it

/-- Conversion of a `std::ptrdiff_t` to `std::size_t`: a negative value wraps. -/
def to_size_t (d : Int) : Nat := (d % (SIZE_MOD : Int)).toNat

/-- Conversion of a `std::size_t` to `std::ptrdiff_t`: the upper half becomes negative. -/
def to_ptrdiff_t (i : Nat) : Int := if i < SIZE_MOD / 2 then (i : Int) else (i : Int) - (SIZE_MOD : Int)

/-- Cursor method `size()`: the `std::ptrdiff_t` difference `end() - begin()` returned as a
`std::size_t`: a difference that is not negative keeps its value, a negative one wraps. -/
def iterator_size (nodes_ : List document_tree_node) (it : Nat) : Nat :=
  let d : Int := (search_child_end nodes_ it : Int) - (search_child_begin nodes_ it : Int)
  if 0 ≤ d then d.toNat else to_size_t d

/-- The test `pred(*it)` of a scan, for the cursor at position `i`. -/
def pred_at (nodes_ : List document_tree_node) (pred : document_tree_node → Bool) (i : Nat) : Bool :=
  match nodes_[i]? with
  | some nd => pred nd
  | none => false

/-- Algorithm `std::ranges::find_if(first, last, pred)` over tree iterators: the first
position of `[first, last)` whose node satisfies `pred`, or `last`. -/
def find_if (nodes_ : List document_tree_node) (first last : Nat) (pred : document_tree_node → Bool) :
    Nat :=
  match (List.range' first (last - first)).find? (pred_at nodes_ pred) with
  | some i => i
  | none => last

/-- Method `access(actual_root, name)` (both overloads have the same body). -/
def access_name (nodes_ : List document_tree_node) (actual_root : Nat) (name : List Char) : Nat :=
  let it := find_if nodes_ (search_child_begin nodes_ actual_root) (search_child_end nodes_ actual_root)
    (fun v => v.name_ == name)
  if it = search_child_end nodes_ actual_root then nodes_.length else it

/-- Method `access(actual_root, i)` (both overloads have the same body).  `i + 1` is
computed in `std::size_t`; the cursor `begin() + i` is `begin()` moved by `i` converted
to `std::ptrdiff_t`, so the result is an offset from `data()` that may be negative. -/
def access_index (nodes_ : List document_tree_node) (actual_root : Nat) (i : Nat) : Int :=
  let child_count : Nat :=
    to_size_t ((search_child_end nodes_ actual_root : Int) - (search_child_begin nodes_ actual_root : Int))
  if (i + 1) % SIZE_MOD > child_count then (nodes_.length : Int)
  else (search_child_begin nodes_ actual_root : Int) + to_ptrdiff_t i

/-- Method `insert_or_access(actual_root, name)`. -/
def insert_or_access_name (nodes_ : List document_tree_node) (actual_root : Nat) (name : List Char) :
    List document_tree_node × Nat :=
  let it := find_if nodes_ (search_child_begin nodes_ actual_root) (search_child_end nodes_ actual_root)
    (fun v => v.name_ == name)
  if it = search_child_end nodes_ actual_root then emplace nodes_ actual_root name document_node_value.of_null
  else (nodes_, it)

/-- Set the tombstone of the node at `pos` (`root->dying(true)`). -/
def set_dying (nodes_ : List document_tree_node) (pos : Nat) : List document_tree_node :=
  nodes_.modify (fun nd => nd.dying true) pos

/-- Method `tag_current_and_all_children_to_unknow_(root)`.  The recursion of the source
is bounded by the first argument; `none` means the bound was reached. -/
def tag_current_and_all_children_to_unknow_ : Nat → List document_tree_node → Nat →
    Option (List document_tree_node)
  | 0, _, _ => none
  | fuel + 1, nodes_, root =>
    if root = nodes_.length then some nodes_
    else
      let nodes1 := set_dying nodes_ root
      let beg := upper_bound nodes1 root nodes1.length ((root : Int) - 1)
      let end_ := upper_bound nodes1 root nodes1.length (root : Int)
      (List.range' beg (end_ - beg)).foldlM
        (fun acc c => tag_current_and_all_children_to_unknow_ fuel acc c) nodes1

/-- Method `remove(which)`. -/
def remove (nodes_ : List document_tree_node) (which : Nat) : Option (List document_tree_node) :=
  tag_current_and_all_children_to_unknow_ (nodes_.length + 1) nodes_ which

/-- Method `erase_single_node_and_rotate_(which)`. -/
def erase_single_node_and_rotate_ (nodes_ : List document_tree_node) (which : Nat) :
    List document_tree_node × Nat :=
  let dbg := upper_bound nodes_ 0 nodes_.length ((which : Int) - 1)
  let nodes1 := for_each_from nodes_ dbg document_tree_node.dec_parent_index
  (nodes1.eraseIdx which, which)

/-- The loop of `erase_all_unknows_`: an erased position is tested again (`--from`
followed by the loop's `++from`).  Each round shortens the distance to the end by one,
so the first argument, given as that distance, is never outlasted. -/
def erase_all_unknows_loop : Nat → List document_tree_node → Nat → List document_tree_node × Nat
  | 0, nodes_, from_ => (nodes_, from_)
  | fuel + 1, nodes_, from_ =>
    match nodes_[from_]? with
    | none => (nodes_, from_)
    | some nd =>
      if nd.tombed_ then
        let r := erase_single_node_and_rotate_ nodes_ from_
        erase_all_unknows_loop fuel r.1 r.2
      else erase_all_unknows_loop fuel nodes_ (from_ + 1)

/-- Method `erase_all_unknows_(from)`. -/
def erase_all_unknows_ (nodes_ : List document_tree_node) (from_ : Nat) :
    List document_tree_node × Nat :=
  erase_all_unknows_loop (nodes_.length - from_) nodes_ from_

/-- Method `erase(from)`. -/
def erase (nodes_ : List document_tree_node) (from_ : Nat) : List document_tree_node × Nat :=
  erase_all_unknows_ nodes_ from_

/-- Read `nodes_[i].dying()`. -/
def dying_at (nodes_ : List document_tree_node) (i : Nat) : Bool :=
  match nodes_[i]? with
  | some nd => nd.tombed_
  | none => false

/-- Read `nodes_[i].name()`. -/
def name_at (nodes_ : List document_tree_node) (i : Nat) : List Char :=
  match nodes_[i]? with
  | some nd => nd.name_
  | none => []

/-- The central invariant: read left to right, `parent_index` never decreases. -/
def parent_index_sorted (nodes_ : List document_tree_node) : Prop :=
  ∀ j < nodes_.length, ∀ i < j, parent_index_at nodes_ i ≤ parent_index_at nodes_ j

instance (nodes_ : List document_tree_node) : Decidable (parent_index_sorted nodes_) := by
  unfold parent_index_sorted; infer_instance

/-- The synthetic root sits at position 0 with parent index -1. -/
def root_at_front (nodes_ : List document_tree_node) : Prop :=
  0 < nodes_.length ∧ parent_index_at nodes_ 0 = -1

instance (nodes_ : List document_tree_node) : Decidable (root_at_front nodes_) := by
  unfold root_at_front; infer_instance

/-- Every node but the one at position 0 has a parent index that is a position before
its own. -/
def parent_precedes (nodes_ : List document_tree_node) : Prop :=
  ∀ i < nodes_.length, 0 < i → 0 ≤ parent_index_at nodes_ i ∧ parent_index_at nodes_ i < (i : Int)

instance (nodes_ : List document_tree_node) : Decidable (parent_precedes nodes_) := by
  unfold parent_precedes; infer_instance

/-- The invariants of the flat node store. -/
def invariants (nodes_ : List document_tree_node) : Prop :=
  parent_index_sorted nodes_ ∧ root_at_front nodes_ ∧ parent_precedes nodes_

instance (nodes_ : List document_tree_node) : Decidable (invariants nodes_) := by
  unfold invariants; infer_instance

/-- The trees obtained from the constructor by `emplace` under an existing node, `remove`
of a position other than 0 and `erase(begin())`. -/
inductive reachable : List document_tree_node → Prop where
  | ctor (init_cap : Nat) : reachable (ctor init_cap)
  | emplace {nodes_ : List document_tree_node} (h : reachable nodes_) (parent : Nat)
      (hparent : parent < nodes_.length) (name : List Char) (value : document_node_value) :
      reachable (emplace nodes_ parent name value).1
  | remove {nodes_ nodes1 : List document_tree_node} (h : reachable nodes_) (which : Nat)
      (hroot : 0 < which) (hwhich : which ≤ nodes_.length) (hremove : remove nodes_ which = some nodes1) :
      reachable nodes1
  | erase {nodes_ : List document_tree_node} (h : reachable nodes_) : reachable (erase nodes_ 0).1

/-- The number of children of the node at position `p`: the nodes whose parent index is `p`. -/
def children_count (nodes_ : List document_tree_node) (p : Nat) : Nat :=
  nodes_.countP (fun nd => nd.pid_ == (p : Int))

/-- The lowest position of a child of the node at `p` whose name is `name`, if there is
one (the result that a lookup by name is specified to find). -/
def first_child_named (nodes_ : List document_tree_node) (p : Nat) (name : List Char) : Option Nat :=
  (List.range nodes_.length).find? (fun i =>
    decide (parent_index_at nodes_ i = (p : Int)) && decide (name_at nodes_ i = name))

/-- Follow the parent links from position `i` for at most the given number of steps and
tell whether position `P` is met (a position meets itself at once). -/
def descends_from (proj : Nat → Int) (P : Nat) : Nat → Nat → Bool
  | 0, i => i == P
  | fuel + 1, i => i == P || (decide (0 ≤ proj i) && descends_from proj P fuel (proj i).toNat)

/-- Position `i` is `P` or a descendant of `P`: its chain of parent links reaches `P`. -/
def in_subtree (nodes_ : List document_tree_node) (P i : Nat) : Bool :=
  descends_from (parent_index_at nodes_) P nodes_.length i

/-- One `remove` call for each position of the list, in turn. -/
def remove_all (nodes_ : List document_tree_node) : List Nat → Option (List document_tree_node)
  | [] => some nodes_
  | which :: rest =>
    match remove nodes_ which with
    | some nodes1 => remove_all nodes1 rest
    | none => none

/-- The number of positions below `m` that are marked dead. -/
def dead_before (dead : Nat → Bool) : Nat → Nat
  | 0 => 0
  | m + 1 => dead_before dead m + if dead m then 1 else 0

/-- A node as the compaction loop holds it once the first `m` positions of the array
it started from are dealt with: its parent index has lost one for every erased position
below `m` that is not after the parent. -/
def shifted (dead : Nat → Bool) (m : Nat) (nd : document_tree_node) : document_tree_node :=
  { nd with pid_ := nd.pid_ - ((dead_before dead (min m (nd.pid_ + 1).toNat) : Nat) : Int) }

/-- The position that the node at position `q` has once the dead positions are deleted:
the number of surviving positions before `q`.  The parent index -1 of the synthetic root
names no position and is kept. -/
def new_parent_index (dead : Nat → Bool) (q : Int) : Int :=
  if q < 0 then q else (q.toNat : Int) - (dead_before dead q.toNat : Int)

/-- What compaction is specified to leave, for the nodes from position `i` on: the
dead positions are deleted, and every survivor keeps its name, value, tombstone flag and
relative order while its parent index becomes the new position of its parent. -/
def compacted_from (dead : Nat → Bool) : Nat → List document_tree_node → List document_tree_node
  | _, [] => []
  | i, nd :: rest =>
    if dead i then compacted_from dead (i + 1) rest
    else { nd with pid_ := new_parent_index dead nd.pid_ } :: compacted_from dead (i + 1) rest

/-- What compaction is specified to leave of the whole array. -/
def compacted (nodes_ : List document_tree_node) (dead : Nat → Bool) : List document_tree_node :=
  compacted_from dead 0 nodes_

/-- A small tree built through the public operations: an object at position 1 with the
members `a`, `b`, `c`, where `b` is an array of two integers and `c` an object with the
member `d`. -/
def sample_tree : List document_tree_node :=
  let t0 := ctor 16
  let t1 := (emplace t0 0 [] document_node_value.of_object_tag).1
  let t2 := (emplace t1 1 ['a'] (document_node_value.of_int 1)).1
  let t3 := (emplace t2 1 ['b'] document_node_value.of_array_tag).1
  let t4 := (emplace t3 3 [] (document_node_value.of_int 2)).1
  let t5 := (emplace t4 1 ['c'] document_node_value.of_object_tag).1
  let t6 := (emplace t5 4 ['d'] (document_node_value.of_int 4)).1
  (emplace t6 3 [] (document_node_value.of_int 3)).1

/-- A list of nodes with a non-decreasing parent index in which the last node names
itself as parent. -/
def self_parent_store : List document_tree_node :=
  [document_tree_node.of_pid (-1) [] document_node_value.of_root_tag,
   document_tree_node.of_pid 2 ['x'] document_node_value.of_null,
   document_tree_node.of_pid 2 ['y'] document_node_value.of_object_tag]

end document_tree

end jxxson

namespace jxxson

/-- The two floating-point library calls of the source, kept as parameters:
`std::from_chars` for a `float` (the object representation of the parsed value, or `none`
when it reports an error and leaves its argument uninitialised) and `std::format("{:f}")`
on a value given by its object representation. -/
structure float_model where
  from_chars : List Char → Option (List Char)
  format : List Char → List Char

/-- A model of the floating-point calls in which no text parses as a float; documents
without floating-point values never consult it. -/
def no_float : float_model := { from_chars := fun _ => none, format := fun _ => [] }

namespace document_node_value

/-- Constructor `document_node_value(const float_type f, ...)` from the object
representation of `f`. -/
def of_float_bytes (bytes : List Char) : document_node_value :=
  { type := document_tree_node_type.floating_point, buffer := bytes }

/-- Format `std::format("{:d}", i)`: the plain decimal numeral, with a minus sign for a
negative number. -/
def format_int (i : Int) : List Char :=
  if i < 0 then '-' :: Nat.toDigits 10 i.natAbs else Nat.toDigits 10 i.natAbs

/-- Method `format_to<IsBegin>(out)`: the characters written to `out`. -/
def format_to (fm : float_model) (is_begin : Bool) (v : document_node_value) : List Char :=
  if is_begin then
    match v.type with
    | document_tree_node_type.null => ['n', 'u', 'l', 'l']
    | document_tree_node_type.boolean =>
      if v.as_bool then ['t', 'r', 'u', 'e'] else ['f', 'a', 'l', 's', 'e']
    | document_tree_node_type.integer => format_int v.as_int
    | document_tree_node_type.floating_point => fm.format v.buffer
    | document_tree_node_type.string => '"' :: (v.buffer ++ ['"'])
    | document_tree_node_type.object => ['\x7b']
    | document_tree_node_type.array => ['[']
    | document_tree_node_type.root => []
  else
    match v.type with
    | document_tree_node_type.object => ['\x7d']
    | document_tree_node_type.array => [']']
    | _ => []

end document_node_value

/-- The defaulted constructor `document_tree_node()`: no name, the null value, parent
index -1, no tombstone. -/
def document_tree_node.of_default : document_tree_node :=
  { name_ := [], value_ := document_node_value.of_null, pid_ := -1, tombed_ := false }

/-- An entry of the staging pool (`struct inserter_node`).  A pool iterator is a position
in the pool, `none` standing for `nodes_.end()`. -/
structure inserter_node where
  depth : Nat
  parent : Option Nat
  name : List Char
  value : document_node_value
  index : Nat := 0
  deriving DecidableEq

/-- The staging pool (`class document_tree_batch_inserter`).  The forward list is the
list of its entries in order; `tail_` always is the last entry, so that
`emplace_after(tail_, ...)` appends. -/
structure document_tree_batch_inserter where
  nodes_ : List inserter_node
  max_depth_ : Nat
  size_ : Nat
  deriving DecidableEq

namespace document_tree_batch_inserter

/-- Constructor: the pool holds its synthetic root, of depth 0 and with parent
`nodes_.end()`. -/
def ctor : document_tree_batch_inserter :=
  { nodes_ := [{ depth := 0, parent := none, name := [], value := document_node_value.of_root_tag }],
    max_depth_ := 0,
    size_ := 1 }

/-- The loop `for (auto it = parent; it != root(); it = it->parent) { ++d; }` of
`emplace`; `none` when it dereferences `nodes_.end()` or outlasts the bound. -/
def depth_loop (nodes_ : List inserter_node) : Nat → Option Nat → Nat → Option Nat
  | 0, _, _ => none
  | fuel + 1, it, d =>
    if it = some 0 then some d
    else
      match it with
      | none => none
      | some k =>
        match nodes_[k]? with
        | none => none
        | some e => depth_loop nodes_ fuel e.parent (d + 1)

/-- Method `emplace(parent, name, value)`: the new pool and the iterator to the new entry. -/
def emplace (ins : document_tree_batch_inserter) (parent : Option Nat) (name : List Char)
    (value : document_node_value) : Option (document_tree_batch_inserter × Nat) :=
  match depth_loop ins.nodes_ (ins.nodes_.length + 1) parent 1 with
  | none => none
  | some d =>
    some ({ nodes_ := ins.nodes_ ++ [{ depth := d, parent := parent, name := name, value := value }],
            max_depth_ := max ins.max_depth_ d,
            size_ := ins.size_ + 1 },
          ins.nodes_.length)

/-- The path from an entry up to the pool root, the entry first. -/
def ancestors (nodes_ : List inserter_node) : Nat → Nat → List Nat
  | 0, k => [k]
  | fuel + 1, k =>
    match nodes_[k]? with
    | none => [k]
    | some e =>
      match e.parent with
      | none => [k]
      | some p => k :: ancestors nodes_ fuel p

/-- Read `depth` of the pool entry at position `k`. -/
def depth_at (nodes_ : List inserter_node) (k : Nat) : Nat :=
  match nodes_[k]? with
  | some e => e.depth
  | none => 0

/-- Read `parent` of the pool entry at position `k`. -/
def parent_at (nodes_ : List inserter_node) (k : Nat) : Option Nat :=
  match nodes_[k]? with
  | some e => e.parent
  | none => none

/-- Read `index` of the pool entry at position `k`. -/
def index_at (nodes_ : List inserter_node) (k : Nat) : Nat :=
  match nodes_[k]? with
  | some e => e.index
  | none => 0

/-- Read `parent->index` through a parent iterator (0 stands in for the read through
`nodes_.end()`, which no entry of a pass has as parent). -/
def parent_index (nodes_ : List inserter_node) (parent : Option Nat) : Nat :=
  match parent with
  | none => 0
  | some p => index_at nodes_ p

/-- The pools filled in depth-first discovery order: every `emplace` names as parent the
most recently staged entry or one of its ancestors. -/
inductive depth_first : document_tree_batch_inserter → Prop where
  | ctor : depth_first ctor
  | emplace {ins ins1 : document_tree_batch_inserter} {it : Nat} (h : depth_first ins)
      (parent : Nat)
      (hparent : parent ∈ ancestors ins.nodes_ ins.nodes_.length (ins.nodes_.length - 1))
      (name : List Char) (value : document_node_value)
      (hemplace : ins.emplace (some parent) name value = some (ins1, it)) : depth_first ins1

/-- What the materialization uses of a pool: the root entry comes first, has depth 0 and
no parent; every other entry has an earlier parent one level up; `depth()` bounds the
depths and `size()` is the number of entries; no `index` is set yet; and of two entries of
one depth the later one has the same or a later parent. -/
def well_staged (ins : document_tree_batch_inserter) : Prop :=
  0 < ins.nodes_.length ∧ ins.size_ = ins.nodes_.length ∧
  depth_at ins.nodes_ 0 = 0 ∧ parent_at ins.nodes_ 0 = none ∧
  (∀ k, 0 < k → k < ins.nodes_.length →
    ∃ p, parent_at ins.nodes_ k = some p ∧ p < k ∧
      depth_at ins.nodes_ k = depth_at ins.nodes_ p + 1) ∧
  (∀ k, k < ins.nodes_.length → depth_at ins.nodes_ k ≤ ins.max_depth_) ∧
  (∀ k, index_at ins.nodes_ k = 0) ∧
  (∀ a b pa pb, 0 < a → a < b → b < ins.nodes_.length →
    depth_at ins.nodes_ a = depth_at ins.nodes_ b →
    parent_at ins.nodes_ a = some pa → parent_at ins.nodes_ b = some pb → pa ≤ pb)

/-- The pool staged for the document with members a = 1, b = [2, 3] and c = (d = 4). -/
def sample_pool : document_tree_batch_inserter :=
  { nodes_ := [
      { depth := 0, parent := none, name := [], value := document_node_value.of_root_tag },
      { depth := 1, parent := some 0, name := [], value := document_node_value.of_object_tag },
      { depth := 2, parent := some 1, name := ['a'], value := document_node_value.of_int 1 },
      { depth := 2, parent := some 1, name := ['b'], value := document_node_value.of_array_tag },
      { depth := 3, parent := some 3, name := [], value := document_node_value.of_int 2 },
      { depth := 3, parent := some 3, name := [], value := document_node_value.of_int 3 },
      { depth := 2, parent := some 1, name := ['c'], value := document_node_value.of_object_tag },
      { depth := 3, parent := some 6, name := ['d'], value := document_node_value.of_int 4 }],
    max_depth_ := 3,
    size_ := 8 }

end document_tree_batch_inserter

/-- The state of the materialization loop: the pool (whose `index` fields it fills), the
node array and `counter`. -/
structure materialize_state where
  pool : List inserter_node
  nodes_ : List document_tree_node
  counter : Nat

-- The members of class document_tree_parser: its static helpers and operator().
namespace document_tree_parser_t

/-- Call `tree.nodes_.resize(n)`: the array is cut, or padded with default-constructed
nodes. -/
def resize (nodes_ : List document_tree_node) (n : Nat) : List document_tree_node :=
  nodes_.take n ++ List.replicate (n - nodes_.length) document_tree_node.of_default

/-- The body of the inner materialization loop for the pool entry at position `k`, in the
pass for depth `i`: an entry of another depth is filtered out; otherwise it gets the next
position and its node is constructed there from its parent's position, its name and its
value. -/
def materialize_entry (i : Nat) (st : materialize_state) (k : Nat) : materialize_state :=
  match st.pool[k]? with
  | none => st
  | some j =>
    if j.depth = i then
      let pool1 := st.pool.set k { j with index := st.counter }
      let parent_index : Nat := document_tree_batch_inserter.parent_index pool1 j.parent
      { pool := pool1,
        nodes_ := st.nodes_.set st.counter (document_tree_node.of_pid (parent_index : Int) j.name j.value),
        counter := st.counter + 1 }
    else st

/-- What the inner materialization loop does for an entry that passes the depth filter. -/
def materialize_step (st : materialize_state) (k : Nat) : materialize_state :=
  materialize_entry (document_tree_batch_inserter.depth_at st.pool k) st k

/-- The order in which the materialization takes the pool entries: pass by pass, and in
pool order within a pass. -/
def materialize_order (ins : document_tree_batch_inserter) : List Nat :=
  (List.range' 1 ins.max_depth_).flatMap (fun i =>
    (List.range ins.nodes_.length).filter (fun k =>
      decide (document_tree_batch_inserter.depth_at ins.nodes_ k = i)))

/-- The state of the materialization once the entries `taken` are dealt with, for the
pool `pool0` and the resized array `nodes0` it started from: the counter is one past
their number; the pool differs from `pool0` in `index` fields only; the entries taken
hold the positions 1, 2, ... in the order taken and the pool root holds 0; the node at
each of these positions is built from its entry's name and value and from the `index`
of the entry's parent; and position 0 of the array is untouched. -/
def materialized (pool0 : List inserter_node) (nodes0 : List document_tree_node)
    (taken : List Nat) (st : materialize_state) : Prop :=
  st.counter = taken.length + 1 ∧
  st.pool.length = pool0.length ∧ st.nodes_.length = nodes0.length ∧
  (∀ (x : Nat) (e0 : inserter_node), pool0[x]? = some e0 →
    st.pool[x]? = some { e0 with index := document_tree_batch_inserter.index_at st.pool x }) ∧
  (∀ (j : Nat) (k : Nat), taken[j]? = some k →
    document_tree_batch_inserter.index_at st.pool k = j + 1) ∧
  document_tree_batch_inserter.index_at st.pool 0 = 0 ∧
  (∀ (j : Nat) (k : Nat) (e0 : inserter_node), taken[j]? = some k → pool0[k]? = some e0 →
    st.nodes_[j + 1]? = some (document_tree_node.of_pid
      ((document_tree_batch_inserter.parent_index st.pool e0.parent : Nat) : Int) e0.name e0.value)) ∧
  st.nodes_[0]? = nodes0[0]?

/-- The materialization loop at the end of `operator()`: one pass over the pool for each
depth from 1 to `inserter.depth()`. -/
def materialize_loop (nodes_ : List document_tree_node) (ins : document_tree_batch_inserter) :
    materialize_state :=
  (List.range' 1 ins.max_depth_).foldl
    (fun st i => (List.range ins.nodes_.length).foldl (materialize_entry i) st)
    { pool := ins.nodes_, nodes_ := resize nodes_ ins.size_, counter := 1 }

/-- The node array that the materialization leaves in the tree. -/
def materialize (nodes_ : List document_tree_node) (ins : document_tree_batch_inserter) :
    List document_tree_node :=
  (materialize_loop nodes_ ins).nodes_

/-- Function `std::isspace` in the "C" locale. -/
def c_isspace (c : Char) : Bool :=
  c == ' ' || c == '\t' || c == '\n' || c == '\x0b' || c == '\x0c' || c == '\r'

/-- Function `std::isalnum` in the "C" locale. -/
def c_isalnum (c : Char) : Bool :=
  ('0' ≤ c && c ≤ '9') || ('a' ≤ c && c ≤ 'z') || ('A' ≤ c && c ≤ 'Z')

/-- The loop of `parse_spaces`; the first argument is the distance to the end. -/
def parse_spaces_loop (input : List Char) : Nat → Nat → Nat
  | 0, beg => beg
  | fuel + 1, beg =>
    match input[beg]? with
    | none => beg
    | some c => if c_isspace c then parse_spaces_loop input fuel (beg + 1) else beg

/-- Function `parse_spaces(beg, end)`. -/
def parse_spaces (input : List Char) (beg : Nat) : Nat :=
  parse_spaces_loop input (input.length - beg) beg

/-- The first loop of `parse_name_or_string`: copy up to the closing quote or the end. -/
def copy_to_quote (input : List Char) : Nat → Nat → List Char → Nat × List Char
  | 0, beg, str => (beg, str)
  | fuel + 1, beg, str =>
    match input[beg]? with
    | none => (beg, str)
    | some c => if c ≠ '"' then copy_to_quote input fuel (beg + 1) (str ++ [c]) else (beg, str)

/-- Function `parse_name_or_string(is_name, str, beg, end)`: `is_name`, the string and
the new position; `none` when the end iterator is incremented or dereferenced. -/
def parse_name_or_string (input : List Char) (str : List Char) (beg : Nat) :
    Option (Bool × List Char × Nat) :=
  let r := copy_to_quote input (input.length - beg) beg str
  if r.1 < input.length then
    let beg1 := parse_spaces input (r.1 + 1)
    match input[beg1]? with
    | none => none
    | some c => if c = ':' then some (true, r.2, beg1 + 1) else some (false, r.2, beg1)
  else none

/-- The loop of `parse_number`: `is_float`, the buffer and the position. -/
def parse_number_loop (input : List Char) : Nat → Bool → List Char → Nat → Bool × List Char × Nat
  | 0, is_float, buffer, beg => (is_float, buffer, beg)
  | fuel + 1, is_float, buffer, beg =>
    match input[beg]? with
    | none => (is_float, buffer, beg)
    | some c =>
      if c_isalnum c || c == '.' || c == '+' || c == '-' then
        parse_number_loop input fuel (is_float || c == '.' || c == 'e' || c == 'E') (buffer ++ [c])
          (beg + 1)
      else (is_float, buffer, beg)

/-- Function `parse_number(is_float, buffer, beg, end)`. -/
def parse_number (input : List Char) (is_float : Bool) (buffer : List Char) (beg : Nat) :
    Bool × List Char × Nat :=
  parse_number_loop input (input.length - beg) is_float buffer beg

/-- Call `std::from_chars(first, last, i, 10)` for an `int`: an optional minus sign and
the longest run of digits; `none` when the call reports an error (no digit, or a value
that an `int` cannot hold) and leaves `i` uninitialised. -/
def from_chars_int (buffer : List Char) : Option Int :=
  let negative := buffer.head? == some '-'
  let digits := (if negative then buffer.drop 1 else buffer).takeWhile Char.isDigit
  if digits = [] then none
  else
    let magnitude : Nat := digits.foldl (fun a c => 10 * a + (c.toNat - '0'.toNat)) 0
    let v : Int := if negative then -(magnitude : Int) else (magnitude : Int)
    if -(2 : Int) ^ (8 * SIZEOF_INT - 1) ≤ v ∧ v < (2 : Int) ^ (8 * SIZEOF_INT - 1) then some v else none

/-- Function `emplace_value(inserter, current, current_parent, value)`: the pool and the
returned iterator; `none` when `nodes_.end()` is dereferenced. -/
def emplace_value (ins : document_tree_batch_inserter) (current current_parent : Option Nat)
    (value : document_node_value) : Option (document_tree_batch_inserter × Option Nat) :=
  match current_parent with
  | none => none
  | some cp =>
    match ins.nodes_[cp]? with
    | none => none
    | some e =>
      if e.value.type = document_tree_node_type.array then
        match ins.emplace (some cp) [] value with
        | none => none
        | some r => some (r.1, some r.2)
      else
        match current with
        | none => none
        | some c =>
          if c < ins.nodes_.length then
            some ({ ins with nodes_ := ins.nodes_.modify (fun e => { e with value := value }) c }, some c)
          else none

/-- The local variables of `operator()` that live across the iterations of its loop. -/
structure parser_state where
  beg : Nat
  inserter : document_tree_batch_inserter
  current : Option Nat
  current_parent : Option Nat

/-- How one pass through the `switch` ends: with `break`, or with the `return beg` of
the default branch. -/
inductive switch_result where
  | break_ (st : parser_state)
  | return_ (beg : Nat)

/-- The character tests of a keyword after its first letter: for each expected letter,
`++beg; if (*beg != letter) { break; }`, and a last `++beg` when all match.  The result is
the position and whether all letters matched; `none` when the end is dereferenced. -/
def match_keyword (input : List Char) : List Char → Nat → Option (Nat × Bool)
  | [], beg => some (beg + 1, true)
  | letter :: rest, beg =>
    match input[beg + 1]? with
    | none => none
    | some c => if c ≠ letter then some (beg + 1, false) else match_keyword input rest (beg + 1)

/-- The name of the pool entry `current` points to (`current->name`). -/
def current_name (ins : document_tree_batch_inserter) (current : Option Nat) : Option (List Char) :=
  match current with
  | none => none
  | some c =>
    match ins.nodes_[c]? with
    | none => none
    | some e => some e.name

/-- The cases `'{'` and `'['` of the switch, which differ in the tag only. -/
def open_container (st : parser_state) (tag : document_node_value) : Option switch_result :=
  match current_name st.inserter st.current with
  | none => none
  | some name =>
    if name = [] then
      match st.inserter.emplace st.current_parent [] tag with
      | none => none
      | some r =>
        some (switch_result.break_
          { beg := st.beg + 1, inserter := r.1, current := some r.2, current_parent := some r.2 })
    else
      match emplace_value st.inserter st.current st.current_parent tag with
      | none => none
      | some r =>
        some (switch_result.break_
          { beg := st.beg + 1, inserter := r.1, current := r.2, current_parent := r.2 })

/-- A scalar case of the switch that discards the iterator `emplace_value` returns. -/
def emplace_scalar (st : parser_state) (beg : Nat) (value : document_node_value) :
    Option switch_result :=
  match emplace_value st.inserter st.current st.current_parent value with
  | none => none
  | some r => some (switch_result.break_ { st with beg := beg, inserter := r.1 })

/-- One pass through the `switch (*beg)` of `operator()`, on the character `c` at
`st.beg`; `none` when the pass runs into undefined behaviour. -/
def switch_case (fm : float_model) (input : List Char) (st : parser_state) (c : Char) :
    Option switch_result :=
  if c = ' ' ∨ c = '\n' ∨ c = '\t' ∨ c = '\r' then
    some (switch_result.break_ { st with beg := parse_spaces input st.beg })
  else if c = '"' then
    match parse_name_or_string input [] (st.beg + 1) with
    | none => none
    | some (is_name, buffer, beg) =>
      if is_name then
        match st.inserter.emplace st.current_parent buffer document_node_value.of_null with
        | none => none
        | some r =>
          some (switch_result.break_ { st with beg := beg, inserter := r.1, current := some r.2 })
      else
        match emplace_value st.inserter st.current st.current_parent
            (document_node_value.of_string buffer) with
        | none => none
        | some r => some (switch_result.break_ { st with beg := beg, inserter := r.1, current := r.2 })
  else if c = '\x7b' then open_container st document_node_value.of_object_tag
  else if c = '[' then open_container st document_node_value.of_array_tag
  else if c = '\x7d' ∨ c = ']' then
    match st.current_parent with
    | none => none
    | some cp =>
      match st.inserter.nodes_[cp]? with
      | none => none
      | some e =>
        some (switch_result.break_
          { st with beg := st.beg + 1, current := some cp, current_parent := e.parent })
  else if c.isDigit ∨ c = '-' then
    match parse_number input false [] st.beg with
    | (is_float, buffer, beg) =>
      if is_float then
        match fm.from_chars buffer with
        | none => none
        | some bytes => emplace_scalar st beg (document_node_value.of_float_bytes bytes)
      else
        match from_chars_int buffer with
        | none => none
        | some i => emplace_scalar st beg (document_node_value.of_int i)
  else if c = 't' then
    match match_keyword input ['r', 'u', 'e'] st.beg with
    | none => none
    | some (beg, matched) =>
      if matched then emplace_scalar st beg (document_node_value.of_bool true)
      else some (switch_result.break_ { st with beg := beg })
  else if c = 'f' then
    match match_keyword input ['a', 'l', 's', 'e'] st.beg with
    | none => none
    | some (beg, matched) =>
      if matched then emplace_scalar st beg (document_node_value.of_bool false)
      else some (switch_result.break_ { st with beg := beg })
  else if c = 'n' then
    match match_keyword input ['u', 'l', 'l'] st.beg with
    | none => none
    | some (beg, matched) =>
      if matched then
        -- no `break`: control falls through into `case ','`, which is `++beg`
        if beg < input.length then emplace_scalar st (beg + 1) document_node_value.of_null
        else none
      else some (switch_result.break_ { st with beg := beg })
  else if c = ',' then some (switch_result.break_ { st with beg := st.beg + 1 })
  else some (switch_result.return_ st.beg)

/-- The loop `for (;beg != end;)` of `operator()` followed by the materialization: the
returned position and the tree's node array.  Every pass consumes a character, so the
first argument, given as the input length plus one, is never outlasted; `none` stands for
undefined behaviour. -/
def parse_loop (fm : float_model) (input : List Char) (nodes_ : List document_tree_node) :
    Nat → parser_state → Option (Nat × List document_tree_node)
  | 0, _ => none
  | fuel + 1, st =>
    match input[st.beg]? with
    | none => some (st.beg, materialize nodes_ st.inserter)
    | some c =>
      match switch_case fm input st c with
      | none => none
      | some (switch_result.return_ beg) => some (beg, nodes_)
      | some (switch_result.break_ st1) => parse_loop fm input nodes_ fuel st1

/-- Method `operator()(beg, end)` of the parser on the tree with node array `nodes_`:
the returned position and the node array afterwards. -/
def parse (fm : float_model) (input : List Char) (nodes_ : List document_tree_node) :
    Option (Nat × List document_tree_node) :=
  parse_loop fm input nodes_ (input.length + 1)
    { beg := 0, inserter := document_tree_batch_inserter.ctor, current := some 0,
      current_parent := some 0 }

end document_tree_parser_t

namespace document_tree

/-- The cursor method `parent()` for the node `nd` at position `it`. -/
def iterator_parent (nd : document_tree_node) (it : Nat) : Nat :=
  if nd.pid_ ≠ -1 then nd.pid_.toNat else it

/-- Method `format_to_impl(depth, it, out)`: the characters written.  The recursion of
the source is bounded by the first argument; `none` means the bound was reached. -/
def format_to_impl (fm : float_model) (nodes_ : List document_tree_node) :
    Nat → Nat → Nat → Option (List Char)
  | 0, _, _ => none
  | fuel + 1, depth, it =>
    match nodes_[it]? with
    | none => some []
    | some nd =>
      let is_parent_t_node := nd.value_.parent_type
      let is_last_sibling : Bool := it == search_child_end nodes_ (iterator_parent nd it) - 1
      let indent := List.replicate (depth * 2) ' '
      let head := indent
        ++ (if nd.name_ ≠ [] then '"' :: (nd.name_ ++ ['"', ':']) else [])
        ++ nd.value_.format_to fm true
        ++ (if !is_parent_t_node && !is_last_sibling then [','] else [])
        ++ ['\n']
      let tail := (if is_parent_t_node then indent else [])
        ++ nd.value_.format_to fm false
        ++ (if is_parent_t_node then (if !is_last_sibling then [','] else []) ++ ['\n'] else [])
      match (List.range' (search_child_begin nodes_ it)
          (search_child_end nodes_ it - search_child_begin nodes_ it)).foldlM
          (fun out c => (format_to_impl fm nodes_ fuel (depth + 1) c).map (fun s => out ++ s)) [] with
      | none => none
      | some children => some (head ++ children ++ tail)

/-- Method `format_to(out)`: the characters written. -/
def format_to (fm : float_model) (nodes_ : List document_tree_node) : Option (List Char) :=
  format_to_impl fm nodes_ (nodes_.length + 1) 0 1

end document_tree

namespace document_tree_parser_t

/-- A document whose array ends in `null` and is followed by a further member. -/
def null_in_array_document : List Char := "\x7b\"a\":[null],\"b\":1\x7d".toList

/-- The same document with `true` in the place of `null`. -/
def true_in_array_document : List Char := "\x7b\"a\":[true],\"b\":1\x7d".toList

/-- The tree of `true_in_array_document`: the object holds the array `a`, with the one
element `true`, and the member `b` of value 1. -/
def true_in_array_tree : List document_tree_node :=
  [document_tree_node.of_pid (-1) [] document_node_value.of_root_tag,
   document_tree_node.of_pid 0 [] document_node_value.of_object_tag,
   document_tree_node.of_pid 1 ['a'] document_node_value.of_array_tag,
   document_tree_node.of_pid 1 ['b'] (document_node_value.of_int 1),
   document_tree_node.of_pid 2 [] (document_node_value.of_bool true)]

/-- A tree in which the array `a` holds three elements: `null`, an element named `b` of
value `null`, and 1; the object holds nothing but `a`. -/
def null_in_array_tree : List document_tree_node :=
  [document_tree_node.of_pid (-1) [] document_node_value.of_root_tag,
   document_tree_node.of_pid 0 [] document_node_value.of_object_tag,
   document_tree_node.of_pid 1 ['a'] document_node_value.of_array_tag,
   document_tree_node.of_pid 2 [] document_node_value.of_null,
   document_tree_node.of_pid 2 ['b'] document_node_value.of_null,
   document_tree_node.of_pid 2 [] (document_node_value.of_int 1)]

/-- The text written for `null_in_array_tree`. -/
def null_in_array_text : List Char :=
  "\x7b\n  \"a\":[\n    null,\n    \"b\":null,\n    1\n  ]\n\x7d\n".toList

/-- A tree in which the array `a` holds four elements: `null`, an element named `b` of
value `null`, a further `null`, and 1. -/
def null_in_array_reparsed : List document_tree_node :=
  [document_tree_node.of_pid (-1) [] document_node_value.of_root_tag,
   document_tree_node.of_pid 0 [] document_node_value.of_object_tag,
   document_tree_node.of_pid 1 ['a'] document_node_value.of_array_tag,
   document_tree_node.of_pid 2 [] document_node_value.of_null,
   document_tree_node.of_pid 2 ['b'] document_node_value.of_null,
   document_tree_node.of_pid 2 [] document_node_value.of_null,
   document_tree_node.of_pid 2 [] (document_node_value.of_int 1)]

end document_tree_parser_t

end jxxson

namespace jxxson
namespace document_tree

/-- The bound that the loop of `insert_or_access(actual_root, i)` tests `j` against, in
the tree as it is when the test runs:
`static_cast<std::ptrdiff_t>(i + 1 - (actual_root.end() - actual_root.begin()))`.  The sum
and the difference are computed in `std::size_t`. -/
def insert_or_access_bound (nodes_ : List document_tree_node) (actual_root : Nat) (i : Nat) : Int :=
  to_ptrdiff_t (to_size_t ((((i + 1) % SIZE_MOD : Nat) : Int)
    - ((search_child_end nodes_ actual_root : Int) - (search_child_begin nodes_ actual_root : Int))))

/-- The loop `for (std::ptrdiff_t j = 0; j < bound; ++j) { actual_root.emplace("", {}); }`
of `insert_or_access(actual_root, i)`, from the value `j` on; the bound is evaluated anew
before every round.  The first argument bounds the number of rounds; `none` means it was
outlasted. -/
def insert_or_access_loop (actual_root : Nat) (i : Nat) :
    Nat → List document_tree_node → Int → Option (List document_tree_node)
  | 0, _, _ => none
  | fuel + 1, nodes_, j =>
    if j < insert_or_access_bound nodes_ actual_root i then
      insert_or_access_loop actual_root i fuel
        (emplace nodes_ actual_root [] document_node_value.of_null).1 (j + 1)
    else some nodes_

/-- Method `insert_or_access(actual_root, i)`: the node array afterwards and the returned
cursor `actual_root.begin() + i` as an offset from `data()`.  The loop counter can take no
more values than `std::ptrdiff_t` has from 0 on, which bounds the rounds. -/
def insert_or_access_index (nodes_ : List document_tree_node) (actual_root : Nat) (i : Nat) :
    Option (List document_tree_node × Int) :=
  match insert_or_access_loop actual_root i (SIZE_MOD / 2 + 1) nodes_ 0 with
  | none => none
  | some nodes1 => some (nodes1, (search_child_begin nodes1 actual_root : Int) + to_ptrdiff_t i)

/-- The number of parent links followed from position `i` until position 0 is met,
following at most as many links as the first argument says. -/
def depth_steps (nodes_ : List document_tree_node) : Nat → Nat → Nat
  | 0, _ => 0
  | fuel + 1, i =>
    if i = 0 then 0 else depth_steps nodes_ fuel (parent_index_at nodes_ i).toNat + 1

/-- The depth of the node at position `i`: the number of parent steps needed to reach
position 0.  A chain of parent links that reaches position 0 has fewer links than the
array has nodes. -/
def node_depth (nodes_ : List document_tree_node) (i : Nat) : Nat :=
  depth_steps nodes_ nodes_.length i

/-- The layout is breadth-first: the depth of the nodes is non-decreasing along the array. -/
def depth_sorted (nodes_ : List document_tree_node) : Prop :=
  ∀ j < nodes_.length, ∀ i < j, node_depth nodes_ i ≤ node_depth nodes_ j

instance (nodes_ : List document_tree_node) : Decidable (depth_sorted nodes_) := by
  unfold depth_sorted; infer_instance

/-- The node at position `it` is the last child of its parent: no later position has the
same parent index. -/
def last_of_parent (nodes_ : List document_tree_node) (it : Nat) : Prop :=
  ∀ j < nodes_.length, it < j → parent_index_at nodes_ j ≠ parent_index_at nodes_ it

instance (nodes_ : List document_tree_node) (it : Nat) : Decidable (last_of_parent nodes_ it) := by
  unfold last_of_parent; infer_instance

/-- The name part of a node's rendering: the name between double quotes and a colon, or
nothing for an unnamed node. -/
def rendered_name (nd : document_tree_node) : List Char :=
  if nd.name_ ≠ [] then '"' :: (nd.name_ ++ ['"', ':']) else []

/-- The renderings of the children of the node at `it`, one after the other, each as
`format_to_impl` gives it with the bound `fuel` at the depth `depth`. -/
def rendered_children (fm : float_model) (nodes_ : List document_tree_node) (fuel depth it : Nat) :
    List Char :=
  ((List.range' (search_child_begin nodes_ it)
      (search_child_end nodes_ it - search_child_begin nodes_ it)).map
    (fun c => (format_to_impl fm nodes_ fuel depth c).getD [])).flatten

end document_tree

namespace document_tree_parser_t

/-- The characters named by a `case` label of the switch in `operator()`; every other
character takes the `default` branch. -/
def case_label (c : Char) : Bool :=
  c == ' ' || c == '\n' || c == '\t' || c == '\r' || c == '"' || c == '\x7b' || c == '['
    || c == '\x7d' || c == ']' || c == '0' || c == '1' || c == '2' || c == '3' || c == '4'
    || c == '5' || c == '6' || c == '7' || c == '8' || c == '9' || c == '-' || c == 't'
    || c == 'f' || c == 'n' || c == ','

/-- The document with the members a = 1, b = [2, 3] and c = (d = 4). -/
def sample_document : List Char :=
  "\x7b\"a\":1,\"b\":[2,3],\"c\":\x7b\"d\":4\x7d\x7d".toList

/-- An object that holds a scalar without a name: the scalar `1` at position 1 has no
preceding name. -/
def nameless_scalar_document : List Char := "\x7b1\x7d".toList

/-- A complete object followed by a closing brace that matches nothing, at position 7. -/
def unmatched_close_document : List Char := "\x7b\"a\":1\x7d\x7d".toList

/-- The state of the parser's local variables when the loop of `operator()` starts. -/
def initial_state : parser_state :=
  { beg := 0, inserter := document_tree_batch_inserter.ctor, current := some 0,
    current_parent := some 0 }

end document_tree_parser_t
end jxxson

namespace jxxson
namespace document_tree

/-- A tree built through the public operations in which the object at position 1 holds
two empty objects, `a` at position 2 and `b` at position 3. -/
def two_empty_objects : List document_tree_node :=
  let t0 := ctor 16
  let t1 := (emplace t0 0 [] document_node_value.of_object_tag).1
  let t2 := (emplace t1 1 ['a'] document_node_value.of_object_tag).1
  (emplace t2 1 ['b'] document_node_value.of_object_tag).1

/-- The position that a position of the array has after a node is inserted at `q`. -/
def position_after_insert (q : Nat) (i : Nat) : Nat := if i < q then i else i + 1

/-- The position that a position other than `w` has after the node at `w` is erased. -/
def position_after_erase (w : Nat) (i : Nat) : Nat := if i < w then i else i - 1

/-- The nesting depth of a node in the output of `format_to`: 0 for the node at position
1, and for every other node one more than for its parent. -/
def nesting_depth (nodes_ : List document_tree_node) (it : Nat) : Nat :=
  node_depth nodes_ it - 1

/-- The text that `format_to_impl` writes for the node at position `it` when called at
the node's nesting depth (empty if the bound on the recursion were reached). -/
def rendering (fm : float_model) (nodes_ : List document_tree_node) (it : Nat) : List Char :=
  (format_to_impl fm nodes_ (nodes_.length + 1) (nesting_depth nodes_ it) it).getD []

/-- The positions of the child range of the node at position `it`, in order. -/
def child_positions (nodes_ : List document_tree_node) (it : Nat) : List Nat :=
  List.range' (search_child_begin nodes_ it)
    (search_child_end nodes_ it - search_child_begin nodes_ it)

end document_tree

namespace document_tree_batch_inserter

/-- The pools that the constructor and `emplace` under an entry of the pool give. -/
inductive staged : document_tree_batch_inserter → Prop where
  | ctor : staged ctor
  | emplace {ins ins1 : document_tree_batch_inserter} {it : Nat} (h : staged ins)
      (parent : Nat) (hparent : parent < ins.nodes_.length)
      (name : List Char) (value : document_node_value)
      (hemplace : ins.emplace (some parent) name value = some (ins1, it)) : staged ins1

/-- What the materialization uses of a pool whatever the order of staging: the root entry
comes first, has depth 0 and no parent; every other entry has an earlier parent one level
up; `depth()` bounds the depths and `size()` is the number of entries; and no `index` is
set yet. -/
def well_linked (ins : document_tree_batch_inserter) : Prop :=
  0 < ins.nodes_.length ∧ ins.size_ = ins.nodes_.length ∧
  depth_at ins.nodes_ 0 = 0 ∧ parent_at ins.nodes_ 0 = none ∧
  (∀ k, 0 < k → k < ins.nodes_.length →
    ∃ p, parent_at ins.nodes_ k = some p ∧ p < k ∧
      depth_at ins.nodes_ k = depth_at ins.nodes_ p + 1) ∧
  (∀ k, k < ins.nodes_.length → depth_at ins.nodes_ k ≤ ins.max_depth_) ∧
  (∀ k, index_at ins.nodes_ k = 0)

/-- A pool that is not staged in depth-first order: two arrays under the root, and then
an element in each, the element of the first array being staged after the second array. -/
def interleaved_pool : document_tree_batch_inserter :=
  { nodes_ := [
      { depth := 0, parent := none, name := [], value := document_node_value.of_root_tag },
      { depth := 1, parent := some 0, name := [], value := document_node_value.of_array_tag },
      { depth := 1, parent := some 0, name := [], value := document_node_value.of_array_tag },
      { depth := 2, parent := some 2, name := [], value := document_node_value.of_int 2 },
      { depth := 2, parent := some 1, name := [], value := document_node_value.of_int 1 }],
    max_depth_ := 2,
    size_ := 5 }

end document_tree_batch_inserter

namespace document_tree_parser_t

/-- An outer array that holds an inner array with the one element `null`, and 1. -/
def nested_null_document : List Char := "[[null],1]".toList

end document_tree_parser_t
end jxxson

namespace jxxson
namespace document_tree

/-- Every node has a parent index smaller than its own position; the parent index -1 of a
synthetic root is smaller than every position. -/
def parent_before (nodes_ : List document_tree_node) : Prop :=
  ∀ i < nodes_.length, parent_index_at nodes_ i < (i : Int)

instance (nodes_ : List document_tree_node) : Decidable (parent_before nodes_) := by
  unfold parent_before; infer_instance

/-- The positions on which `tag_current_and_all_children_to_unknow_(root)` calls itself:
the range between its two binary searches, which run after `root->dying(true)`. -/
def tagged_children (nodes_ : List document_tree_node) (root : Nat) : List Nat :=
  let nodes1 := set_dying nodes_ root
  let beg := upper_bound nodes1 root nodes1.length ((root : Int) - 1)
  let end_ := upper_bound nodes1 root nodes1.length (root : Int)
  List.range' beg (end_ - beg)

/-- A tree built through the public operations in which the synthetic root has two
children: the object at position 1, which holds the member `a` of value 1 at position 3,
and the integer 7 at position 2. -/
def two_root_children : List document_tree_node :=
  let t0 := ctor 16
  let t1 := (emplace t0 0 [] document_node_value.of_object_tag).1
  let t2 := (emplace t1 0 [] (document_node_value.of_int 7)).1
  (emplace t2 1 ['a'] (document_node_value.of_int 1)).1

/-- The store `two_root_children` with another name and value at position 2. -/
def two_root_children_changed : List document_tree_node :=
  two_root_children.modify
    (fun nd => { nd with name_ := ['z'], value_ := document_node_value.of_bool true }) 2

end document_tree
end jxxson

namespace jxxson
namespace document_tree

/-- On a range where the projection is non-decreasing, the binary search returns the
partition point: everything before it is `≤ value`, everything from it on is `> value`. -/
theorem upper_bound_loop_spec (proj : Nat → Int) (value : Int) :
    ∀ (fuel first len : Nat), len ≤ fuel →
      (∀ i j, first ≤ i → i ≤ j → j < first + len → proj i ≤ proj j) →
      first ≤ upper_bound_loop proj value fuel first len ∧
      upper_bound_loop proj value fuel first len ≤ first + len ∧
      (∀ i, first ≤ i → i < upper_bound_loop proj value fuel first len → proj i ≤ value) ∧
      (∀ i, upper_bound_loop proj value fuel first len ≤ i → i < first + len → value < proj i) := by
  intro fuel
  induction fuel with
  | zero =>
    intro first len hlen _
    have : len = 0 := by omega
    subst this
    simp only [upper_bound_loop]
    refine ⟨le_refl _, by omega, ?_, ?_⟩ <;> intros <;> omega
  | succ fuel ih =>
    intro first len hlen hmono
    simp only [upper_bound_loop]
    by_cases h0 : len = 0
    · subst h0
      simp only [if_true]
      refine ⟨le_refl _, by omega, ?_, ?_⟩ <;> intros <;> omega
    · simp only [h0, if_false]
      have hhalf : len / 2 < len := Nat.div_lt_self (Nat.pos_of_ne_zero h0) (by decide)
      by_cases hc : value < proj (first + len / 2)
      · simp only [hc, if_true]
        obtain ⟨h1, h2, h3, h4⟩ := ih first (len / 2) (by omega)
          (fun i j hi hij hj => hmono i j hi hij (by omega))
        refine ⟨h1, by omega, h3, ?_⟩
        intro i hi hi2
        by_cases hlt : i < first + len / 2
        · exact h4 i hi hlt
        · exact lt_of_lt_of_le hc (hmono _ _ (by omega) (by omega) hi2)
      · simp only [hc, if_false]
        obtain ⟨h1, h2, h3, h4⟩ := ih (first + len / 2 + 1) (len - len / 2 - 1) (by omega)
          (fun i j hi hij hj => hmono i j (by omega) hij (by omega))
        refine ⟨by omega, by omega, ?_, ?_⟩
        · intro i hi hi2
          by_cases hlt : first + len / 2 + 1 ≤ i
          · exact h3 i hlt hi2
          · exact le_trans (hmono i (first + len / 2) hi (by omega) (by omega)) (not_lt.mp hc)
        · intro i hi hi2
          exact h4 i hi (by omega)

theorem upper_bound_spec (nodes_ : List document_tree_node) (hs : parent_index_sorted nodes_)
    (first : Nat) (value : Int) :
    first ≤ upper_bound nodes_ first nodes_.length value ∧
    (first ≤ nodes_.length → upper_bound nodes_ first nodes_.length value ≤ nodes_.length) ∧
    (∀ i, first ≤ i → i < upper_bound nodes_ first nodes_.length value →
      parent_index_at nodes_ i ≤ value) ∧
    (∀ i, upper_bound nodes_ first nodes_.length value ≤ i → i < nodes_.length →
      value < parent_index_at nodes_ i) := by
  have h := upper_bound_loop_spec (parent_index_at nodes_) value (nodes_.length - first) first
    (nodes_.length - first) (le_refl _) (by
      intro i j hi hij hj
      rcases Nat.eq_or_lt_of_le hij with h | h
      · subst h; exact le_refl _
      · exact hs j (by omega) i h)
  obtain ⟨h1, h2, h3, h4⟩ := h
  unfold upper_bound
  refine ⟨h1, fun hf => ?_, h3, fun i hi hi2 => ?_⟩
  · omega
  · by_cases hf : first ≤ nodes_.length
    · exact h4 i hi (by omega)
    · omega

theorem getElem?_vector_emplace (nodes_ : List document_tree_node) (pos : Nat)
    (nd : document_tree_node) (hpos : pos ≤ nodes_.length) (i : Nat) :
    (vector_emplace nodes_ pos nd)[i]? =
      if i < pos then nodes_[i]? else if i = pos then some nd else nodes_[i - 1]? := by
  unfold vector_emplace
  by_cases h1 : i < pos
  · simp [h1, List.getElem?_append_left, List.length_take, hpos, List.getElem?_take]
  · simp only [h1, if_false]
    rw [List.getElem?_append_right (by simp [List.length_take]; omega)]
    simp only [List.length_take, Nat.min_eq_left hpos]
    by_cases h2 : i = pos
    · subst h2; simp
    · simp only [h2, if_false]
      obtain ⟨k, hk⟩ : ∃ k, i - pos = k + 1 := ⟨i - pos - 1, by omega⟩
      rw [hk, List.getElem?_cons_succ, List.getElem?_drop]
      congr 1; omega

theorem length_vector_emplace (nodes_ : List document_tree_node) (pos : Nat)
    (nd : document_tree_node) (hpos : pos ≤ nodes_.length) :
    (vector_emplace nodes_ pos nd).length = nodes_.length + 1 := by
  unfold vector_emplace
  simp [List.length_take, List.length_drop]; omega

theorem getElem?_for_each_from (nodes_ : List document_tree_node) (first : Nat)
    (f : document_tree_node → document_tree_node) (i : Nat) :
    (for_each_from nodes_ first f)[i]? = if i < first then nodes_[i]? else nodes_[i]?.map f := by
  unfold for_each_from
  by_cases h1 : i < first
  · simp only [h1, if_true]
    by_cases h2 : i < nodes_.length
    · rw [List.getElem?_append_left (by simp [List.length_take]; omega)]
      simp [List.getElem?_take, h1]
    · have h3 : nodes_[i]? = none := List.getElem?_eq_none (by omega)
      rw [h3]
      apply List.getElem?_eq_none
      simp [List.length_take, List.length_drop]; omega
  · simp only [h1, if_false]
    by_cases h2 : first ≤ nodes_.length
    · rw [List.getElem?_append_right (by simp [List.length_take]; omega)]
      simp only [List.length_take, Nat.min_eq_left h2, List.getElem?_map, List.getElem?_drop]
      congr 2; omega
    · have h3 : nodes_[i]? = none := List.getElem?_eq_none (by omega)
      rw [h3]
      apply List.getElem?_eq_none
      simp [List.length_take, List.length_drop]; omega

theorem length_for_each_from (nodes_ : List document_tree_node) (first : Nat)
    (f : document_tree_node → document_tree_node) :
    (for_each_from nodes_ first f).length = nodes_.length := by
  unfold for_each_from
  simp [List.length_take, List.length_drop]; omega

theorem parent_index_at_of_lt (nodes_ : List document_tree_node) (i : Nat) (h : i < nodes_.length) :
    parent_index_at nodes_ i = (nodes_[i]).pid_ := by
  unfold parent_index_at
  rw [List.getElem?_eq_getElem h]

theorem parent_index_at_of_ge (nodes_ : List document_tree_node) (i : Nat) (h : nodes_.length ≤ i) :
    parent_index_at nodes_ i = -1 := by
  unfold parent_index_at
  rw [List.getElem?_eq_none h]

theorem parent_index_at_vector_emplace (nodes_ : List document_tree_node) (pos : Nat)
    (nd : document_tree_node) (hpos : pos ≤ nodes_.length) (i : Nat) :
    parent_index_at (vector_emplace nodes_ pos nd) i =
      if i < pos then parent_index_at nodes_ i else if i = pos then nd.pid_
      else parent_index_at nodes_ (i - 1) := by
  unfold parent_index_at
  rw [getElem?_vector_emplace nodes_ pos nd hpos i]
  split_ifs <;> rfl

theorem parent_index_at_for_each_inc (nodes_ : List document_tree_node) (first i : Nat)
    (hi : i < nodes_.length) :
    parent_index_at (for_each_from nodes_ first document_tree_node.inc_parent_index) i =
      if i < first then parent_index_at nodes_ i else parent_index_at nodes_ i + 1 := by
  unfold parent_index_at
  rw [getElem?_for_each_from, List.getElem?_eq_getElem hi]
  split_ifs <;> rfl

theorem parent_index_at_for_each_dec (nodes_ : List document_tree_node) (first i : Nat)
    (hi : i < nodes_.length) :
    parent_index_at (for_each_from nodes_ first document_tree_node.dec_parent_index) i =
      if i < first then parent_index_at nodes_ i else parent_index_at nodes_ i - 1 := by
  unfold parent_index_at
  rw [getElem?_for_each_from, List.getElem?_eq_getElem hi]
  split_ifs <;> rfl

theorem parent_index_at_eraseIdx (nodes_ : List document_tree_node) (which i : Nat) :
    parent_index_at (nodes_.eraseIdx which) i =
      if i < which then parent_index_at nodes_ i else parent_index_at nodes_ (i + 1) := by
  unfold parent_index_at
  rw [List.getElem?_eraseIdx]
  split_ifs <;> rfl

/-- Positions up to the parent's own hold parent indices not above it. -/
theorem parent_index_le_of_le (nodes_ : List document_tree_node) (hinv : invariants nodes_)
    (i : Nat) (p : Nat) (hi : i ≤ p) (hp : p < nodes_.length) : parent_index_at nodes_ i ≤ (p : Int) := by
  obtain ⟨_, hroot, hprec⟩ := hinv
  rcases Nat.eq_zero_or_pos i with h0 | h0
  · subst h0; rw [hroot.2]; omega
  · have := (hprec i (by omega) h0).2
    omega

/-- The two binary searches of `emplace_sorted_` on a store that satisfies the invariants. -/
theorem emplace_sorted_search (nodes_ : List document_tree_node) (hinv : invariants nodes_)
    (p : Nat) (hp : p < nodes_.length) :
    p < upper_bound nodes_ 0 nodes_.length (p : Int) ∧
    upper_bound nodes_ 0 nodes_.length (p : Int) ≤
      upper_bound nodes_ 0 nodes_.length ((upper_bound nodes_ 0 nodes_.length (p : Int) : Int) - 1) ∧
    upper_bound nodes_ 0 nodes_.length ((upper_bound nodes_ 0 nodes_.length (p : Int) : Int) - 1)
      ≤ nodes_.length ∧
    (∀ i, i < upper_bound nodes_ 0 nodes_.length (p : Int) → parent_index_at nodes_ i ≤ (p : Int)) ∧
    (∀ i, upper_bound nodes_ 0 nodes_.length (p : Int) ≤ i → i < nodes_.length →
      (p : Int) < parent_index_at nodes_ i) ∧
    (∀ i, i < upper_bound nodes_ 0 nodes_.length
        ((upper_bound nodes_ 0 nodes_.length (p : Int) : Int) - 1) →
      parent_index_at nodes_ i < (upper_bound nodes_ 0 nodes_.length (p : Int) : Int)) ∧
    (∀ i, upper_bound nodes_ 0 nodes_.length
        ((upper_bound nodes_ 0 nodes_.length (p : Int) : Int) - 1) ≤ i → i < nodes_.length →
      (upper_bound nodes_ 0 nodes_.length (p : Int) : Int) ≤ parent_index_at nodes_ i) := by
  obtain ⟨_, hq2, hq3, hq4⟩ := upper_bound_spec nodes_ hinv.1 0 (p : Int)
  generalize upper_bound nodes_ 0 nodes_.length (p : Int) = q at *
  obtain ⟨_, hu2, hu3, hu4⟩ := upper_bound_spec nodes_ hinv.1 0 ((q : Int) - 1)
  generalize upper_bound nodes_ 0 nodes_.length ((q : Int) - 1) = u at *
  have hpq : p < q := by
    by_contra hcon
    have h1 := hq4 p (by omega) hp
    have h2 := parent_index_le_of_le nodes_ hinv p p (le_refl _) hp
    omega
  have hqu : q ≤ u := by
    by_contra hcon
    have hqn := hq2 (Nat.zero_le _)
    have h1 := hu4 u (le_refl _) (by omega)
    have h2 := hq3 u (Nat.zero_le _) (by omega)
    omega
  refine ⟨hpq, hqu, hu2 (Nat.zero_le _), fun i hi => hq3 i (Nat.zero_le _) hi, hq4, ?_, ?_⟩
  · intro i hi
    have := hu3 i (Nat.zero_le _) hi
    omega
  · intro i hi hi2
    have := hu4 i hi hi2
    omega

theorem length_emplace_sorted (nodes_ : List document_tree_node) (hinv : invariants nodes_)
    (p : Nat) (hp : p < nodes_.length) (name : List Char) (value : document_node_value) :
    (emplace_sorted_ nodes_ p name value).1.length = nodes_.length + 1 := by
  obtain ⟨_, h2, h3, _⟩ := emplace_sorted_search nodes_ hinv p hp
  unfold emplace_sorted_
  simp only
  rw [length_vector_emplace _ _ _ (by rw [length_for_each_from]; omega), length_for_each_from]

theorem parent_index_at_emplace_sorted (nodes_ : List document_tree_node) (hinv : invariants nodes_)
    (p : Nat) (hp : p < nodes_.length) (name : List Char) (value : document_node_value) (i : Nat)
    (hi : i < nodes_.length + 1) :
    parent_index_at (emplace_sorted_ nodes_ p name value).1 i =
      if i < upper_bound nodes_ 0 nodes_.length (p : Int) then parent_index_at nodes_ i
      else if i = upper_bound nodes_ 0 nodes_.length (p : Int) then (p : Int)
      else if i - 1 < upper_bound nodes_ 0 nodes_.length
          ((upper_bound nodes_ 0 nodes_.length (p : Int) : Int) - 1) then parent_index_at nodes_ (i - 1)
      else parent_index_at nodes_ (i - 1) + 1 := by
  obtain ⟨h1, h2, h3, _⟩ := emplace_sorted_search nodes_ hinv p hp
  unfold emplace_sorted_
  simp only
  rw [parent_index_at_vector_emplace _ _ _ (by rw [length_for_each_from]; omega)]
  generalize upper_bound nodes_ 0 nodes_.length (p : Int) = q at *
  generalize upper_bound nodes_ 0 nodes_.length ((q : Int) - 1) = u at *
  by_cases c1 : i < q
  · simp only [c1, if_true]
    rw [parent_index_at_for_each_inc _ _ _ (by omega)]
    simp only [show i < u by omega, if_true]
  · simp only [c1, if_false]
    by_cases c2 : i = q
    · simp only [c2, if_true]; rfl
    · simp only [c2, if_false]
      rw [parent_index_at_for_each_inc _ _ _ (by omega)]

theorem invariants_emplace_sorted (nodes_ : List document_tree_node) (hinv : invariants nodes_)
    (p : Nat) (hp : p < nodes_.length) (name : List Char) (value : document_node_value) :
    invariants (emplace_sorted_ nodes_ p name value).1 := by
  have hlen := length_emplace_sorted nodes_ hinv p hp name value
  have hpid := parent_index_at_emplace_sorted nodes_ hinv p hp name value
  obtain ⟨h1, h2, h3, h4, h5, h6, h7⟩ := emplace_sorted_search nodes_ hinv p hp
  generalize upper_bound nodes_ 0 nodes_.length (p : Int) = q at *
  generalize upper_bound nodes_ 0 nodes_.length ((q : Int) - 1) = u at *
  generalize (emplace_sorted_ nodes_ p name value).1 = nodes1 at *
  obtain ⟨hs, hroot, hprec⟩ := hinv
  refine ⟨?_, ?_, ?_⟩
  · intro j hj i hij
    rw [hpid i (by omega), hpid j (by omega)]
    have a1 := h4 i
    have a2 := h5 (j - 1)
    have a3 := h5 (i - 1)
    have a4 := h6 (i - 1)
    have a5 := h7 (j - 1)
    have a6 := hs (j - 1)
    have a7 := hs j
    split_ifs <;> first
      | omega
      | exact hs j (by omega) i hij
      | (have a8 := a6 (by omega) (i - 1) (by omega); omega)
  · refine ⟨by omega, ?_⟩
    rw [hpid 0 (by omega)]
    simp only [show 0 < q by omega, if_true]
    exact hroot.2
  · intro i hi hi0
    rw [hpid i (by omega)]
    have b1 := hprec i
    have b2 := hprec (i - 1)
    split_ifs <;> omega

theorem getLast?_eq_some_iff_parent_index (nodes_ : List document_tree_node)
    (back : document_tree_node) (h : nodes_.getLast? = some back) :
    0 < nodes_.length ∧ parent_index_at nodes_ (nodes_.length - 1) = back.pid_ := by
  rw [List.getLast?_eq_getElem?] at h
  have hlen : 0 < nodes_.length := by
    rcases Nat.eq_zero_or_pos nodes_.length with h0 | h0
    · rw [List.length_eq_zero] at h0; subst h0; simp at h
    · exact h0
  refine ⟨hlen, ?_⟩
  unfold parent_index_at
  rw [h]

theorem invariants_emplace_back (nodes_ : List document_tree_node) (hinv : invariants nodes_)
    (p : Nat) (hp : p < nodes_.length) (name : List Char) (value : document_node_value)
    (hback : parent_index_at nodes_ (nodes_.length - 1) ≤ (p : Int)) :
    invariants (emplace_back_ nodes_ (some p) name value).1 := by
  have hlen : (emplace_back_ nodes_ (some p) name value).1.length = nodes_.length + 1 :=
    length_vector_emplace _ _ _ (le_refl _)
  have hpid : ∀ i, parent_index_at (emplace_back_ nodes_ (some p) name value).1 i =
      if i < nodes_.length then parent_index_at nodes_ i else if i = nodes_.length then (p : Int)
      else parent_index_at nodes_ (i - 1) := by
    intro i
    unfold emplace_back_
    simp only
    rw [parent_index_at_vector_emplace _ _ _ (le_refl _)]
    rfl
  generalize (emplace_back_ nodes_ (some p) name value).1 = nodes1 at *
  obtain ⟨hs, hroot, hprec⟩ := hinv
  refine ⟨?_, ?_, ?_⟩
  · intro j hj i hij
    rw [hpid i, hpid j]
    have a1 : i < nodes_.length → parent_index_at nodes_ i ≤ (p : Int) := by
      intro hi
      rcases Nat.eq_or_lt_of_le (Nat.le_sub_one_of_lt hi) with h | h
      · rw [h]; exact hback
      · exact le_trans (hs (nodes_.length - 1) (by omega) i h) hback
    split_ifs <;> first
      | omega
      | exact hs j (by omega) i hij
  · refine ⟨by omega, ?_⟩
    rw [hpid 0]
    simp only [hroot.1, if_true]
    exact hroot.2
  · intro i hi hi0
    rw [hpid i]
    have b1 := hprec i
    split_ifs <;> omega

theorem length_emplace (nodes_ : List document_tree_node) (hinv : invariants nodes_)
    (p : Nat) (hp : p < nodes_.length) (name : List Char) (value : document_node_value) :
    (emplace nodes_ p name value).1.length =
      if (nodes_[p]).value_.parent_type then nodes_.length + 1 else nodes_.length := by
  unfold emplace emplace_auto_
  rw [List.getElem?_eq_getElem hp]
  rcases hlast : nodes_.getLast? with _ | back
  · rw [List.getLast?_eq_none_iff] at hlast
    subst hlast; simp at hp
  · simp only
    by_cases hpt : (nodes_[p]).value_.parent_type = true
    · simp only [hpt, if_true]
      by_cases hge : (p : Int) ≥ back.pid_
      · simp only [hge, if_true]
        exact length_vector_emplace _ _ _ (le_refl _)
      · simp only [hge, if_false]
        exact length_emplace_sorted nodes_ hinv p hp name value
    · simp [hpt]

theorem invariants_emplace (nodes_ : List document_tree_node) (hinv : invariants nodes_)
    (p : Nat) (hp : p < nodes_.length) (name : List Char) (value : document_node_value) :
    invariants (emplace nodes_ p name value).1 := by
  unfold emplace emplace_auto_
  rw [List.getElem?_eq_getElem hp]
  rcases hlast : nodes_.getLast? with _ | back
  · exact hinv
  · simp only
    obtain ⟨_, hb⟩ := getLast?_eq_some_iff_parent_index nodes_ back hlast
    split_ifs with hpt hge
    · exact invariants_emplace_back nodes_ hinv p hp name value (by omega)
    · exact invariants_emplace_sorted nodes_ hinv p hp name value
    · exact hinv

/-- The binary search never returns a position before the start of its range. -/
theorem le_upper_bound_loop (proj : Nat → Int) (value : Int) :
    ∀ (fuel first len : Nat), first ≤ upper_bound_loop proj value fuel first len := by
  intro fuel
  induction fuel with
  | zero => intro first len; simp [upper_bound_loop]
  | succ fuel ih =>
    intro first len
    simp only [upper_bound_loop]
    split_ifs
    · exact le_refl _
    · exact ih _ _
    · exact le_trans (by omega) (ih _ _)

theorem le_upper_bound (nodes_ : List document_tree_node) (first last : Nat) (value : Int) :
    first ≤ upper_bound nodes_ first last value :=
  le_upper_bound_loop _ _ _ _ _

theorem getElem?_set_dying (nodes_ : List document_tree_node) (pos i : Nat) :
    (set_dying nodes_ pos)[i]? =
      if pos = i then nodes_[i]?.map (fun nd : document_tree_node => nd.dying true) else nodes_[i]? := by
  unfold set_dying
  rw [List.getElem?_modify]
  cases nodes_[i]? <;> by_cases h : pos = i <;> simp [h]

/-- Tagging changes tombstones only, and none before the tagged position. -/
theorem tag_frame : ∀ (fuel : Nat) (nodes_ : List document_tree_node) (root : Nat)
    (nodes1 : List document_tree_node),
    tag_current_and_all_children_to_unknow_ fuel nodes_ root = some nodes1 →
    (∀ i : Nat, nodes1[i]?.map (fun nd : document_tree_node => nd.dying true) = nodes_[i]?.map (fun nd : document_tree_node => nd.dying true)) ∧
    (∀ i : Nat, i < root → nodes1[i]? = nodes_[i]?) := by
  intro fuel
  induction fuel with
  | zero => intro nodes_ root nodes1 h; simp [tag_current_and_all_children_to_unknow_] at h
  | succ fuel ih =>
    intro nodes_ root nodes1 h
    simp only [tag_current_and_all_children_to_unknow_] at h
    split_ifs at h with hend
    · simp only [Option.some.injEq] at h; subst h
      exact ⟨fun _ => rfl, fun _ _ => rfl⟩
    · have hbeg := le_upper_bound (set_dying nodes_ root) root (set_dying nodes_ root).length
        ((root : Int) - 1)
      generalize upper_bound (set_dying nodes_ root) root (set_dying nodes_ root).length
        ((root : Int) - 1) = beg at h hbeg
      generalize upper_bound (set_dying nodes_ root) root (set_dying nodes_ root).length
        (root : Int) - beg = cnt at h
      have hstart : (∀ i : Nat, (set_dying nodes_ root)[i]?.map (fun nd : document_tree_node => nd.dying true)
            = nodes_[i]?.map (fun nd : document_tree_node => nd.dying true)) ∧
          (∀ i : Nat, i < root → (set_dying nodes_ root)[i]? = nodes_[i]?) := by
        constructor
        · intro i
          rw [getElem?_set_dying]
          split_ifs
          · cases nodes_[i]? <;> simp [document_tree_node.dying]
          · rfl
        · intro i hi
          rw [getElem?_set_dying]
          simp only [show ¬ root = i by omega, if_false]
      generalize set_dying nodes_ root = acc at h hstart
      induction cnt generalizing acc beg with
      | zero =>
        simp only [List.range'_zero, List.foldlM_nil] at h
        cases h
        exact hstart
      | succ cnt ihc =>
        rw [List.range'_succ, List.foldlM_cons] at h
        rcases hstep : tag_current_and_all_children_to_unknow_ fuel acc beg with _ | acc1
        · rw [hstep] at h; simp at h
        · rw [hstep] at h
          simp only [bind, Option.bind] at h
          obtain ⟨f1, f2⟩ := ih acc beg acc1 hstep
          refine ihc (beg + 1) (by omega) acc1 h ⟨fun i => ?_, fun i hi => ?_⟩
          · rw [f1 i, hstart.1 i]
          · rw [f2 i (by omega), hstart.2 i hi]

theorem tag_length (fuel : Nat) (nodes_ : List document_tree_node) (root : Nat)
    (nodes1 : List document_tree_node)
    (h : tag_current_and_all_children_to_unknow_ fuel nodes_ root = some nodes1) :
    nodes1.length = nodes_.length := by
  have hf := (tag_frame fuel nodes_ root nodes1 h).1
  rcases Nat.lt_trichotomy nodes1.length nodes_.length with hlt | heq | hgt
  · have := hf nodes1.length
    rw [List.getElem?_eq_none (le_refl _), List.getElem?_eq_getElem hlt] at this
    simp at this
  · exact heq
  · have := hf nodes_.length
    rw [List.getElem?_eq_none (le_refl _), List.getElem?_eq_getElem hgt] at this
    simp at this

theorem tag_parent_index_at (fuel : Nat) (nodes_ : List document_tree_node) (root : Nat)
    (nodes1 : List document_tree_node)
    (h : tag_current_and_all_children_to_unknow_ fuel nodes_ root = some nodes1) (i : Nat) :
    parent_index_at nodes1 i = parent_index_at nodes_ i := by
  have hf := (tag_frame fuel nodes_ root nodes1 h).1 i
  unfold parent_index_at
  rcases h1 : nodes1[i]? with _ | a <;> rcases h2 : nodes_[i]? with _ | b <;>
    rw [h1, h2] at hf <;> simp [document_tree_node.dying] at hf ⊢
  exact hf.2.2

theorem tag_invariants (fuel : Nat) (nodes_ : List document_tree_node) (root : Nat)
    (nodes1 : List document_tree_node)
    (h : tag_current_and_all_children_to_unknow_ fuel nodes_ root = some nodes1)
    (hinv : invariants nodes_) : invariants nodes1 := by
  have hl := tag_length fuel nodes_ root nodes1 h
  have hp := tag_parent_index_at fuel nodes_ root nodes1 h
  obtain ⟨hs, hroot, hprec⟩ := hinv
  refine ⟨?_, ?_, ?_⟩
  · intro j hj i hij
    rw [hp i, hp j]
    exact hs j (by omega) i hij
  · exact ⟨by rw [hl]; exact hroot.1, by rw [hp 0]; exact hroot.2⟩
  · intro i hi hi0
    rw [hp i]
    exact hprec i (by omega) hi0

theorem tag_dying_at_before (fuel : Nat) (nodes_ : List document_tree_node) (root : Nat)
    (nodes1 : List document_tree_node)
    (h : tag_current_and_all_children_to_unknow_ fuel nodes_ root = some nodes1) (i : Nat)
    (hi : i < root) : dying_at nodes1 i = dying_at nodes_ i := by
  unfold dying_at
  rw [(tag_frame fuel nodes_ root nodes1 h).2 i hi]

/-- On a sorted store, rewriting the nodes from the binary-search position on is the
same as rewriting exactly the nodes whose parent index exceeds the searched value. -/
theorem for_each_from_upper_bound (nodes_ : List document_tree_node)
    (hs : parent_index_sorted nodes_) (value : Int) (f : document_tree_node → document_tree_node) :
    for_each_from nodes_ (upper_bound nodes_ 0 nodes_.length value) f =
      nodes_.map (fun nd => if value < nd.pid_ then f nd else nd) := by
  obtain ⟨_, _, h3, h4⟩ := upper_bound_spec nodes_ hs 0 value
  apply List.ext_getElem?
  intro i
  rw [getElem?_for_each_from, List.getElem?_map]
  by_cases hi : i < nodes_.length
  · have e := parent_index_at_of_lt nodes_ i hi
    rw [List.getElem?_eq_getElem hi]
    by_cases hu : i < upper_bound nodes_ 0 nodes_.length value
    · have := h3 i (Nat.zero_le _) hu
      simp only [hu, if_true, Option.map_some']
      rw [if_neg (by omega)]
    · have := h4 i (by omega) hi
      simp only [hu, if_false, Option.map_some']
      rw [if_pos (by omega)]
  · rw [List.getElem?_eq_none (by omega)]
    simp

theorem erase_single_eq (nodes_ : List document_tree_node) (hs : parent_index_sorted nodes_)
    (which : Nat) :
    (erase_single_node_and_rotate_ nodes_ which).1 =
      (nodes_.map (fun nd => if (which : Int) - 1 < nd.pid_ then nd.dec_parent_index else nd)).eraseIdx
        which := by
  unfold erase_single_node_and_rotate_
  simp only
  rw [for_each_from_upper_bound nodes_ hs]

theorem parent_index_at_erase_single (nodes_ : List document_tree_node)
    (hs : parent_index_sorted nodes_) (which i : Nat) :
    parent_index_at (erase_single_node_and_rotate_ nodes_ which).1 i =
      if i < which then
        (if (which : Int) ≤ parent_index_at nodes_ i ∧ i < nodes_.length
          then parent_index_at nodes_ i - 1 else parent_index_at nodes_ i)
      else
        (if (which : Int) ≤ parent_index_at nodes_ (i + 1) ∧ i + 1 < nodes_.length
          then parent_index_at nodes_ (i + 1) - 1 else parent_index_at nodes_ (i + 1)) := by
  rw [erase_single_eq nodes_ hs]
  have key : ∀ j, parent_index_at
      (nodes_.map (fun nd => if (which : Int) - 1 < nd.pid_ then nd.dec_parent_index else nd)) j =
      if (which : Int) ≤ parent_index_at nodes_ j ∧ j < nodes_.length
        then parent_index_at nodes_ j - 1 else parent_index_at nodes_ j := by
    intro j
    by_cases hj : j < nodes_.length
    · unfold parent_index_at
      rw [List.getElem?_map, List.getElem?_eq_getElem hj]
      simp only [Option.map_some', hj, and_true]
      by_cases hc : (which : Int) ≤ (nodes_[j]).pid_
      · rw [if_pos (by omega), if_pos hc]; rfl
      · rw [if_neg (by omega), if_neg hc]
    · rw [parent_index_at_of_ge _ _ (by simp; omega), parent_index_at_of_ge _ _ (by omega)]
      simp [hj]
  rw [parent_index_at_eraseIdx, key, key]

theorem length_erase_single (nodes_ : List document_tree_node) (which : Nat)
    (hw : which < nodes_.length) :
    (erase_single_node_and_rotate_ nodes_ which).1.length = nodes_.length - 1 := by
  unfold erase_single_node_and_rotate_
  simp only
  rw [List.length_eraseIdx, length_for_each_from]
  simp [hw]

theorem invariants_erase_single (nodes_ : List document_tree_node) (hinv : invariants nodes_)
    (which : Nat) (hw0 : 0 < which) (hw : which < nodes_.length) :
    invariants (erase_single_node_and_rotate_ nodes_ which).1 := by
  have hlen := length_erase_single nodes_ which hw
  have hpid := parent_index_at_erase_single nodes_ hinv.1 which
  generalize (erase_single_node_and_rotate_ nodes_ which).1 = nodes1 at *
  obtain ⟨hs, hroot, hprec⟩ := hinv
  refine ⟨?_, ?_, ?_⟩
  · intro j hj i hij
    rw [hpid i, hpid j]
    have a1 := hs j (by omega) i hij
    have a2 := hs (j + 1) (by omega) i (by omega)
    have a3 := hs (j + 1) (by omega) (i + 1) (by omega)
    split_ifs <;> omega
  · refine ⟨by omega, ?_⟩
    rw [hpid 0]
    have := hroot.2
    simp only [hw0, if_true]
    rw [if_neg (by omega)]
    exact this
  · intro i hi hi0
    rw [hpid i]
    have b1 := hprec i
    have b2 := hprec (i + 1)
    split_ifs <;> omega

theorem dying_at_zero_erase_single (nodes_ : List document_tree_node)
    (hs : parent_index_sorted nodes_) (which : Nat) (hw0 : 0 < which) :
    dying_at (erase_single_node_and_rotate_ nodes_ which).1 0 = dying_at nodes_ 0 := by
  rw [erase_single_eq nodes_ hs]
  unfold dying_at
  rw [List.getElem?_eraseIdx, if_pos hw0, List.getElem?_map]
  rcases nodes_[0]? with _ | nd
  · rfl
  · simp only [Option.map_some']
    split_ifs <;> rfl

/-- The compaction loop keeps the invariants when the synthetic root is not tombstoned. -/
theorem erase_loop_invariants : ∀ (fuel : Nat) (nodes_ : List document_tree_node) (from_ : Nat),
    invariants nodes_ → dying_at nodes_ 0 = false →
    invariants (erase_all_unknows_loop fuel nodes_ from_).1 ∧
      dying_at (erase_all_unknows_loop fuel nodes_ from_).1 0 = false := by
  intro fuel
  induction fuel with
  | zero => intro nodes_ from_ hinv hd; exact ⟨hinv, hd⟩
  | succ fuel ih =>
    intro nodes_ from_ hinv hd
    simp only [erase_all_unknows_loop]
    rcases hget : nodes_[from_]? with _ | nd
    · exact ⟨hinv, hd⟩
    · simp only
      have hlt : from_ < nodes_.length := by
        by_contra hcon
        rw [List.getElem?_eq_none (by omega)] at hget
        cases hget
      by_cases ht : nd.tombed_ = true
      · simp only [ht, if_true]
        have h0 : 0 < from_ := by
          rcases Nat.eq_zero_or_pos from_ with h | h
          · subst h
            unfold dying_at at hd
            rw [hget] at hd
            simp only at hd
            rw [ht] at hd
            cases hd
          · exact h
        exact ih _ _ (invariants_erase_single nodes_ hinv from_ h0 hlt)
          (by rw [dying_at_zero_erase_single nodes_ hinv.1 from_ h0]; exact hd)
      · simp only [ht]
        exact ih _ _ hinv hd

theorem getElem?_zero_emplace (nodes_ : List document_tree_node) (hinv : invariants nodes_)
    (p : Nat) (hp : p < nodes_.length) (name : List Char) (value : document_node_value) :
    (emplace nodes_ p name value).1[0]? = nodes_[0]? := by
  unfold emplace emplace_auto_
  rw [List.getElem?_eq_getElem hp]
  rcases hlast : nodes_.getLast? with _ | back
  · rfl
  · simp only
    split_ifs with hpt hge
    · unfold emplace_back_
      simp only
      rw [getElem?_vector_emplace _ _ _ (le_refl _), if_pos (by omega)]
    · obtain ⟨h1, h2, h3, _⟩ := emplace_sorted_search nodes_ hinv p hp
      unfold emplace_sorted_
      simp only
      rw [getElem?_vector_emplace _ _ _ (by rw [length_for_each_from]; omega), if_pos (by omega),
        getElem?_for_each_from, if_pos (by omega)]
    · rfl

/-- Every reachable tree satisfies the store invariants and has a live synthetic root. -/
theorem reachable_invariants (nodes_ : List document_tree_node) (h : reachable nodes_) :
    invariants nodes_ ∧ dying_at nodes_ 0 = false := by
  induction h with
  | ctor init_cap =>
    have e : ctor init_cap = ctor 0 := rfl
    rw [e]
    exact ⟨by decide, by decide⟩
  | emplace h parent hparent name value ih =>
    refine ⟨invariants_emplace _ ih.1 parent hparent name value, ?_⟩
    unfold dying_at
    rw [getElem?_zero_emplace _ ih.1 parent hparent]
    exact ih.2
  | remove h which hroot hwhich hremove ih =>
    refine ⟨tag_invariants _ _ _ _ hremove ih.1, ?_⟩
    rw [tag_dying_at_before _ _ _ _ hremove 0 hroot]
    exact ih.2
  | erase h ih => exact erase_loop_invariants _ _ _ ih.1 ih.2

/-- Counting the elements that satisfy a predicate, when these are exactly the elements
at the positions of one interval. -/
theorem countP_eq_of_interval {α : Type} (q : α → Bool) :
    ∀ (l : List α) (b e : Nat), b ≤ e → e ≤ l.length →
      (∀ i (hi : i < l.length), q (l[i]) = true ↔ b ≤ i ∧ i < e) → l.countP q = e - b := by
  intro l
  induction l with
  | nil => intro b e hbe he _; simp at he; subst he; simp
  | cons x xs ih =>
    intro b e hbe he hq
    have hx := hq 0 (by simp)
    simp only [List.getElem_cons_zero] at hx
    rcases Nat.eq_zero_or_pos b with hb | hb
    · subst hb
      rcases Nat.eq_zero_or_pos e with he0 | he0
      · subst he0
        have hx2 : ¬ q x = true := fun h => by have := hx.mp h; omega
        rw [List.countP_cons_of_neg _ _ hx2]
        exact ih 0 0 (le_refl _) (Nat.zero_le _) (fun i hi => by
          have := hq (i + 1) (by simp; omega)
          simp only [List.getElem_cons_succ] at this
          rw [this]; omega)
      · have hx2 : q x = true := hx.mpr ⟨le_refl _, he0⟩
        rw [List.countP_cons_of_pos _ _ hx2]
        have := ih 0 (e - 1) (Nat.zero_le _) (by simp at he; omega) (fun i hi => by
          have := hq (i + 1) (by simp; omega)
          simp only [List.getElem_cons_succ] at this
          rw [this]; omega)
        omega
    · have hx2 : ¬ q x = true := fun h => by have := hx.mp h; omega
      rw [List.countP_cons_of_neg _ _ hx2]
      have := ih (b - 1) (e - 1) (by omega) (by simp at he; omega) (fun i hi => by
        have := hq (i + 1) (by simp; omega)
        simp only [List.getElem_cons_succ] at this
        rw [this]; omega)
      omega

/-- The two binary searches behind `search_child_begin` and `search_child_end`, on a
sorted store in which the parent index of the node at `p` is smaller than `p`. -/
theorem child_search (nodes_ : List document_tree_node) (hs : parent_index_sorted nodes_)
    (p : Nat) (hp : p < nodes_.length) (hpp : parent_index_at nodes_ p < (p : Int)) :
    p < upper_bound nodes_ p nodes_.length ((p : Int) - 1) ∧
    upper_bound nodes_ p nodes_.length ((p : Int) - 1) ≤ upper_bound nodes_ p nodes_.length (p : Int) ∧
    upper_bound nodes_ p nodes_.length (p : Int) ≤ nodes_.length ∧
    (∀ i, i < nodes_.length → (parent_index_at nodes_ i = (p : Int) ↔
      upper_bound nodes_ p nodes_.length ((p : Int) - 1) ≤ i ∧
      i < upper_bound nodes_ p nodes_.length (p : Int))) ∧
    (∀ i, upper_bound nodes_ p nodes_.length (p : Int) ≤ i → i < nodes_.length →
      (p : Int) < parent_index_at nodes_ i) ∧
    (∀ i, i < upper_bound nodes_ p nodes_.length ((p : Int) - 1) →
      parent_index_at nodes_ i < (p : Int)) := by
  obtain ⟨b1, b2, b3, b4⟩ := upper_bound_spec nodes_ hs p ((p : Int) - 1)
  obtain ⟨e1, e2, e3, e4⟩ := upper_bound_spec nodes_ hs p (p : Int)
  generalize upper_bound nodes_ p nodes_.length ((p : Int) - 1) = b at *
  generalize upper_bound nodes_ p nodes_.length (p : Int) = e at *
  have hb2 := b2 (by omega)
  have he2 := e2 (by omega)
  have hpb : p < b := by
    by_contra hcon
    have := b4 p (by omega) hp
    omega
  have hbe : b ≤ e := by
    by_contra hcon
    have h1 := b3 e e1 (by omega)
    have h2 := e4 e (le_refl _) (by omega)
    omega
  have hbefore : ∀ i, i < b → parent_index_at nodes_ i < (p : Int) := by
    intro i hi
    by_cases hip : p ≤ i
    · have := b3 i hip hi; omega
    · have := hs p hp i (by omega); omega
  refine ⟨hpb, hbe, he2, fun i hi => ⟨fun heq => ?_, fun hr => ?_⟩, e4, hbefore⟩
  · constructor
    · by_contra hcon
      have := hbefore i (by omega)
      omega
    · by_contra hcon
      have := e4 i (by omega) hi
      omega
  · have h1 := b4 i hr.1 hi
    have h2 := e3 i (by omega) hr.2
    omega

/-- The child range of a node that has a child, as the two cursor searches return it. -/
theorem search_child_of_child (nodes_ : List document_tree_node) (hs : parent_index_sorted nodes_)
    (p : Nat) (hp : p < nodes_.length) (hpp : parent_index_at nodes_ p < (p : Int))
    (c : Nat) (hc : c < nodes_.length) (hcp : parent_index_at nodes_ c = (p : Int)) :
    search_child_begin nodes_ p = upper_bound nodes_ p nodes_.length ((p : Int) - 1) ∧
    search_child_end nodes_ p = upper_bound nodes_ p nodes_.length (p : Int) := by
  obtain ⟨h1, h2, h3, h4, _, _⟩ := child_search nodes_ hs p hp hpp
  unfold search_child_begin search_child_end
  simp only
  generalize upper_bound nodes_ p nodes_.length ((p : Int) - 1) = b at *
  generalize upper_bound nodes_ p nodes_.length (p : Int) = e at *
  have hcr := (h4 c hc).mp hcp
  constructor
  · rw [if_neg]
    intro hor
    rcases hor with h | h
    · omega
    · exact h ((h4 b (by omega)).mpr ⟨le_refl _, by omega⟩)
  · by_cases hen : e = nodes_.length
    · simp [hen]
    · rw [if_neg]
      intro hor
      rcases hor with h | h
      · exact hen h
      · exact h ((h4 (e - 1) (by omega)).mpr ⟨by omega, by omega⟩)

/-- Both cursor searches return the end sentinel for a node without children. -/
theorem search_child_of_no_child (nodes_ : List document_tree_node) (hs : parent_index_sorted nodes_)
    (p : Nat) (hp : p < nodes_.length) (hpp : parent_index_at nodes_ p < (p : Int))
    (hnone : ∀ c, c < nodes_.length → parent_index_at nodes_ c ≠ (p : Int)) :
    search_child_begin nodes_ p = nodes_.length ∧ search_child_end nodes_ p = nodes_.length := by
  obtain ⟨h1, h2, h3, h4, _, _⟩ := child_search nodes_ hs p hp hpp
  unfold search_child_begin search_child_end
  simp only
  generalize upper_bound nodes_ p nodes_.length ((p : Int) - 1) = b at *
  generalize upper_bound nodes_ p nodes_.length (p : Int) = e at *
  constructor
  · by_cases hbn : b = nodes_.length
    · simp [hbn]
    · rw [if_pos]
      exact Or.inr (hnone b (by omega))
  · by_cases hen : e = nodes_.length
    · simp [hen]
    · rw [if_pos]
      exact Or.inr (hnone (e - 1) (by omega))

theorem children_count_eq (nodes_ : List document_tree_node) (p b e : Nat) (hbe : b ≤ e)
    (he : e ≤ nodes_.length)
    (h : ∀ i, i < nodes_.length → (parent_index_at nodes_ i = (p : Int) ↔ b ≤ i ∧ i < e)) :
    children_count nodes_ p = e - b := by
  unfold children_count
  apply countP_eq_of_interval _ _ _ _ hbe he
  intro i hi
  rw [← h i hi, parent_index_at_of_lt _ _ hi]
  simp

/-- Closed form of `emplace` under a container node of a store that satisfies the
invariants: with `q` the number of nodes whose parent index is at most `p`, the new node
is inserted at `q` and the parent indices that are `q` or more grow by one. -/
theorem emplace_eq (nodes_ : List document_tree_node) (hinv : invariants nodes_)
    (p : Nat) (hp : p < nodes_.length) (hcont : (nodes_[p]).value_.parent_type = true)
    (name : List Char) (value : document_node_value) :
    emplace nodes_ p name value =
      (vector_emplace
        (nodes_.map (fun nd =>
          if (upper_bound nodes_ 0 nodes_.length (p : Int) : Int) ≤ nd.pid_
          then nd.inc_parent_index else nd))
        (upper_bound nodes_ 0 nodes_.length (p : Int))
        (document_tree_node.of_pointer (some p) name value),
       upper_bound nodes_ 0 nodes_.length (p : Int)) := by
  obtain ⟨_, hq2, hq3, hq4⟩ := upper_bound_spec nodes_ hinv.1 0 (p : Int)
  unfold emplace emplace_auto_
  rw [List.getElem?_eq_getElem hp]
  rcases hlast : nodes_.getLast? with _ | back
  · rw [List.getLast?_eq_none_iff] at hlast
    subst hlast; simp at hp
  · simp only [hcont, if_true]
    obtain ⟨_, hb⟩ := getLast?_eq_some_iff_parent_index nodes_ back hlast
    by_cases hge : (p : Int) ≥ back.pid_
    · simp only [hge, if_true]
      have hqn : upper_bound nodes_ 0 nodes_.length (p : Int) = nodes_.length := by
        by_contra hcon
        have h1 := hq2 (Nat.zero_le _)
        have h2 := hq4 (nodes_.length - 1) (by omega) (by omega)
        omega
      rw [hqn]
      unfold emplace_back_
      congr 2
      symm
      conv_rhs => rw [← List.map_id nodes_]
      apply List.map_congr_left
      intro nd hnd
      obtain ⟨i, hi, hget⟩ := List.getElem_of_mem hnd
      have h3 := hq3 i (Nat.zero_le _) (by omega)
      rw [parent_index_at_of_lt _ _ hi, hget] at h3
      rw [if_neg (by omega)]
      rfl
    · simp only [hge, if_false]
      unfold emplace_sorted_
      simp only
      rw [for_each_from_upper_bound nodes_ hinv.1]
      congr 2
      apply List.map_congr_left
      intro nd _
      by_cases hc : (upper_bound nodes_ 0 nodes_.length (p : Int) : Int) ≤ nd.pid_
      · rw [if_pos hc, if_pos (by omega)]
      · rw [if_neg hc, if_neg (by omega)]

/-- The nodes of the array after `emplace`, position by position. -/
theorem getElem?_emplace (nodes_ : List document_tree_node) (hinv : invariants nodes_)
    (p : Nat) (hp : p < nodes_.length) (hcont : (nodes_[p]).value_.parent_type = true)
    (name : List Char) (value : document_node_value) (i : Nat) :
    (emplace nodes_ p name value).1[i]? =
      if i < upper_bound nodes_ 0 nodes_.length (p : Int) then nodes_[i]?
      else if i = upper_bound nodes_ 0 nodes_.length (p : Int)
        then some (document_tree_node.of_pointer (some p) name value)
      else nodes_[i - 1]?.map (fun nd =>
        if (upper_bound nodes_ 0 nodes_.length (p : Int) : Int) ≤ nd.pid_
        then nd.inc_parent_index else nd) := by
  obtain ⟨hpq, _, _, h4, _, _, _⟩ := emplace_sorted_search nodes_ hinv p hp
  obtain ⟨_, hq2, _, _⟩ := upper_bound_spec nodes_ hinv.1 0 (p : Int)
  rw [emplace_eq nodes_ hinv p hp hcont]
  simp only
  rw [getElem?_vector_emplace _ _ _ (by rw [List.length_map]; exact hq2 (Nat.zero_le _))]
  generalize upper_bound nodes_ 0 nodes_.length (p : Int) = q at *
  by_cases c1 : i < q
  · simp only [c1, if_true]
    rw [List.getElem?_map]
    have hq2 := hq2 (Nat.zero_le _)
    have hi : i < nodes_.length := by omega
    rw [List.getElem?_eq_getElem hi]
    have := h4 i c1
    rw [parent_index_at_of_lt _ _ hi] at this
    simp only [Option.map_some']
    rw [if_neg (by omega)]
  · simp only [c1, if_false]
    by_cases c2 : i = q
    · simp only [c2, if_true]
    · simp only [c2, if_false]
      rw [List.getElem?_map]

theorem parent_index_at_emplace (nodes_ : List document_tree_node) (hinv : invariants nodes_)
    (p : Nat) (hp : p < nodes_.length) (hcont : (nodes_[p]).value_.parent_type = true)
    (name : List Char) (value : document_node_value) (i : Nat) (hi : i < nodes_.length + 1) :
    parent_index_at (emplace nodes_ p name value).1 i =
      if i < upper_bound nodes_ 0 nodes_.length (p : Int) then parent_index_at nodes_ i
      else if i = upper_bound nodes_ 0 nodes_.length (p : Int) then (p : Int)
      else if (upper_bound nodes_ 0 nodes_.length (p : Int) : Int) ≤ parent_index_at nodes_ (i - 1)
        then parent_index_at nodes_ (i - 1) + 1
      else parent_index_at nodes_ (i - 1) := by
  unfold parent_index_at
  rw [getElem?_emplace nodes_ hinv p hp hcont]
  by_cases c1 : i < upper_bound nodes_ 0 nodes_.length (p : Int)
  · simp only [c1, if_true]
  · simp only [c1, if_false]
    by_cases c2 : i = upper_bound nodes_ 0 nodes_.length (p : Int)
    · simp only [c2, if_true]; rfl
    · simp only [c2, if_false]
      obtain ⟨_, hq2, _, _⟩ := upper_bound_spec nodes_ hinv.1 0 (p : Int)
      have hq2 := hq2 (Nat.zero_le _)
      rw [List.getElem?_eq_getElem (show i - 1 < nodes_.length by omega)]
      simp only [Option.map_some']
      split_ifs <;> rfl

/-- The searched insertion position of `emplace` is the end of the parent's child range. -/
theorem upper_bound_eq_after_last_child (nodes_ : List document_tree_node)
    (hinv : invariants nodes_) (p : Nat)
    (last : Nat) (hl : last < nodes_.length) (hlp : parent_index_at nodes_ last = (p : Int))
    (hlast : ∀ j, last < j → j < nodes_.length → parent_index_at nodes_ j ≠ (p : Int)) :
    upper_bound nodes_ 0 nodes_.length (p : Int) = last + 1 := by
  obtain ⟨_, hq2, hq3, hq4⟩ := upper_bound_spec nodes_ hinv.1 0 (p : Int)
  have hq2 := hq2 (Nat.zero_le _)
  generalize upper_bound nodes_ 0 nodes_.length (p : Int) = q at *
  have h1 : last < q := by
    by_contra hcon
    have := hq4 last (by omega) hl
    omega
  by_contra hne
  have h2 := hq3 (last + 1) (Nat.zero_le _) (by omega)
  have h3 := hinv.1 (last + 1) (by omega) last (by omega)
  exact hlast (last + 1) (by omega) (by omega) (by omega)

/-- The linear scan stops at the first position of the range that satisfies the test. -/
theorem find_if_eq_first (nodes_ : List document_tree_node) (first last : Nat)
    (pred : document_tree_node → Bool) (c : Nat) (hc1 : first ≤ c) (hc2 : c < last)
    (hc3 : c < nodes_.length) (hpred : pred (nodes_[c]) = true)
    (hbefore : ∀ j (hj : j < nodes_.length), first ≤ j → j < c → pred (nodes_[j]) = false) :
    find_if nodes_ first last pred = c := by
  unfold find_if
  have : (List.range' first (last - first)).find? (pred_at nodes_ pred) = some c := by
    rw [List.find?_range'_eq_some]
    refine ⟨?_, ?_, ?_⟩
    · unfold pred_at; rw [List.getElem?_eq_getElem hc3]; exact hpred
    · rw [List.mem_range'_1]; omega
    · intro j hj1 hj2
      have hj : j < nodes_.length := by omega
      unfold pred_at
      rw [List.getElem?_eq_getElem hj]
      simp only [hbefore j hj hj1 hj2, Bool.not_false]
  rw [this]

/-- The linear scan returns the end of the range when no node of it satisfies the test. -/
theorem find_if_eq_last (nodes_ : List document_tree_node) (first last : Nat)
    (pred : document_tree_node → Bool)
    (hnone : ∀ j (hj : j < nodes_.length), first ≤ j → j < last → pred (nodes_[j]) = false) :
    find_if nodes_ first last pred = last := by
  unfold find_if
  have : (List.range' first (last - first)).find? (pred_at nodes_ pred) = none := by
    rw [List.find?_range'_eq_none]
    intro j hj1 hj2
    unfold pred_at
    by_cases hj : j < nodes_.length
    · rw [List.getElem?_eq_getElem hj]
      simp only [hnone j hj hj1 (by omega), Bool.not_false]
    · rw [List.getElem?_eq_none (by omega)]
      rfl
  rw [this]

theorem name_at_of_lt (nodes_ : List document_tree_node) (i : Nat) (h : i < nodes_.length) :
    name_at nodes_ i = (nodes_[i]).name_ := by
  unfold name_at
  rw [List.getElem?_eq_getElem h]

theorem parent_index_lt_self (nodes_ : List document_tree_node) (hinv : invariants nodes_)
    (p : Nat) (hp : p < nodes_.length) : parent_index_at nodes_ p < (p : Int) := by
  rcases Nat.eq_zero_or_pos p with h0 | h0
  · subst h0; rw [hinv.2.1.2]; decide
  · exact (hinv.2.2 p hp h0).2

/-- The scan of `access` and `insert_or_access` over the child range of `p`, when a child
with the name exists: it stops at the first one, which is not the end of the range. -/
theorem find_if_child_found (nodes_ : List document_tree_node) (hinv : invariants nodes_)
    (p : Nat) (hp : p < nodes_.length) (name : List Char)
    (c : Nat) (hc : c < nodes_.length) (hcp : parent_index_at nodes_ c = (p : Int))
    (hcn : name_at nodes_ c = name)
    (hfirst : ∀ j, j < c → parent_index_at nodes_ j = (p : Int) → name_at nodes_ j ≠ name) :
    find_if nodes_ (search_child_begin nodes_ p) (search_child_end nodes_ p)
      (fun v => v.name_ == name) = c ∧ c ≠ search_child_end nodes_ p := by
  have hpp := parent_index_lt_self nodes_ hinv p hp
  obtain ⟨hb, he⟩ := search_child_of_child nodes_ hinv.1 p hp hpp c hc hcp
  obtain ⟨_, _, _, h4, _, _⟩ := child_search nodes_ hinv.1 p hp hpp
  rw [hb, he]
  have hcr := (h4 c hc).mp hcp
  refine ⟨find_if_eq_first nodes_ _ _ _ c hcr.1 hcr.2 hc ?_ ?_, by omega⟩
  · rw [name_at_of_lt _ _ hc] at hcn
    simp [hcn]
  · intro j hj hj1 hj2
    have h1 := (h4 j hj).mpr ⟨hj1, by omega⟩
    have h2 := hfirst j hj2 h1
    rw [name_at_of_lt _ _ hj] at h2
    simpa using h2

/-- The scan of `access` and `insert_or_access` over the child range of `p`, when no
child has the name: it returns the end of the range. -/
theorem find_if_child_missing (nodes_ : List document_tree_node) (hinv : invariants nodes_)
    (p : Nat) (hp : p < nodes_.length) (name : List Char)
    (hnone : ∀ j, j < nodes_.length → parent_index_at nodes_ j = (p : Int) →
      name_at nodes_ j ≠ name) :
    find_if nodes_ (search_child_begin nodes_ p) (search_child_end nodes_ p)
      (fun v => v.name_ == name) = search_child_end nodes_ p := by
  have hpp := parent_index_lt_self nodes_ hinv p hp
  apply find_if_eq_last
  intro j hj hj1 hj2
  by_cases hch : ∃ c, c < nodes_.length ∧ parent_index_at nodes_ c = (p : Int)
  · obtain ⟨c, hc, hcp⟩ := hch
    obtain ⟨hb, he⟩ := search_child_of_child nodes_ hinv.1 p hp hpp c hc hcp
    obtain ⟨_, _, _, h4, _, _⟩ := child_search nodes_ hinv.1 p hp hpp
    rw [hb] at hj1
    rw [he] at hj2
    have h1 := (h4 j hj).mpr ⟨hj1, hj2⟩
    have h2 := hnone j hj h1
    rw [name_at_of_lt _ _ hj] at h2
    simpa using h2
  · have hno : ∀ c, c < nodes_.length → parent_index_at nodes_ c ≠ (p : Int) :=
      fun c hc hcp => hch ⟨c, hc, hcp⟩
    obtain ⟨hb, _⟩ := search_child_of_no_child nodes_ hinv.1 p hp hpp hno
    omega

theorem first_child_named_eq_some (nodes_ : List document_tree_node) (p : Nat) (name : List Char)
    (c : Nat) (h : first_child_named nodes_ p name = some c) :
    c < nodes_.length ∧ parent_index_at nodes_ c = (p : Int) ∧ name_at nodes_ c = name ∧
    (∀ j, j < c → parent_index_at nodes_ j = (p : Int) → name_at nodes_ j ≠ name) := by
  unfold first_child_named at h
  rw [List.range_eq_range', List.find?_range'_eq_some] at h
  obtain ⟨h1, h2, h3⟩ := h
  simp only [Bool.and_eq_true, decide_eq_true_eq] at h1
  rw [List.mem_range'_1] at h2
  refine ⟨by omega, h1.1, h1.2, fun j hj hjp hjn => ?_⟩
  have := h3 j (Nat.zero_le _) hj
  simp [hjp, hjn] at this

theorem first_child_named_eq_none (nodes_ : List document_tree_node) (p : Nat) (name : List Char)
    (h : first_child_named nodes_ p name = none) :
    ∀ j, j < nodes_.length → parent_index_at nodes_ j = (p : Int) → name_at nodes_ j ≠ name := by
  unfold first_child_named at h
  rw [List.range_eq_range', List.find?_range'_eq_none] at h
  intro j hj hjp hjn
  have := h j (Nat.zero_le _) (by omega)
  simp [hjp, hjn] at this

theorem eraseIdx_vector_emplace (nodes_ : List document_tree_node) (pos : Nat)
    (nd : document_tree_node) (hpos : pos ≤ nodes_.length) :
    (vector_emplace nodes_ pos nd).eraseIdx pos = nodes_ := by
  unfold vector_emplace
  rw [List.eraseIdx_append_of_length_le (by simp [List.length_take])]
  simp only [List.length_take, Nat.min_eq_left hpos, Nat.sub_self, List.eraseIdx_cons_zero,
    List.take_append_drop]

theorem countP_vector_emplace (nodes_ : List document_tree_node) (pos : Nat)
    (nd : document_tree_node) (q : document_tree_node → Bool) :
    (vector_emplace nodes_ pos nd).countP q = nodes_.countP q + if q nd then 1 else 0 := by
  unfold vector_emplace
  rw [List.countP_append, List.countP_cons]
  conv_rhs => rw [← List.take_append_drop pos nodes_, List.countP_append]
  omega

/-- After `emplace` under a container node the parent has one child more. -/
theorem children_count_emplace (nodes_ : List document_tree_node) (hinv : invariants nodes_)
    (p : Nat) (hp : p < nodes_.length) (hcont : (nodes_[p]).value_.parent_type = true)
    (name : List Char) (value : document_node_value) :
    children_count (emplace nodes_ p name value).1 p = children_count nodes_ p + 1 := by
  obtain ⟨hpq, _⟩ := emplace_sorted_search nodes_ hinv p hp
  rw [emplace_eq nodes_ hinv p hp hcont]
  unfold children_count
  simp only
  rw [countP_vector_emplace, List.countP_map]
  have hnew : ((document_tree_node.of_pointer (some p) name value).pid_ == (p : Int)) = true := by
    simp [document_tree_node.of_pointer]
  rw [if_pos hnew]
  congr 1
  apply List.countP_congr
  intro nd _
  simp only [Function.comp, beq_iff_eq]
  split_ifs with hc
  · simp only [document_tree_node.inc_parent_index]
    constructor <;> intro h <;> omega
  · rfl

/-- Apart from the new node, `emplace` keeps every node's name, value and tombstone, in
the same order. -/
theorem eraseIdx_emplace_frame (nodes_ : List document_tree_node) (hinv : invariants nodes_)
    (p : Nat) (hp : p < nodes_.length) (hcont : (nodes_[p]).value_.parent_type = true)
    (name : List Char) (value : document_node_value) :
    ((emplace nodes_ p name value).1.eraseIdx (emplace nodes_ p name value).2).map
        (fun nd => (nd.name_, nd.value_, nd.tombed_))
      = nodes_.map (fun nd => (nd.name_, nd.value_, nd.tombed_)) := by
  obtain ⟨_, hq2, _, _⟩ := upper_bound_spec nodes_ hinv.1 0 (p : Int)
  rw [emplace_eq nodes_ hinv p hp hcont]
  simp only
  rw [eraseIdx_vector_emplace _ _ _ (by rw [List.length_map]; exact hq2 (Nat.zero_le _)),
    List.map_map]
  apply List.map_congr_left
  intro nd _
  simp only [Function.comp]
  split_ifs <;> rfl

end document_tree
end jxxson

namespace jxxson
namespace document_tree

theorem dead_before_le (dead : Nat → Bool) (m : Nat) : dead_before dead m ≤ m := by
  induction m with
  | zero => simp [dead_before]
  | succ m ih =>
    simp only [dead_before]
    split_ifs <;> omega

/-- The number of survivors before a position grows with the position. -/
theorem survivors_mono (dead : Nat → Bool) (a b : Nat) (hab : a ≤ b) :
    a - dead_before dead a ≤ b - dead_before dead b := by
  induction b with
  | zero =>
    have : a = 0 := by omega
    subst this; exact le_refl _
  | succ b ih =>
    rcases Nat.eq_or_lt_of_le hab with h | h
    · subst h; exact le_refl _
    · have h1 := ih (by omega)
      have h2 := dead_before_le dead b
      simp only [dead_before]
      split_ifs <;> omega

/-- Erasing the tombstoned node that stood at position `m` of the starting array
decrements exactly the parent indices that the next stage of the loop has lower. -/
theorem dec_shifted (dead : Nat → Bool) (m : Nat) (hm : dead m = true) (nd : document_tree_node) :
    (if ((m - dead_before dead m : Nat) : Int) - 1 < (shifted dead m nd).pid_
      then (shifted dead m nd).dec_parent_index else shifted dead m nd) = shifted dead (m + 1) nd := by
  have hle := dead_before_le dead m
  unfold shifted document_tree_node.dec_parent_index
  simp only
  by_cases hq : (m : Int) ≤ nd.pid_
  · have h1 : min m (nd.pid_ + 1).toNat = m := by omega
    have h2 : min (m + 1) (nd.pid_ + 1).toNat = m + 1 := by omega
    rw [h1, h2]
    simp only [dead_before, hm, if_true]
    rw [if_pos (by omega)]
    congr 1
    omega
  · have h1 : min m (nd.pid_ + 1).toNat = (nd.pid_ + 1).toNat := by omega
    have h2 : min (m + 1) (nd.pid_ + 1).toNat = (nd.pid_ + 1).toNat := by omega
    rw [h1, h2]
    have h3 := survivors_mono dead (nd.pid_ + 1).toNat m (by omega)
    have h4 := dead_before_le dead (nd.pid_ + 1).toNat
    rw [if_neg (by omega)]

theorem shifted_succ_of_alive (dead : Nat → Bool) (m : Nat) (hm : dead m = false)
    (nd : document_tree_node) : shifted dead (m + 1) nd = shifted dead m nd := by
  unfold shifted
  by_cases hq : (m : Int) ≤ nd.pid_
  · have h1 : min m (nd.pid_ + 1).toNat = m := by omega
    have h2 : min (m + 1) (nd.pid_ + 1).toNat = m + 1 := by omega
    rw [h1, h2]
    simp [dead_before, hm]
  · have h1 : min m (nd.pid_ + 1).toNat = (nd.pid_ + 1).toNat := by omega
    have h2 : min (m + 1) (nd.pid_ + 1).toNat = (nd.pid_ + 1).toNat := by omega
    rw [h1, h2]

theorem shifted_zero (dead : Nat → Bool) (nd : document_tree_node) : shifted dead 0 nd = nd := by
  unfold shifted
  simp [dead_before]

theorem dying_at_of_lt (nodes_ : List document_tree_node) (i : Nat) (h : i < nodes_.length) :
    dying_at nodes_ i = (nodes_[i]).tombed_ := by
  unfold dying_at
  rw [List.getElem?_eq_getElem h]

theorem length_filter_alive_take (nodes_ : List document_tree_node) (m : Nat)
    (hm : m ≤ nodes_.length) :
    ((nodes_.take m).filter (fun nd => !nd.tombed_)).length
      = m - dead_before (dying_at nodes_) m := by
  induction m with
  | zero => simp [dead_before]
  | succ m ih =>
    have hlt : m < nodes_.length := by omega
    have hle := dead_before_le (dying_at nodes_) m
    rw [List.take_succ, List.getElem?_eq_getElem hlt]
    simp only [Option.toList, List.filter_append, List.length_append]
    rw [ih (by omega)]
    simp only [dead_before, dying_at_of_lt nodes_ m hlt]
    cases h : (nodes_[m]).tombed_
    · simp [List.filter, h]; omega
    · simp [List.filter, h]

/-- The state of the compaction loop after the first `m` nodes of the array it started
from are dealt with, and its result. -/
theorem erase_loop_closed (nodes_ : List document_tree_node) :
    ∀ (k m : Nat) (cur : List document_tree_node), m + k = nodes_.length →
      cur = ((nodes_.take m).filter (fun nd => !nd.tombed_)).map (shifted (dying_at nodes_) m)
            ++ (nodes_.drop m).map (shifted (dying_at nodes_) m) →
      invariants cur → dying_at cur 0 = false →
      (erase_all_unknows_loop k cur (m - dead_before (dying_at nodes_) m)).1
        = (nodes_.filter (fun nd => !nd.tombed_)).map (shifted (dying_at nodes_) nodes_.length) := by
  intro k
  induction k with
  | zero =>
    intro m cur hmk hcur _ _
    have hm : m = nodes_.length := by omega
    subst hm
    simp only [erase_all_unknows_loop]
    rw [hcur, List.take_length, List.drop_length]
    simp
  | succ k ih =>
    intro m cur hmk hcur hinv hroot
    have hlt : m < nodes_.length := by omega
    have hle := dead_before_le (dying_at nodes_) m
    have hflen := length_filter_alive_take nodes_ m (by omega)
    have hdrop : nodes_.drop m = nodes_[m] :: nodes_.drop (m + 1) := List.drop_eq_getElem_cons hlt
    have hget : cur[m - dead_before (dying_at nodes_) m]?
        = some (shifted (dying_at nodes_) m (nodes_[m])) := by
      rw [hcur, List.getElem?_append_right (by rw [List.length_map, hflen])]
      rw [List.length_map, hflen, Nat.sub_self, hdrop, List.map_cons, List.getElem?_cons_zero]
    simp only [erase_all_unknows_loop]
    rw [hget]
    simp only
    have htomb : (shifted (dying_at nodes_) m (nodes_[m])).tombed_ = (nodes_[m]).tombed_ := rfl
    rw [htomb]
    have hfrom_lt : m - dead_before (dying_at nodes_) m < cur.length := by
      by_contra hcon
      rw [List.getElem?_eq_none (by omega)] at hget
      cases hget
    by_cases ht : (nodes_[m]).tombed_ = true
    · simp only [ht, if_true]
      have hdm : dying_at nodes_ m = true := by rw [dying_at_of_lt _ _ hlt]; exact ht
      have hfrom0 : 0 < m - dead_before (dying_at nodes_) m := by
        rcases Nat.eq_zero_or_pos (m - dead_before (dying_at nodes_) m) with h | h
        · rw [h] at hget
          unfold dying_at at hroot
          rw [hget] at hroot
          simp only [htomb, ht] at hroot
          cases hroot
        · exact h
      have hnext : (erase_single_node_and_rotate_ cur (m - dead_before (dying_at nodes_) m)).1 =
          ((nodes_.take (m + 1)).filter (fun nd => !nd.tombed_)).map (shifted (dying_at nodes_) (m + 1))
            ++ (nodes_.drop (m + 1)).map (shifted (dying_at nodes_) (m + 1)) := by
        rw [erase_single_eq cur hinv.1, hcur, List.map_append, List.map_map, List.map_map]
        have hfun : ((fun nd : document_tree_node =>
            if ((m - dead_before (dying_at nodes_) m : Nat) : Int) - 1 < nd.pid_
              then nd.dec_parent_index else nd) ∘ shifted (dying_at nodes_) m)
            = shifted (dying_at nodes_) (m + 1) := by
          funext nd
          exact dec_shifted (dying_at nodes_) m hdm nd
        rw [hfun]
        rw [List.eraseIdx_append_of_length_le (by rw [List.length_map, hflen])]
        rw [List.length_map, hflen, Nat.sub_self, hdrop, List.map_cons, List.eraseIdx_cons_zero]
        rw [List.take_succ, List.getElem?_eq_getElem hlt]
        simp only [Option.toList, List.filter_append]
        simp [List.filter, ht]
      have hfrom : m - dead_before (dying_at nodes_) m
          = (m + 1) - dead_before (dying_at nodes_) (m + 1) := by
        simp only [dead_before, hdm, if_true]
        omega
      have hr2 : (erase_single_node_and_rotate_ cur (m - dead_before (dying_at nodes_) m)).2
          = m - dead_before (dying_at nodes_) m := rfl
      rw [hr2]
      have := ih (m + 1) _ (by omega) hnext
        (invariants_erase_single cur hinv _ hfrom0 hfrom_lt)
        (by rw [dying_at_zero_erase_single cur hinv.1 _ hfrom0]; exact hroot)
      rw [← hfrom] at this
      exact this
    · simp only [ht]
      have hdm : dying_at nodes_ m = false := by
        rw [dying_at_of_lt _ _ hlt]; simpa using ht
      have hnext : cur =
          ((nodes_.take (m + 1)).filter (fun nd => !nd.tombed_)).map (shifted (dying_at nodes_) (m + 1))
            ++ (nodes_.drop (m + 1)).map (shifted (dying_at nodes_) (m + 1)) := by
        have hfun : shifted (dying_at nodes_) (m + 1) = shifted (dying_at nodes_) m := by
          funext nd
          exact shifted_succ_of_alive (dying_at nodes_) m hdm nd
        have e1 : (nodes_.take (m + 1)).filter (fun nd => !nd.tombed_)
            = (nodes_.take m).filter (fun nd => !nd.tombed_) ++ [nodes_[m]] := by
          rw [List.take_succ, List.getElem?_eq_getElem hlt]
          simp only [Option.toList, List.filter_append]
          simp [List.filter, ht]
        rw [hfun, hcur, e1, hdrop, List.map_append, List.map_cons, List.map_cons, List.map_nil,
          List.append_assoc, List.singleton_append]
      have hfrom : m - dead_before (dying_at nodes_) m + 1
          = (m + 1) - dead_before (dying_at nodes_) (m + 1) := by
        simp only [dead_before, hdm]
        simp
        omega
      have := ih (m + 1) cur (by omega) hnext hinv hroot
      rw [← hfrom] at this
      exact this

/-- Closed form of `erase(begin())` on a store that satisfies the invariants and whose
synthetic root is live: the tombstoned nodes are gone and every other node has its
parent index lowered by the number of tombstoned positions up to its parent's. -/
theorem erase_eq (nodes_ : List document_tree_node) (hinv : invariants nodes_)
    (hroot : dying_at nodes_ 0 = false) :
    (erase nodes_ 0).1
      = (nodes_.filter (fun nd => !nd.tombed_)).map (shifted (dying_at nodes_) nodes_.length) := by
  unfold erase erase_all_unknows_
  have := erase_loop_closed nodes_ nodes_.length 0 nodes_ (by omega)
    (by
      simp only [List.take_zero, List.filter_nil, List.map_nil, List.nil_append, List.drop_zero]
      conv_lhs => rw [← List.map_id nodes_]
      apply List.map_congr_left
      intro nd _
      exact (shifted_zero _ nd).symm)
    hinv hroot
  simpa [dead_before] using this

/-- One more step of fuel changes nothing once the fuel covers the position. -/
theorem descends_from_fuel (proj : Nat → Int) (n : Nat) (hprec : ∀ i, i < n → proj i < (i : Int))
    (P : Nat) : ∀ (fuel j : Nat), j < n → j ≤ fuel →
      descends_from proj P (fuel + 1) j = descends_from proj P fuel j := by
  intro fuel
  induction fuel with
  | zero =>
    intro j hj hj0
    have : j = 0 := by omega
    subst this
    have := hprec 0 hj
    simp only [descends_from]
    have hneg : decide (0 ≤ proj 0) = false := by simp; omega
    rw [hneg]; simp
  | succ fuel ih =>
    intro j hj hjf
    have hp := hprec j hj
    rw [descends_from]
    conv_rhs => rw [descends_from]
    by_cases h0 : 0 ≤ proj j
    · rw [ih (proj j).toNat (by omega) (by omega)]
    · simp [h0]

theorem in_subtree_step (nodes_ : List document_tree_node) (hinv : invariants nodes_) (P j : Nat)
    (hj : j < nodes_.length) :
    in_subtree nodes_ P j =
      (j == P || (decide (0 ≤ parent_index_at nodes_ j) &&
        in_subtree nodes_ P (parent_index_at nodes_ j).toNat)) := by
  unfold in_subtree
  obtain ⟨n, hn⟩ : ∃ n, nodes_.length = n + 1 := ⟨nodes_.length - 1, by omega⟩
  rw [hn, descends_from]
  by_cases h0 : 0 ≤ parent_index_at nodes_ j
  · have hlt := parent_index_lt_self nodes_ hinv j hj
    rw [descends_from_fuel (parent_index_at nodes_) nodes_.length
      (fun i hi => parent_index_lt_self nodes_ hinv i hi) P n _ (by omega) (by omega)]
  · simp [h0]

theorem in_subtree_self (nodes_ : List document_tree_node) (P : Nat) :
    in_subtree nodes_ P P = true := by
  unfold in_subtree
  cases nodes_.length <;> simp [descends_from]

/-- A node of the subtree of `P` does not come before `P`. -/
theorem le_of_in_subtree (nodes_ : List document_tree_node) (hinv : invariants nodes_) (P : Nat) :
    ∀ (i : Nat), i < nodes_.length → in_subtree nodes_ P i = true → P ≤ i := by
  intro i
  induction i using Nat.strong_induction_on with
  | _ i ih =>
    intro hi hsub
    rw [in_subtree_step nodes_ hinv P i hi] at hsub
    simp only [Bool.or_eq_true, beq_iff_eq, Bool.and_eq_true, decide_eq_true_eq] at hsub
    rcases hsub with h | ⟨h0, h⟩
    · omega
    · have hlt := parent_index_lt_self nodes_ hinv i hi
      have := ih (parent_index_at nodes_ i).toNat (by omega) (by omega) h
      omega

theorem in_subtree_of_parent (nodes_ : List document_tree_node) (hinv : invariants nodes_)
    (P j c : Nat) (hj : j < nodes_.length) (hjc : parent_index_at nodes_ j = (c : Int))
    (hc : in_subtree nodes_ P c = true) : in_subtree nodes_ P j = true := by
  rw [in_subtree_step nodes_ hinv P j hj, hjc]
  simp [hc]

/-- The subtree of `r` is `r` together with the subtrees of the children of `r`. -/
theorem in_subtree_iff_child (nodes_ : List document_tree_node) (hinv : invariants nodes_)
    (r : Nat) : ∀ (i : Nat), i < nodes_.length →
      (in_subtree nodes_ r i = true ↔
        i = r ∨ ∃ c, c < nodes_.length ∧ parent_index_at nodes_ c = (r : Int) ∧
          in_subtree nodes_ c i = true) := by
  intro i
  induction i using Nat.strong_induction_on with
  | _ i ih =>
    intro hi
    have hlt := parent_index_lt_self nodes_ hinv i hi
    constructor
    · intro hsub
      rw [in_subtree_step nodes_ hinv r i hi] at hsub
      simp only [Bool.or_eq_true, beq_iff_eq, Bool.and_eq_true, decide_eq_true_eq] at hsub
      rcases hsub with h | ⟨h0, h⟩
      · exact Or.inl h
      · right
        rcases (ih (parent_index_at nodes_ i).toNat (by omega) (by omega)).mp h with h1 | ⟨c, hc, hcr, hci⟩
        · exact ⟨i, hi, by omega, in_subtree_self nodes_ i⟩
        · exact ⟨c, hc, hcr, in_subtree_of_parent nodes_ hinv c i _ hi (by omega) hci⟩
    · intro h
      rcases h with h | ⟨c, hc, hcr, hci⟩
      · subst h; exact in_subtree_self nodes_ i
      · rw [in_subtree_step nodes_ hinv c i hi] at hci
        simp only [Bool.or_eq_true, beq_iff_eq, Bool.and_eq_true, decide_eq_true_eq] at hci
        rcases hci with h | ⟨h0, h⟩
        · subst h
          exact in_subtree_of_parent nodes_ hinv r i r hi hcr (in_subtree_self nodes_ r)
        · have := (ih (parent_index_at nodes_ i).toNat (by omega) (by omega)).mpr
            (Or.inr ⟨c, hc, hcr, h⟩)
          exact in_subtree_of_parent nodes_ hinv r i _ hi (by omega) this

/-- The subtree relation reads parent indices only. -/
theorem in_subtree_congr (nodes_ nodes1 : List document_tree_node)
    (hlen : nodes1.length = nodes_.length)
    (hpid : ∀ i, parent_index_at nodes1 i = parent_index_at nodes_ i) (P i : Nat) :
    in_subtree nodes1 P i = in_subtree nodes_ P i := by
  unfold in_subtree
  have : parent_index_at nodes1 = parent_index_at nodes_ := funext hpid
  rw [this, hlen]

theorem upper_bound_congr (nodes_ nodes1 : List document_tree_node)
    (hlen : nodes1.length = nodes_.length)
    (hpid : ∀ i, parent_index_at nodes1 i = parent_index_at nodes_ i) (first : Nat) (value : Int) :
    upper_bound nodes1 first nodes1.length value = upper_bound nodes_ first nodes_.length value := by
  unfold upper_bound
  have : parent_index_at nodes1 = parent_index_at nodes_ := funext hpid
  rw [this, hlen]

theorem length_set_dying (nodes_ : List document_tree_node) (pos : Nat) :
    (set_dying nodes_ pos).length = nodes_.length := by
  unfold set_dying
  rw [List.length_modify]

theorem parent_index_at_set_dying (nodes_ : List document_tree_node) (pos i : Nat) :
    parent_index_at (set_dying nodes_ pos) i = parent_index_at nodes_ i := by
  unfold parent_index_at
  rw [getElem?_set_dying]
  split_ifs
  · cases nodes_[i]? <;> rfl
  · rfl

theorem dying_at_set_dying (nodes_ : List document_tree_node) (pos i : Nat)
    (hi : i < nodes_.length) :
    (dying_at (set_dying nodes_ pos) i = true ↔ dying_at nodes_ i = true ∨ i = pos) := by
  unfold dying_at
  rw [getElem?_set_dying, List.getElem?_eq_getElem hi]
  by_cases h : pos = i
  · simp [h, document_tree_node.dying]
  · simp only [h, if_false]
    constructor
    · intro h1; exact Or.inl h1
    · intro h1
      rcases h1 with h1 | h1
      · exact h1
      · exact absurd h1.symm h

theorem invariants_congr (nodes_ nodes1 : List document_tree_node)
    (hlen : nodes1.length = nodes_.length)
    (hpid : ∀ i, parent_index_at nodes1 i = parent_index_at nodes_ i)
    (hinv : invariants nodes_) : invariants nodes1 := by
  obtain ⟨hs, hroot, hprec⟩ := hinv
  refine ⟨?_, ?_, ?_⟩
  · intro j hj i hij
    rw [hpid i, hpid j]
    exact hs j (by omega) i hij
  · exact ⟨by rw [hlen]; exact hroot.1, by rw [hpid 0]; exact hroot.2⟩
  · intro i hi hi0
    rw [hpid i]
    exact hprec i (by omega) hi0

/-- On a store that satisfies the invariants, tagging a node terminates within the fuel
that `remove` gives it and tombstones exactly the node and its descendants, on top of
the tombstones that were there. -/
theorem tag_marks_subtree : ∀ (fuel : Nat) (nodes_ : List document_tree_node) (r : Nat),
    invariants nodes_ → r < nodes_.length → nodes_.length - r < fuel →
    ∃ nodes1, tag_current_and_all_children_to_unknow_ fuel nodes_ r = some nodes1 ∧
      ∀ i, i < nodes_.length →
        (dying_at nodes1 i = true ↔ dying_at nodes_ i = true ∨ in_subtree nodes_ r i = true) := by
  intro fuel
  induction fuel with
  | zero => intro nodes_ r _ _ h; omega
  | succ fuel ih =>
    intro nodes_ r hinv hr hfuel
    simp only [tag_current_and_all_children_to_unknow_]
    rw [if_neg (by omega)]
    have hlen1 := length_set_dying nodes_ r
    have hpid1 := parent_index_at_set_dying nodes_ r
    have hinv1 := invariants_congr nodes_ _ hlen1 hpid1 hinv
    rw [upper_bound_congr nodes_ _ hlen1 hpid1, upper_bound_congr nodes_ _ hlen1 hpid1]
    obtain ⟨c1, c2, c3, c4, _, _⟩ := child_search nodes_ hinv.1 r hr
      (parent_index_lt_self nodes_ hinv r hr)
    generalize upper_bound nodes_ r nodes_.length ((r : Int) - 1) = beg at *
    generalize upper_bound nodes_ r nodes_.length (r : Int) = last at *
    have inner : ∀ (cnt s : Nat) (acc : List document_tree_node), s + cnt = last → beg ≤ s →
        invariants acc → acc.length = nodes_.length →
        (∀ i, parent_index_at acc i = parent_index_at nodes_ i) →
        (∀ i, i < nodes_.length → (dying_at acc i = true ↔ dying_at nodes_ i = true ∨ i = r ∨
          ∃ c, beg ≤ c ∧ c < s ∧ in_subtree nodes_ c i = true)) →
        ∃ nodes1, (List.range' s cnt).foldlM
            (fun acc c => tag_current_and_all_children_to_unknow_ fuel acc c) acc = some nodes1 ∧
          ∀ i, i < nodes_.length → (dying_at nodes1 i = true ↔ dying_at nodes_ i = true ∨ i = r ∨
            ∃ c, beg ≤ c ∧ c < last ∧ in_subtree nodes_ c i = true) := by
      intro cnt
      induction cnt with
      | zero =>
        intro s acc hs _ _ _ _ hd
        have : s = last := by omega
        subst this
        exact ⟨acc, rfl, hd⟩
      | succ cnt ihc =>
        intro s acc hs hbs hinva hlena hpida hd
        rw [List.range'_succ, List.foldlM_cons]
        obtain ⟨acc1, htag, hd1⟩ := ih acc s hinva (by omega) (by omega)
        rw [htag]
        simp only [bind, Option.bind]
        have hlen2 := tag_length _ _ _ _ htag
        have hpid2 := tag_parent_index_at _ _ _ _ htag
        refine ihc (s + 1) acc1 (by omega) (by omega) (tag_invariants _ _ _ _ htag hinva)
          (by omega) (fun i => by rw [hpid2 i, hpida i]) (fun i hi => ?_)
        rw [hd1 i (by omega), hd i hi, in_subtree_congr nodes_ acc hlena hpida]
        constructor
        · intro h
          rcases h with (h | h | ⟨c, hc1, hc2, hc3⟩) | h
          · exact Or.inl h
          · exact Or.inr (Or.inl h)
          · exact Or.inr (Or.inr ⟨c, hc1, by omega, hc3⟩)
          · exact Or.inr (Or.inr ⟨s, hbs, by omega, h⟩)
        · intro h
          rcases h with h | h | ⟨c, hc1, hc2, hc3⟩
          · exact Or.inl (Or.inl h)
          · exact Or.inl (Or.inr (Or.inl h))
          · rcases Nat.eq_or_lt_of_le (Nat.le_of_lt_succ hc2) with e | e
            · subst e; exact Or.inr hc3
            · exact Or.inl (Or.inr (Or.inr ⟨c, hc1, e, hc3⟩))
    obtain ⟨nodes1, hfold, hd⟩ := inner (last - beg) beg (set_dying nodes_ r) (by omega) (le_refl _)
      hinv1 hlen1 hpid1 (fun i hi => by
        rw [dying_at_set_dying nodes_ r i hi]
        constructor
        · intro h
          rcases h with h | h
          · exact Or.inl h
          · exact Or.inr (Or.inl h)
        · intro h
          rcases h with h | h | ⟨c, hc1, hc2, _⟩
          · exact Or.inl h
          · exact Or.inr h
          · omega)
    refine ⟨nodes1, hfold, fun i hi => ?_⟩
    rw [hd i hi, in_subtree_iff_child nodes_ hinv r i hi]
    constructor
    · intro h
      rcases h with h | h | ⟨c, hc1, hc2, hc3⟩
      · exact Or.inl h
      · exact Or.inr (Or.inl h)
      · exact Or.inr (Or.inr ⟨c, by omega, (c4 c (by omega)).mpr ⟨hc1, hc2⟩, hc3⟩)
    · intro h
      rcases h with h | h | ⟨c, hc, hcr, hc3⟩
      · exact Or.inl h
      · exact Or.inr (Or.inl h)
      · have := (c4 c hc).mp hcr
        exact Or.inr (Or.inr ⟨c, this.1, this.2, hc3⟩)

theorem remove_eq_some (nodes_ : List document_tree_node) (hinv : invariants nodes_) (which : Nat)
    (hw : which < nodes_.length) :
    ∃ nodes1, remove nodes_ which = some nodes1 ∧
      ∀ i, i < nodes_.length →
        (dying_at nodes1 i = true ↔ dying_at nodes_ i = true ∨ in_subtree nodes_ which i = true) :=
  tag_marks_subtree (nodes_.length + 1) nodes_ which hinv hw (by omega)

/-- A series of `remove` calls on a store that satisfies the invariants terminates,
changes tombstones only, and tombstones exactly the subtrees of the removed nodes. -/
theorem remove_all_marks : ∀ (whiches : List Nat) (nodes_ : List document_tree_node),
    invariants nodes_ → (∀ w, w ∈ whiches → w < nodes_.length) →
    ∃ nodes1, remove_all nodes_ whiches = some nodes1 ∧
      (∀ i : Nat, nodes1[i]?.map (fun nd : document_tree_node => nd.dying true)
        = nodes_[i]?.map (fun nd : document_tree_node => nd.dying true)) ∧
      ∀ i, i < nodes_.length →
        (dying_at nodes1 i = true ↔
          dying_at nodes_ i = true ∨ ∃ w, w ∈ whiches ∧ in_subtree nodes_ w i = true) := by
  intro whiches
  induction whiches with
  | nil =>
    intro nodes_ _ _
    exact ⟨nodes_, rfl, fun _ => rfl, fun i _ => by simp⟩
  | cons w ws ih =>
    intro nodes_ hinv hws
    obtain ⟨nodes1, hrem, hd1⟩ := remove_eq_some nodes_ hinv w (hws w (List.mem_cons_self _ _))
    have hlen := tag_length _ _ _ _ hrem
    have hpid := tag_parent_index_at _ _ _ _ hrem
    have hframe := (tag_frame _ _ _ _ hrem).1
    obtain ⟨nodes2, hrest, hf2, hd2⟩ := ih nodes1 (tag_invariants _ _ _ _ hrem hinv)
      (fun v hv => by rw [hlen]; exact hws v (List.mem_cons_of_mem _ hv))
    refine ⟨nodes2, ?_, fun i => by rw [hf2 i, hframe i], fun i hi => ?_⟩
    · simp only [remove_all, hrem]
      exact hrest
    · rw [hd2 i (by omega), hd1 i hi]
      constructor
      · intro h
        rcases h with (h | h) | ⟨v, hv, hvi⟩
        · exact Or.inl h
        · exact Or.inr ⟨w, List.mem_cons_self _ _, h⟩
        · rw [in_subtree_congr nodes_ nodes1 hlen hpid] at hvi
          exact Or.inr ⟨v, List.mem_cons_of_mem _ hv, hvi⟩
      · intro h
        rcases h with h | ⟨v, hv, hvi⟩
        · exact Or.inl (Or.inl h)
        · rcases List.mem_cons.mp hv with e | e
          · subst e; exact Or.inl (Or.inr hvi)
          · exact Or.inr ⟨v, e, by rw [in_subtree_congr nodes_ nodes1 hlen hpid]; exact hvi⟩

theorem dead_before_congr (dead1 dead2 : Nat → Bool) (m : Nat)
    (h : ∀ t, t < m → dead1 t = dead2 t) : dead_before dead1 m = dead_before dead2 m := by
  induction m with
  | zero => rfl
  | succ m ih =>
    simp only [dead_before]
    rw [ih (fun t ht => h t (by omega)), h m (by omega)]

/-- The closed form of the compaction loop is the specified compaction when the dead
positions are the tombstoned ones and no survivor has a dead parent. -/
theorem filter_shifted_eq_compacted (nodes_ nodes1 : List document_tree_node)
    (hinv : invariants nodes_) (dead : Nat → Bool)
    (hlive : ∀ i, i < nodes_.length → dying_at nodes_ i = false)
    (hframe : ∀ i : Nat, nodes1[i]?.map (fun nd : document_tree_node => nd.dying true)
        = nodes_[i]?.map (fun nd : document_tree_node => nd.dying true))
    (hlen : nodes1.length = nodes_.length)
    (hdead : ∀ i, i < nodes_.length → dying_at nodes1 i = dead i)
    (hclosed : ∀ i, i < nodes_.length → 0 ≤ parent_index_at nodes_ i →
      dead (parent_index_at nodes_ i).toNat = true → dead i = true) :
    ∀ (d k : Nat), k + d = nodes_.length →
      ((nodes1.drop k).filter (fun nd => !nd.tombed_)).map (shifted (dying_at nodes1) nodes_.length)
        = compacted_from dead k (nodes_.drop k) := by
  intro d
  induction d with
  | zero =>
    intro k hk
    have : k = nodes_.length := by omega
    subst this
    rw [List.drop_length, ← hlen, List.drop_length]
    rfl
  | succ d ih =>
    intro k hk
    have hlt : k < nodes_.length := by omega
    have hlt1 : k < nodes1.length := by omega
    rw [List.drop_eq_getElem_cons hlt, List.drop_eq_getElem_cons hlt1]
    simp only [compacted_from]
    have hdk := hdead k hlt
    rw [dying_at_of_lt _ _ hlt1] at hdk
    have hfk := hframe k
    rw [List.getElem?_eq_getElem hlt, List.getElem?_eq_getElem hlt1] at hfk
    simp only [Option.map_some', Option.some.injEq] at hfk
    by_cases hS : dead k = true
    · rw [if_pos hS]
      rw [List.filter_cons_of_neg (by simp [hdk, hS])]
      exact ih (k + 1) (by omega)
    · rw [if_neg hS]
      rw [List.filter_cons_of_pos (by simp [hdk, hS]), List.map_cons, ih (k + 1) (by omega)]
      congr 1
      have hl := hlive k hlt
      rw [dying_at_of_lt _ _ hlt] at hl
      have heq : nodes1[k] = nodes_[k] := by
        have h1 : (nodes1[k]).tombed_ = (nodes_[k]).tombed_ := by
          rw [hdk, hl]; simpa using hS
        rcases hn1 : nodes1[k] with ⟨a1, b1, c1, d1⟩
        rcases hn0 : nodes_[k] with ⟨a0, b0, c0, d0⟩
        rw [hn1, hn0] at hfk h1
        simp only [document_tree_node.dying, document_tree_node.mk.injEq] at hfk
        simp only at h1
        simp [hfk.1, hfk.2.1, hfk.2.2, h1]
      rw [heq]
      unfold shifted new_parent_index
      have hpk := parent_index_at_of_lt nodes_ k hlt
      have hplt := parent_index_lt_self nodes_ hinv k hlt
      rw [hpk] at hplt
      by_cases hq : (nodes_[k]).pid_ < 0
      · rw [if_pos hq]
        have : (nodes_[k].pid_ + 1).toNat = 0 := by omega
        rw [this]
        simp [dead_before]
      · rw [if_neg hq]
        have h1 : min nodes_.length (nodes_[k].pid_ + 1).toNat = (nodes_[k].pid_).toNat + 1 := by
          omega
        rw [h1]
        have hparent : dead (nodes_[k].pid_).toNat = false := by
          by_contra hcon
          have := hclosed k hlt (by rw [hpk]; omega) (by rw [hpk]; simpa using hcon)
          exact hS this
        have hdp : dying_at nodes1 (nodes_[k].pid_).toNat = false := by
          rw [hdead _ (by omega), hparent]
        simp only [dead_before, hdp]
        rw [dead_before_congr (dying_at nodes1) dead _ (fun t ht => hdead t (by omega))]
        congr 1
        simp
        omega

end document_tree
end jxxson

namespace jxxson
namespace document_tree_batch_inserter

theorem depth_at_append_left (nodes_ : List inserter_node) (e : inserter_node) (k : Nat)
    (hk : k < nodes_.length) : depth_at (nodes_ ++ [e]) k = depth_at nodes_ k := by
  unfold depth_at
  rw [List.getElem?_append_left hk]

theorem parent_at_append_left (nodes_ : List inserter_node) (e : inserter_node) (k : Nat)
    (hk : k < nodes_.length) : parent_at (nodes_ ++ [e]) k = parent_at nodes_ k := by
  unfold parent_at
  rw [List.getElem?_append_left hk]

theorem index_at_append_left (nodes_ : List inserter_node) (e : inserter_node) (k : Nat)
    (hk : k < nodes_.length) : index_at (nodes_ ++ [e]) k = index_at nodes_ k := by
  unfold index_at
  rw [List.getElem?_append_left hk]

theorem getElem?_append_last (nodes_ : List inserter_node) (e : inserter_node) :
    (nodes_ ++ [e])[nodes_.length]? = some e := by
  rw [List.getElem?_append_right (le_refl _)]
  simp

/-- The depth loop of `emplace` returns the depth the pool records for the parent, added
to its start value, when every entry but the root has an earlier parent one level up. -/
theorem depth_loop_eq (nodes_ : List inserter_node)
    (hlinks : ∀ k, 0 < k → k < nodes_.length →
      ∃ p, parent_at nodes_ k = some p ∧ p < k ∧ depth_at nodes_ k = depth_at nodes_ p + 1)
    (hroot : depth_at nodes_ 0 = 0) :
    ∀ (p fuel d : Nat), p < nodes_.length → p < fuel →
      depth_loop nodes_ fuel (some p) d = some (d + depth_at nodes_ p) := by
  intro p
  induction p using Nat.strong_induction_on with
  | _ p ih =>
    intro fuel d hp hfuel
    obtain ⟨f, hf⟩ : ∃ f, fuel = f + 1 := ⟨fuel - 1, by omega⟩
    subst hf
    simp only [depth_loop]
    rcases Nat.eq_zero_or_pos p with h0 | h0
    · subst h0
      simp [hroot]
    · rw [if_neg (by simp; omega)]
      obtain ⟨q, hq1, hq2, hq3⟩ := hlinks p h0 hp
      unfold parent_at at hq1
      rw [List.getElem?_eq_getElem hp] at hq1 ⊢
      simp only at hq1 ⊢
      rw [hq1, ih q hq2 f (d + 1) (by omega) (by omega), hq3]
      congr 1
      omega

theorem ancestors_succ (nodes_ : List inserter_node)
    (hlinks : ∀ k, 0 < k → k < nodes_.length →
      ∃ p, parent_at nodes_ k = some p ∧ p < k ∧ depth_at nodes_ k = depth_at nodes_ p + 1)
    (hroot : parent_at nodes_ 0 = none) :
    ∀ (fuel k : Nat), k < nodes_.length → k ≤ fuel →
      ancestors nodes_ (fuel + 1) k = ancestors nodes_ fuel k := by
  intro fuel
  induction fuel with
  | zero =>
    intro k hk hk0
    have : k = 0 := by omega
    subst this
    unfold parent_at at hroot
    rw [List.getElem?_eq_getElem hk] at hroot
    simp only at hroot
    simp only [ancestors]
    rw [List.getElem?_eq_getElem hk]
    simp only [hroot]
  | succ fuel ih =>
    intro k hk hkf
    rw [ancestors]
    conv_rhs => rw [ancestors]
    rw [List.getElem?_eq_getElem hk]
    simp only
    rcases hpar : (nodes_[k]).parent with _ | p
    · rfl
    · simp only
      have hk0 : 0 < k := by
        rcases Nat.eq_zero_or_pos k with h | h
        · subst h
          unfold parent_at at hroot
          rw [List.getElem?_eq_getElem hk] at hroot
          simp only at hroot
          rw [hroot] at hpar
          cases hpar
        · exact h
      obtain ⟨q, hq1, hq2, _⟩ := hlinks k hk0 hk
      unfold parent_at at hq1
      rw [List.getElem?_eq_getElem hk] at hq1
      simp only at hq1
      rw [hpar] at hq1
      cases hq1
      rw [ih p (by omega) (by omega)]

theorem ancestors_zero (nodes_ : List inserter_node) (hroot : parent_at nodes_ 0 = none)
    (fuel : Nat) : ancestors nodes_ fuel 0 = [0] := by
  cases fuel with
  | zero => rfl
  | succ fuel =>
    rw [ancestors]
    unfold parent_at at hroot
    rcases h : nodes_[0]? with _ | e
    · rfl
    · rw [h] at hroot
      simp only at hroot
      simp only [hroot]

theorem ancestors_unfold (nodes_ : List inserter_node)
    (hlinks : ∀ k, 0 < k → k < nodes_.length →
      ∃ p, parent_at nodes_ k = some p ∧ p < k ∧ depth_at nodes_ k = depth_at nodes_ p + 1)
    (hroot : parent_at nodes_ 0 = none)
    (k p : Nat) (hk : k < nodes_.length) (hp : parent_at nodes_ k = some p) :
    ancestors nodes_ nodes_.length k = k :: ancestors nodes_ nodes_.length p := by
  have hk0 : 0 < k := by
    rcases Nat.eq_zero_or_pos k with h | h
    · subst h; rw [hroot] at hp; cases hp
    · exact h
  obtain ⟨q, hq1, hq2, _⟩ := hlinks k hk0 hk
  rw [hp] at hq1
  cases hq1
  obtain ⟨m, hm⟩ : ∃ m, nodes_.length = m + 1 := ⟨nodes_.length - 1, by omega⟩
  rw [hm]
  conv_lhs => rw [ancestors]
  unfold parent_at at hp
  rw [List.getElem?_eq_getElem hk] at hp ⊢
  simp only at hp ⊢
  rw [hp]
  simp only
  rw [ancestors_succ nodes_ hlinks hroot m p (by omega) (by omega)]

/-- The entries on the path from `k` to the root are staged entries not after `k`, and
none lies deeper than `k`. -/
theorem ancestors_bounds (nodes_ : List inserter_node)
    (hlinks : ∀ k, 0 < k → k < nodes_.length →
      ∃ p, parent_at nodes_ k = some p ∧ p < k ∧ depth_at nodes_ k = depth_at nodes_ p + 1)
    (hroot : parent_at nodes_ 0 = none) :
    ∀ (k : Nat), k < nodes_.length → ∀ c, c ∈ ancestors nodes_ nodes_.length k →
      c ≤ k ∧ depth_at nodes_ c ≤ depth_at nodes_ k := by
  intro k
  induction k using Nat.strong_induction_on with
  | _ k ih =>
    intro hk c hc
    rcases Nat.eq_zero_or_pos k with h0 | h0
    · subst h0
      rw [ancestors_zero nodes_ hroot] at hc
      simp at hc
      subst hc
      exact ⟨le_refl _, le_refl _⟩
    · obtain ⟨p, hp1, hp2, hp3⟩ := hlinks k h0 hk
      rw [ancestors_unfold nodes_ hlinks hroot k p hk hp1] at hc
      rcases List.mem_cons.mp hc with e | e
      · subst e; exact ⟨le_refl _, le_refl _⟩
      · have := ih p hp2 (by omega) c e
        omega

/-- The path of an entry that lies on the path of `t` is part of the path of `t`. -/
theorem ancestors_trans (nodes_ : List inserter_node)
    (hlinks : ∀ k, 0 < k → k < nodes_.length →
      ∃ p, parent_at nodes_ k = some p ∧ p < k ∧ depth_at nodes_ k = depth_at nodes_ p + 1)
    (hroot : parent_at nodes_ 0 = none) :
    ∀ (t : Nat), t < nodes_.length → ∀ p, p ∈ ancestors nodes_ nodes_.length t →
      ∀ c, c ∈ ancestors nodes_ nodes_.length p → c ∈ ancestors nodes_ nodes_.length t := by
  intro t
  induction t using Nat.strong_induction_on with
  | _ t ih =>
    intro ht p hp c hc
    rcases Nat.eq_zero_or_pos t with h0 | h0
    · subst h0
      rw [ancestors_zero nodes_ hroot] at hp
      simp at hp
      subst hp
      exact hc
    · obtain ⟨q, hq1, hq2, _⟩ := hlinks t h0 ht
      rw [ancestors_unfold nodes_ hlinks hroot t q ht hq1] at hp ⊢
      rcases List.mem_cons.mp hp with e | e
      · subst e
        rw [ancestors_unfold nodes_ hlinks hroot p q ht hq1] at hc
        exact hc
      · exact List.mem_cons_of_mem _ (ih q hq2 (by omega) p e c hc)

theorem ancestors_append_left (nodes_ : List inserter_node) (e : inserter_node)
    (hlinks : ∀ k, 0 < k → k < nodes_.length →
      ∃ p, parent_at nodes_ k = some p ∧ p < k ∧ depth_at nodes_ k = depth_at nodes_ p + 1)
    (hroot : parent_at nodes_ 0 = none) :
    ∀ (fuel k : Nat), k < nodes_.length →
      ancestors (nodes_ ++ [e]) fuel k = ancestors nodes_ fuel k := by
  intro fuel
  induction fuel with
  | zero => intro k _; rfl
  | succ fuel ih =>
    intro k hk
    rw [ancestors]
    conv_rhs => rw [ancestors]
    rw [List.getElem?_append_left hk, List.getElem?_eq_getElem hk]
    simp only
    rcases hpar : (nodes_[k]).parent with _ | p
    · rfl
    · simp only
      have hpa : parent_at nodes_ k = some p := by
        unfold parent_at
        rw [List.getElem?_eq_getElem hk]
        exact hpar
      have hk0 : 0 < k := by
        rcases Nat.eq_zero_or_pos k with h | h
        · subst h; rw [hroot] at hpa; cases hpa
        · exact h
      obtain ⟨q, hq1, hq2, _⟩ := hlinks k hk0 hk
      rw [hpa] at hq1
      cases hq1
      rw [ih p (by omega)]

/-- A pool filled in depth-first order is well staged, and the entries on the path from
its last entry to the root are the latest entries of their depths. -/
theorem depth_first_well_staged (ins : document_tree_batch_inserter) (h : depth_first ins) :
    well_staged ins ∧
    (∀ c, c ∈ ancestors ins.nodes_ ins.nodes_.length (ins.nodes_.length - 1) →
      ∀ e, e < ins.nodes_.length → depth_at ins.nodes_ e = depth_at ins.nodes_ c → e ≤ c) := by
  induction h with
  | ctor =>
    refine ⟨⟨by decide, rfl, rfl, rfl, ?_, ?_, ?_, ?_⟩, ?_⟩
    · intro k hk0 hk
      simp [ctor] at hk
      omega
    · intro k hk
      simp [ctor] at hk
      subst hk
      decide
    · intro k
      unfold index_at
      rcases k with _ | k
      · rfl
      · simp [ctor]
    · intro a b pa pb h0 hab hb
      simp [ctor] at hb
      omega
    · intro c hc e he _
      simp [ctor] at he
      omega
  | @emplace ins ins1 it hdf parent hparent name value hemplace ih =>
    obtain ⟨⟨w1, w2, w3, w4, w5, w6, w7, w8⟩, hJ⟩ := ih
    have hpb := ancestors_bounds ins.nodes_ w5 w4 (ins.nodes_.length - 1) (by omega) parent hparent
    have hplt : parent < ins.nodes_.length := by omega
    have hdl := depth_loop_eq ins.nodes_ w5 w3 parent (ins.nodes_.length + 1) 1 hplt (by omega)
    unfold document_tree_batch_inserter.emplace at hemplace
    rw [hdl] at hemplace
    simp only [Option.some.injEq, Prod.mk.injEq] at hemplace
    obtain ⟨hins1, _⟩ := hemplace
    subst hins1
    simp only
    generalize hnew :
      inserter_node.mk (1 + depth_at ins.nodes_ parent) (some parent) name value 0 = enew
    have hlen : (ins.nodes_ ++ [enew]).length = ins.nodes_.length + 1 := by simp
    have hd_old : ∀ k, k < ins.nodes_.length → depth_at (ins.nodes_ ++ [enew]) k = depth_at ins.nodes_ k :=
      fun k hk => depth_at_append_left _ _ k hk
    have hp_old : ∀ k, k < ins.nodes_.length →
        parent_at (ins.nodes_ ++ [enew]) k = parent_at ins.nodes_ k :=
      fun k hk => parent_at_append_left _ _ k hk
    have hd_new : depth_at (ins.nodes_ ++ [enew]) ins.nodes_.length = depth_at ins.nodes_ parent + 1 := by
      conv_lhs => unfold depth_at
      rw [getElem?_append_last, ← hnew]
      simp only
      omega
    have hp_new : parent_at (ins.nodes_ ++ [enew]) ins.nodes_.length = some parent := by
      unfold parent_at
      rw [getElem?_append_last, ← hnew]
    have hlinks1 : ∀ k, 0 < k → k < (ins.nodes_ ++ [enew]).length →
        ∃ p, parent_at (ins.nodes_ ++ [enew]) k = some p ∧ p < k ∧
          depth_at (ins.nodes_ ++ [enew]) k = depth_at (ins.nodes_ ++ [enew]) p + 1 := by
      intro k hk0 hk
      rw [hlen] at hk
      rcases Nat.eq_or_lt_of_le (Nat.le_of_lt_succ hk) with e | e
      · subst e
        exact ⟨parent, hp_new, hplt, by rw [hd_new, hd_old parent hplt]⟩
      · obtain ⟨p, hp1, hp2, hp3⟩ := w5 k hk0 e
        exact ⟨p, by rw [hp_old k e]; exact hp1, hp2,
          by rw [hd_old k e, hd_old p (by omega)]; exact hp3⟩
    have hroot1 : parent_at (ins.nodes_ ++ [enew]) 0 = none := by rw [hp_old 0 w1]; exact w4
    unfold well_staged
    dsimp only
    refine ⟨⟨by omega, by omega, by rw [hd_old 0 w1]; exact w3, hroot1, hlinks1, ?_, ?_, ?_⟩, ?_⟩
    · intro k hk
      rw [hlen] at hk
      rcases Nat.eq_or_lt_of_le (Nat.le_of_lt_succ hk) with e | e
      · subst e
        rw [hd_new]
        have : 1 + depth_at ins.nodes_ parent ≤ max ins.max_depth_ (1 + depth_at ins.nodes_ parent) :=
          le_max_right _ _
        omega
      · rw [hd_old k e]
        have := w6 k e
        have : ins.max_depth_ ≤ max ins.max_depth_ (1 + depth_at ins.nodes_ parent) :=
          le_max_left _ _
        omega
    · intro k
      rcases Nat.lt_trichotomy k ins.nodes_.length with e | e | e
      · rw [index_at_append_left _ _ k e]; exact w7 k
      · subst e
        unfold index_at
        rw [getElem?_append_last, ← hnew]
      · unfold index_at
        rw [List.getElem?_eq_none (by omega)]
    · intro a b pa pb ha hab hb hdep hpa hpb
      rw [hlen] at hb
      rcases Nat.eq_or_lt_of_le (Nat.le_of_lt_succ hb) with e | e
      · subst e
        rw [hp_new] at hpb
        cases hpb
        rw [hp_old a hab] at hpa
        rw [hd_old a hab, hd_new] at hdep
        obtain ⟨q, hq1, hq2, hq3⟩ := w5 a ha hab
        rw [hpa] at hq1
        cases hq1
        exact hJ parent hparent pa (by omega) (by omega)
      · rw [hp_old a (by omega)] at hpa
        rw [hp_old b e] at hpb
        rw [hd_old a (by omega), hd_old b e] at hdep
        exact w8 a b pa pb ha hab e hdep hpa hpb
    · intro c hc e he hdep
      have hl1 : (ins.nodes_ ++ [enew]).length - 1 = ins.nodes_.length := by omega
      rw [hl1] at hc
      rw [hlen] at he
      rw [ancestors_unfold _ hlinks1 hroot1 ins.nodes_.length parent (by omega) hp_new] at hc
      rcases List.mem_cons.mp hc with hc1 | hc1
      · omega
      · rw [hlen, ancestors_succ _ hlinks1 hroot1 ins.nodes_.length parent (by omega) (by omega),
          ancestors_append_left _ _ w5 w4 _ _ hplt] at hc1
        have hcb := ancestors_bounds ins.nodes_ w5 w4 parent hplt c hc1
        have hct := ancestors_trans ins.nodes_ w5 w4 (ins.nodes_.length - 1) (by omega)
          parent hparent c hc1
        rw [hd_old c (by omega)] at hdep
        rcases Nat.eq_or_lt_of_le (Nat.le_of_lt_succ he) with e1 | e1
        · subst e1
          rw [hd_new] at hdep
          omega
        · rw [hd_old e e1] at hdep
          exact hJ c hct e e1 hdep

end document_tree_batch_inserter
end jxxson

namespace jxxson
namespace document_tree_parser_t

open document_tree_batch_inserter

theorem materialize_entry_eq (i : Nat) (st : materialize_state) (k : Nat) :
    materialize_entry i st k = if depth_at st.pool k = i then materialize_step st k else st := by
  unfold materialize_step materialize_entry depth_at
  rcases h : st.pool[k]? with _ | j
  · simp
  · simp only
    by_cases hd : j.depth = i
    · simp [hd]
    · simp [hd]

/-- The pool after one step: only the `index` of the entry taken has changed. -/
theorem materialize_step_pool (st : materialize_state) (k : Nat) (j : inserter_node)
    (hj : st.pool[k]? = some j) :
    (materialize_step st k).pool = st.pool.set k { j with index := st.counter } ∧
    (materialize_step st k).counter = st.counter + 1 ∧
    (materialize_step st k).nodes_ = st.nodes_.set st.counter
      (document_tree_node.of_pid
        ((parent_index (st.pool.set k { j with index := st.counter }) j.parent : Nat) : Int)
        j.name j.value) := by
  unfold materialize_step materialize_entry depth_at
  rw [hj]
  simp only [if_true]
  exact ⟨trivial, trivial, trivial⟩

theorem materialize_step_none (st : materialize_state) (k : Nat) (hj : st.pool[k]? = none) :
    materialize_step st k = st := by
  unfold materialize_step materialize_entry
  rw [hj]

theorem depth_at_materialize_step (st : materialize_state) (k : Nat) :
    ∀ x, depth_at (materialize_step st k).pool x = depth_at st.pool x := by
  intro x
  rcases hj : st.pool[k]? with _ | j
  · rw [materialize_step_none st k hj]
  · rw [(materialize_step_pool st k j hj).1]
    unfold depth_at
    rw [List.getElem?_set]
    split_ifs with h1 h2
    · subst h1
      rw [hj]
    · subst h1
      rw [List.getElem?_eq_none (by omega)] at hj
      cases hj
    · rfl

theorem foldl_materialize_entry (i : Nat) : ∀ (l : List Nat) (st : materialize_state),
    l.foldl (materialize_entry i) st
      = (l.filter (fun k => decide (depth_at st.pool k = i))).foldl materialize_step st ∧
    ∀ x, depth_at (l.foldl (materialize_entry i) st).pool x = depth_at st.pool x := by
  intro l
  induction l with
  | nil => intro st; exact ⟨rfl, fun _ => rfl⟩
  | cons k l ih =>
    intro st
    rw [List.foldl_cons, materialize_entry_eq]
    by_cases hd : depth_at st.pool k = i
    · rw [if_pos hd, List.filter_cons_of_pos (by simpa using hd), List.foldl_cons]
      obtain ⟨h1, h2⟩ := ih (materialize_step st k)
      have hf : (fun k1 => decide (depth_at (materialize_step st k).pool k1 = i))
          = (fun k1 => decide (depth_at st.pool k1 = i)) := by
        funext k1
        rw [depth_at_materialize_step]
      rw [hf] at h1
      exact ⟨h1, fun x => by rw [h2 x, depth_at_materialize_step]⟩
    · rw [if_neg hd, List.filter_cons_of_neg (by simpa using hd)]
      exact ih st

/-- The two nested loops take the entries in the order `materialize_order`. -/
theorem materialize_loop_eq (nodes_ : List document_tree_node) (ins : document_tree_batch_inserter) :
    materialize_loop nodes_ ins
      = (materialize_order ins).foldl materialize_step
          { pool := ins.nodes_, nodes_ := resize nodes_ ins.size_, counter := 1 } := by
  unfold materialize_loop materialize_order
  have key : ∀ (ps : List Nat) (st : materialize_state),
      (∀ x, depth_at st.pool x = depth_at ins.nodes_ x) →
      ps.foldl (fun st i => (List.range ins.nodes_.length).foldl (materialize_entry i) st) st
        = (ps.flatMap (fun i => (List.range ins.nodes_.length).filter
            (fun k => decide (depth_at ins.nodes_ k = i)))).foldl materialize_step st := by
    intro ps
    induction ps with
    | nil => intro st _; rfl
    | cons i ps ih =>
      intro st hst
      rw [List.foldl_cons, List.flatMap_cons, List.foldl_append]
      obtain ⟨h1, h2⟩ := foldl_materialize_entry i (List.range ins.nodes_.length) st
      have hf : (fun k => decide (depth_at st.pool k = i))
          = (fun k => decide (depth_at ins.nodes_ k = i)) := by
        funext k
        rw [hst]
      rw [hf] at h1
      rw [← h1]
      exact ih _ (fun x => by rw [h2 x, hst x])
  exact key _ _ (fun _ => rfl)

/-- A well staged pool is well linked. -/
theorem well_linked_of_well_staged (ins : document_tree_batch_inserter) (hw : well_staged ins) :
    well_linked ins :=
  ⟨hw.1, hw.2.1, hw.2.2.1, hw.2.2.2.1, hw.2.2.2.2.1, hw.2.2.2.2.2.1, hw.2.2.2.2.2.2.1⟩

/-- The materialization takes every entry but the pool root. -/
theorem mem_materialize_order_of_linked (ins : document_tree_batch_inserter) (hw : well_linked ins) (k : Nat) :
    k ∈ materialize_order ins ↔ 0 < k ∧ k < ins.nodes_.length := by
  obtain ⟨w1, w2, w3, w4, w5, w6, w7⟩ := hw
  unfold materialize_order
  simp only [List.mem_flatMap, List.mem_range'_1, List.mem_filter, List.mem_range,
    decide_eq_true_eq]
  constructor
  · rintro ⟨i, ⟨hi1, hi2⟩, hk, hd⟩
    refine ⟨?_, hk⟩
    rcases Nat.eq_zero_or_pos k with h | h
    · subst h; omega
    · exact h
  · rintro ⟨hk0, hk⟩
    obtain ⟨p, _, _, hp3⟩ := w5 k hk0 hk
    have := w6 k hk
    exact ⟨depth_at ins.nodes_ k, ⟨by omega, by omega⟩, hk, rfl⟩

theorem mem_materialize_order (ins : document_tree_batch_inserter) (hw : well_staged ins) (k : Nat) :
    k ∈ materialize_order ins ↔ 0 < k ∧ k < ins.nodes_.length :=
  mem_materialize_order_of_linked ins (well_linked_of_well_staged ins hw) k

/-- The materialization order is by depth first and by pool position within a depth. -/
theorem pairwise_materialize_order (ins : document_tree_batch_inserter) :
    (materialize_order ins).Pairwise (fun x y =>
      depth_at ins.nodes_ x < depth_at ins.nodes_ y ∨
      (depth_at ins.nodes_ x = depth_at ins.nodes_ y ∧ x < y)) := by
  unfold materialize_order
  rw [List.pairwise_flatMap]
  constructor
  · intro i _
    rw [List.pairwise_filter]
    apply List.Pairwise.imp _ (List.pairwise_lt_range _)
    intro a b hab ha hb
    right
    exact ⟨by omega, hab⟩
  · apply List.Pairwise.imp _ (List.pairwise_lt_range' 1 ins.max_depth_)
    intro i1 i2 hi x hx y hy
    simp only [List.mem_filter, decide_eq_true_eq] at hx hy
    left
    omega

theorem nodup_materialize_order (ins : document_tree_batch_inserter) :
    (materialize_order ins).Nodup := by
  apply List.Pairwise.imp _ (pairwise_materialize_order ins)
  intro a b h heq
  subst heq
  omega

theorem length_materialize_order_of_linked (ins : document_tree_batch_inserter) (hw : well_linked ins) :
    (materialize_order ins).length = ins.nodes_.length - 1 := by
  have hperm : (materialize_order ins).Perm (List.range' 1 (ins.nodes_.length - 1)) := by
    apply (List.perm_ext_iff_of_nodup (nodup_materialize_order ins) (List.nodup_range' _ _)).mpr
    intro k
    rw [mem_materialize_order_of_linked ins hw, List.mem_range'_1]
    have := hw.1
    omega
  rw [hperm.length_eq, List.length_range']

theorem length_materialize_order (ins : document_tree_batch_inserter) (hw : well_staged ins) :
    (materialize_order ins).length = ins.nodes_.length - 1 :=
  length_materialize_order_of_linked ins (well_linked_of_well_staged ins hw)

theorem index_at_set (pool : List inserter_node) (k x : Nat) (e : inserter_node)
    (hk : k < pool.length) :
    index_at (pool.set k e) x = if k = x then e.index else index_at pool x := by
  unfold index_at
  rw [List.getElem?_set]
  split_ifs with h1
  · rfl
  · rfl

/-- One step of the materialization keeps the description of its state. -/
theorem materialized_step_of_linked (ins : document_tree_batch_inserter) (hw : well_linked ins)
    (nodes0 : List document_tree_node) (hn0 : nodes0.length = ins.nodes_.length)
    (taken rest : List Nat) (k : Nat) (hO : taken ++ k :: rest = materialize_order ins)
    (st : materialize_state) (hst : materialized ins.nodes_ nodes0 taken st) :
    materialized ins.nodes_ nodes0 (taken ++ [k]) (materialize_step st k) := by
  obtain ⟨w1, w2, w3, w4, w5, w6, w7⟩ := hw
  obtain ⟨ha, hb1, hb2, hc, hd, he, hf, hg⟩ := hst
  have hkO : k ∈ materialize_order ins := by rw [← hO]; simp
  have hk := (mem_materialize_order_of_linked ins ⟨w1, w2, w3, w4, w5, w6, w7⟩ k).mp hkO
  have hnodup := nodup_materialize_order ins
  have hpw := pairwise_materialize_order ins
  rw [← hO] at hnodup hpw
  have hknot : k ∉ taken := by
    intro hmem
    have := (List.nodup_append.mp hnodup).2.2 hmem (List.mem_cons_self _ _)
    exact this
  have hlenO := length_materialize_order_of_linked ins ⟨w1, w2, w3, w4, w5, w6, w7⟩
  rw [← hO] at hlenO
  simp only [List.length_append, List.length_cons] at hlenO
  obtain ⟨e0, he0⟩ : ∃ e0, ins.nodes_[k]? = some e0 := ⟨_, List.getElem?_eq_getElem hk.2⟩
  have hj := hc k e0 he0
  obtain ⟨s1, s2, s3⟩ := materialize_step_pool st k _ hj
  have hkp : k < st.pool.length := by omega
  have hidx : ∀ x, index_at (materialize_step st k).pool x
      = if k = x then st.counter else index_at st.pool x := by
    intro x
    rw [s1, index_at_set _ _ _ _ hkp]
  -- an entry taken earlier does not have `k` as parent
  have hparent_ne : ∀ (j x : Nat) (ex : inserter_node), taken[j]? = some x →
      ins.nodes_[x]? = some ex → ex.parent ≠ some k := by
    intro j x ex hjx hex hpar
    have hxmem : x ∈ taken := List.getElem?_mem hjx
    have hxO : x ∈ materialize_order ins := by rw [← hO]; simp [hxmem]
    have hx := (mem_materialize_order_of_linked ins ⟨w1, w2, w3, w4, w5, w6, w7⟩ x).mp hxO
    obtain ⟨p, hp1, hp2, hp3⟩ := w5 x hx.1 hx.2
    unfold parent_at at hp1
    rw [hex] at hp1
    simp only at hp1
    rw [hpar] at hp1
    cases hp1
    have := (List.pairwise_append.mp hpw).2.2 x hxmem k (List.mem_cons_self _ _)
    omega
  unfold materialized
  refine ⟨?_, ?_, ?_, ?_, ?_, ?_, ?_, ?_⟩
  · rw [s2, ha]; simp
  · rw [s1, List.length_set]; exact hb1
  · rw [s3, List.length_set]; exact hb2
  · intro x ex hex
    rw [hidx x, s1, List.getElem?_set]
    by_cases hkx : k = x
    · subst hkx
      rw [if_pos rfl, if_pos hkp, if_pos rfl]
      rw [he0] at hex
      cases hex
      rfl
    · rw [if_neg hkx, if_neg hkx]
      exact hc x ex hex
  · intro j x hjx
    rw [hidx x]
    by_cases hjt : j < taken.length
    · rw [List.getElem?_append_left hjt] at hjx
      have hxmem : x ∈ taken := List.getElem?_mem hjx
      rw [if_neg (fun h : k = x => hknot (h ▸ hxmem))]
      exact hd j x hjx
    · rw [List.getElem?_append_right (by omega)] at hjx
      have hj0 : j - taken.length = 0 := by
        by_contra hne
        rw [List.getElem?_eq_none (by simp; omega)] at hjx
        cases hjx
      rw [hj0] at hjx
      simp only [List.getElem?_cons_zero, Option.some.injEq] at hjx
      subst hjx
      rw [if_pos rfl, ha]
      omega
  · rw [hidx 0, if_neg (by omega)]
    exact he
  · intro j x ex hjx hex
    have hpi : ∀ (par : Option Nat), par ≠ some k →
        parent_index (materialize_step st k).pool par = parent_index st.pool par := by
      intro par hpar
      unfold parent_index
      rcases par with _ | p
      · rfl
      · simp only
        rw [hidx p, if_neg (fun h => hpar (by rw [h]))]
    by_cases hjt : j < taken.length
    · rw [List.getElem?_append_left hjt] at hjx
      rw [s3, List.getElem?_set_ne (by omega), hpi _ (hparent_ne j x ex hjx hex)]
      exact hf j x ex hjx hex
    · rw [List.getElem?_append_right (by omega)] at hjx
      have hj0 : j - taken.length = 0 := by
        by_contra hne
        rw [List.getElem?_eq_none (by simp; omega)] at hjx
        cases hjx
      rw [hj0] at hjx
      simp only [List.getElem?_cons_zero, Option.some.injEq] at hjx
      subst hjx
      rw [he0] at hex
      cases hex
      have hjeq : j = taken.length := by omega
      subst hjeq
      rw [s3, ← ha, List.getElem?_set_self (by omega)]
      rw [← s1]
  · rw [s3, List.getElem?_set_ne (by omega)]
    exact hg

theorem materialized_step (ins : document_tree_batch_inserter) (hw : well_staged ins)
    (nodes0 : List document_tree_node) (hn0 : nodes0.length = ins.nodes_.length)
    (taken rest : List Nat) (k : Nat) (hO : taken ++ k :: rest = materialize_order ins)
    (st : materialize_state) (hst : materialized ins.nodes_ nodes0 taken st) :
    materialized ins.nodes_ nodes0 (taken ++ [k]) (materialize_step st k) :=
  materialized_step_of_linked ins (well_linked_of_well_staged ins hw) nodes0 hn0 taken rest k hO st hst

theorem length_resize (nodes_ : List document_tree_node) (n : Nat) :
    (resize nodes_ n).length = n := by
  unfold resize
  simp only [List.length_append, List.length_take, List.length_replicate]
  omega

theorem getElem?_zero_resize (nodes_ : List document_tree_node) (n : Nat) (hn : 0 < n)
    (h0 : 0 < nodes_.length) : (resize nodes_ n)[0]? = nodes_[0]? := by
  unfold resize
  rw [List.getElem?_append_left (by simp [List.length_take]; omega), List.getElem?_take]
  simp [hn]

/-- The whole materialization, described by `materialized` for the full order. -/
theorem materialized_loop_of_linked (ins : document_tree_batch_inserter) (hw : well_linked ins)
    (nodes_ : List document_tree_node) :
    materialized ins.nodes_ (resize nodes_ ins.size_) (materialize_order ins)
      (materialize_loop nodes_ ins) := by
  rw [materialize_loop_eq]
  have hn0 : (resize nodes_ ins.size_).length = ins.nodes_.length := by
    rw [length_resize]; exact hw.2.1
  have key : ∀ (rest taken : List Nat) (st : materialize_state),
      taken ++ rest = materialize_order ins →
      materialized ins.nodes_ (resize nodes_ ins.size_) taken st →
      materialized ins.nodes_ (resize nodes_ ins.size_) (materialize_order ins)
        (rest.foldl materialize_step st) := by
    intro rest
    induction rest with
    | nil =>
      intro taken st hO hst
      rw [List.append_nil] at hO
      rw [← hO]
      exact hst
    | cons k rest ih =>
      intro taken st hO hst
      rw [List.foldl_cons]
      exact ih (taken ++ [k]) _ (by rw [List.append_assoc]; exact hO)
        (materialized_step_of_linked ins hw _ hn0 taken rest k hO st hst)
  apply key _ [] _ rfl
  unfold materialized
  refine ⟨rfl, rfl, rfl, ?_, ?_, hw.2.2.2.2.2.2 0, ?_, rfl⟩
  · intro x e0 hx
    simp only
    rw [hx]
    unfold index_at
    rw [hx]
  · intro j k hj
    simp at hj
  · intro j k e0 hj
    simp at hj

theorem materialized_loop (ins : document_tree_batch_inserter) (hw : well_staged ins)
    (nodes_ : List document_tree_node) :
    materialized ins.nodes_ (resize nodes_ ins.size_) (materialize_order ins)
      (materialize_loop nodes_ ins) :=
  materialized_loop_of_linked ins (well_linked_of_well_staged ins hw) nodes_

/-- The position an entry gets is its place in the materialization order, plus one. -/
theorem index_at_materialize_order_of_linked (ins : document_tree_batch_inserter) (hw : well_linked ins)
    (nodes_ : List document_tree_node) (k : Nat) (hk0 : 0 < k) (hk : k < ins.nodes_.length) :
    ∃ j, (materialize_order ins)[j]? = some k ∧ j + 1 < ins.nodes_.length ∧
      index_at (materialize_loop nodes_ ins).pool k = j + 1 := by
  obtain ⟨_, _, _, _, hd, _, _, _⟩ := materialized_loop_of_linked ins hw nodes_
  have hmem := (mem_materialize_order_of_linked ins hw k).mpr ⟨hk0, hk⟩
  obtain ⟨j, hj, hget⟩ := List.getElem_of_mem hmem
  have hlen := length_materialize_order_of_linked ins hw
  have hj2 : (materialize_order ins)[j]? = some k := by
    rw [List.getElem?_eq_getElem hj, hget]
  exact ⟨j, hj2, by omega, hd j k hj2⟩

theorem index_at_materialize_order (ins : document_tree_batch_inserter) (hw : well_staged ins)
    (nodes_ : List document_tree_node) (k : Nat) (hk0 : 0 < k) (hk : k < ins.nodes_.length) :
    ∃ j, (materialize_order ins)[j]? = some k ∧ j + 1 < ins.nodes_.length ∧
      index_at (materialize_loop nodes_ ins).pool k = j + 1 :=
  index_at_materialize_order_of_linked ins (well_linked_of_well_staged ins hw) nodes_ k hk0 hk

/-- Positions follow the order by depth and, within a depth, by pool position. -/
theorem index_at_lt_of_key_lt_of_linked (ins : document_tree_batch_inserter) (hw : well_linked ins)
    (nodes_ : List document_tree_node) (u v : Nat) (hu0 : 0 < u) (hu : u < ins.nodes_.length)
    (hv : v < ins.nodes_.length)
    (hkey : depth_at ins.nodes_ u < depth_at ins.nodes_ v ∨
      (depth_at ins.nodes_ u = depth_at ins.nodes_ v ∧ u < v)) :
    index_at (materialize_loop nodes_ ins).pool u < index_at (materialize_loop nodes_ ins).pool v := by
  have hv0 : 0 < v := by
    rcases Nat.eq_zero_or_pos v with h | h
    · subst h
      have := hw.2.2.1
      omega
    · exact h
  obtain ⟨i, hi, _, hiu⟩ := index_at_materialize_order_of_linked ins hw nodes_ u hu0 hu
  obtain ⟨i1, hi1, _, hiv⟩ := index_at_materialize_order_of_linked ins hw nodes_ v hv0 hv
  rw [hiu, hiv]
  have hpw := pairwise_materialize_order ins
  rw [List.pairwise_iff_getElem] at hpw
  have hil := (List.getElem?_eq_some.mp hi)
  have hil1 := (List.getElem?_eq_some.mp hi1)
  obtain ⟨hl, hg⟩ := hil
  obtain ⟨hl1, hg1⟩ := hil1
  rcases Nat.lt_trichotomy i i1 with h | h | h
  · omega
  · subst h
    have huv : u = v := by rw [← hg, ← hg1]
    subst huv
    omega
  · have := hpw i1 i hl1 hl h
    rw [hg, hg1] at this
    omega

theorem index_at_lt_of_key_lt (ins : document_tree_batch_inserter) (hw : well_staged ins)
    (nodes_ : List document_tree_node) (u v : Nat) (hu0 : 0 < u) (hu : u < ins.nodes_.length)
    (hv : v < ins.nodes_.length)
    (hkey : depth_at ins.nodes_ u < depth_at ins.nodes_ v ∨
      (depth_at ins.nodes_ u = depth_at ins.nodes_ v ∧ u < v)) :
    index_at (materialize_loop nodes_ ins).pool u < index_at (materialize_loop nodes_ ins).pool v :=
  index_at_lt_of_key_lt_of_linked ins (well_linked_of_well_staged ins hw) nodes_ u v hu0 hu hv hkey

theorem index_at_le_of_key_le_of_linked (ins : document_tree_batch_inserter) (hw : well_linked ins)
    (nodes_ : List document_tree_node) (u v : Nat) (hu : u < ins.nodes_.length)
    (hv : v < ins.nodes_.length)
    (hkey : depth_at ins.nodes_ u < depth_at ins.nodes_ v ∨
      (depth_at ins.nodes_ u = depth_at ins.nodes_ v ∧ u ≤ v)) :
    index_at (materialize_loop nodes_ ins).pool u ≤ index_at (materialize_loop nodes_ ins).pool v := by
  rcases Nat.eq_zero_or_pos u with h | h
  · subst h
    rw [(materialized_loop_of_linked ins hw nodes_).2.2.2.2.2.1]
    exact Nat.zero_le _
  · rcases hkey with h1 | ⟨h1, h2⟩
    · exact Nat.le_of_lt (index_at_lt_of_key_lt_of_linked ins hw nodes_ u v h hu hv (Or.inl h1))
    · rcases Nat.eq_or_lt_of_le h2 with e | e
      · subst e; exact le_refl _
      · exact Nat.le_of_lt (index_at_lt_of_key_lt_of_linked ins hw nodes_ u v h hu hv (Or.inr ⟨h1, e⟩))

theorem index_at_le_of_key_le (ins : document_tree_batch_inserter) (hw : well_staged ins)
    (nodes_ : List document_tree_node) (u v : Nat) (hu : u < ins.nodes_.length)
    (hv : v < ins.nodes_.length)
    (hkey : depth_at ins.nodes_ u < depth_at ins.nodes_ v ∨
      (depth_at ins.nodes_ u = depth_at ins.nodes_ v ∧ u ≤ v)) :
    index_at (materialize_loop nodes_ ins).pool u ≤ index_at (materialize_loop nodes_ ins).pool v :=
  index_at_le_of_key_le_of_linked ins (well_linked_of_well_staged ins hw) nodes_ u v hu hv hkey

/-- Every position of the array but 0 holds the node of a staged entry, built from the
entry's name and value and from the position its parent got. -/
theorem materialize_node_at_of_linked (ins : document_tree_batch_inserter) (hw : well_linked ins)
    (nodes_ : List document_tree_node) (c : Nat) (hc0 : 0 < c) (hc : c < ins.nodes_.length) :
    ∃ k e p, 0 < k ∧ k < ins.nodes_.length ∧ ins.nodes_[k]? = some e ∧ e.parent = some p ∧
      p < k ∧ depth_at ins.nodes_ k = depth_at ins.nodes_ p + 1 ∧
      index_at (materialize_loop nodes_ ins).pool k = c ∧
      (materialize nodes_ ins)[c]? = some (document_tree_node.of_pid
        ((index_at (materialize_loop nodes_ ins).pool p : Nat) : Int) e.name e.value) := by
  obtain ⟨_, _, _, _, hd, _, hf, _⟩ := materialized_loop_of_linked ins hw nodes_
  have hlen := length_materialize_order_of_linked ins hw
  have hj : c - 1 < (materialize_order ins).length := by omega
  have hget : (materialize_order ins)[c - 1]? = some ((materialize_order ins)[c - 1]) :=
    List.getElem?_eq_getElem hj
  generalize (materialize_order ins)[c - 1] = k at hget
  have hk := (mem_materialize_order_of_linked ins hw k).mp (List.getElem?_mem hget)
  obtain ⟨p, hp1, hp2, hp3⟩ := hw.2.2.2.2.1 k hk.1 hk.2
  have he : ins.nodes_[k]? = some (ins.nodes_[k]) := List.getElem?_eq_getElem hk.2
  unfold parent_at at hp1
  rw [he] at hp1
  simp only at hp1
  refine ⟨k, _, p, hk.1, hk.2, he, hp1, hp2, hp3, ?_, ?_⟩
  · rw [hd (c - 1) k hget]; omega
  · have := hf (c - 1) k _ hget he
    rw [show c - 1 + 1 = c by omega, hp1] at this
    exact this

theorem materialize_node_at (ins : document_tree_batch_inserter) (hw : well_staged ins)
    (nodes_ : List document_tree_node) (c : Nat) (hc0 : 0 < c) (hc : c < ins.nodes_.length) :
    ∃ k e p, 0 < k ∧ k < ins.nodes_.length ∧ ins.nodes_[k]? = some e ∧ e.parent = some p ∧
      p < k ∧ depth_at ins.nodes_ k = depth_at ins.nodes_ p + 1 ∧
      index_at (materialize_loop nodes_ ins).pool k = c ∧
      (materialize nodes_ ins)[c]? = some (document_tree_node.of_pid
        ((index_at (materialize_loop nodes_ ins).pool p : Nat) : Int) e.name e.value) :=
  materialize_node_at_of_linked ins (well_linked_of_well_staged ins hw) nodes_ c hc0 hc

theorem index_at_materialize_root_of_linked (ins : document_tree_batch_inserter) (hw : well_linked ins)
    (nodes_ : List document_tree_node) : index_at (materialize_loop nodes_ ins).pool 0 = 0 :=
  (materialized_loop_of_linked ins hw nodes_).2.2.2.2.2.1

theorem index_at_materialize_root (ins : document_tree_batch_inserter) (hw : well_staged ins)
    (nodes_ : List document_tree_node) : index_at (materialize_loop nodes_ ins).pool 0 = 0 :=
  index_at_materialize_root_of_linked ins (well_linked_of_well_staged ins hw) nodes_

theorem length_materialize_of_linked (ins : document_tree_batch_inserter) (hw : well_linked ins)
    (nodes_ : List document_tree_node) : (materialize nodes_ ins).length = ins.nodes_.length := by
  unfold materialize
  rw [(materialized_loop_of_linked ins hw nodes_).2.2.1, length_resize]
  exact hw.2.1

theorem length_materialize (ins : document_tree_batch_inserter) (hw : well_staged ins)
    (nodes_ : List document_tree_node) : (materialize nodes_ ins).length = ins.nodes_.length :=
  length_materialize_of_linked ins (well_linked_of_well_staged ins hw) nodes_

/-- The materialized array of a well staged pool has a non-decreasing parent index. -/
theorem parent_index_sorted_materialize (ins : document_tree_batch_inserter) (hw : well_staged ins)
    (nodes_ : List document_tree_node) (hroot : document_tree.root_at_front nodes_) :
    document_tree.parent_index_sorted (materialize nodes_ ins) := by
  have hlen := length_materialize ins hw nodes_
  have h0 : document_tree.parent_index_at (materialize nodes_ ins) 0 = -1 := by
    unfold document_tree.parent_index_at materialize
    rw [(materialized_loop ins hw nodes_).2.2.2.2.2.2.2,
      getElem?_zero_resize _ _ (by rw [hw.2.1]; exact hw.1) hroot.1]
    exact hroot.2
  intro b hb a hab
  rw [hlen] at hb
  obtain ⟨y, ey, py, hy0, hy, hey, hpy, hpy2, hdy, hiy, hFy⟩ :=
    materialize_node_at ins hw nodes_ b (by omega) hb
  have hpb : document_tree.parent_index_at (materialize nodes_ ins) b
      = ((index_at (materialize_loop nodes_ ins).pool py : Nat) : Int) := by
    unfold document_tree.parent_index_at
    rw [hFy]
    rfl
  rcases Nat.eq_zero_or_pos a with ha | ha
  · subst ha
    rw [h0, hpb]
    omega
  · obtain ⟨x, ex, px, hx0, hx, hex, hpx, hpx2, hdx, hix, hFx⟩ :=
      materialize_node_at ins hw nodes_ a ha (by omega)
    have hpa : document_tree.parent_index_at (materialize nodes_ ins) a
        = ((index_at (materialize_loop nodes_ ins).pool px : Nat) : Int) := by
      unfold document_tree.parent_index_at
      rw [hFx]
      rfl
    rw [hpa, hpb]
    -- `x` comes before `y` in the order, so its key is smaller
    have hkey : depth_at ins.nodes_ x < depth_at ins.nodes_ y ∨
        (depth_at ins.nodes_ x = depth_at ins.nodes_ y ∧ x < y) := by
      by_contra hcon
      have hrev : depth_at ins.nodes_ y < depth_at ins.nodes_ x ∨
          (depth_at ins.nodes_ y = depth_at ins.nodes_ x ∧ y ≤ x) := by omega
      have := index_at_le_of_key_le ins hw nodes_ y x hy hx hrev
      omega
    have hpar : depth_at ins.nodes_ px < depth_at ins.nodes_ py ∨
        (depth_at ins.nodes_ px = depth_at ins.nodes_ py ∧ px ≤ py) := by
      rcases hkey with h1 | ⟨h1, h2⟩
      · left; omega
      · right
        refine ⟨by omega, ?_⟩
        have hpax : parent_at ins.nodes_ x = some px := by
          unfold parent_at; rw [hex]; exact hpx
        have hpay : parent_at ins.nodes_ y = some py := by
          unfold parent_at; rw [hey]; exact hpy
        exact hw.2.2.2.2.2.2.2 x y px py hx0 h2 hy h1 hpax hpay
    have := index_at_le_of_key_le ins hw nodes_ px py (by omega) (by omega) hpar
    omega

end document_tree_parser_t
end jxxson

namespace jxxson
namespace document_tree

/-- Erasing one node keeps the tombstone flags of the others. -/
theorem dying_at_erase_single (nodes_ : List document_tree_node) (which i : Nat) :
    dying_at (erase_single_node_and_rotate_ nodes_ which).1 i =
      if i < which then dying_at nodes_ i else dying_at nodes_ (i + 1) := by
  unfold erase_single_node_and_rotate_ dying_at
  simp only
  rw [List.getElem?_eraseIdx]
  by_cases h : i < which
  · simp only [h, if_true]
    rw [getElem?_for_each_from]
    split_ifs
    · rfl
    · rcases nodes_[i]? with _ | nd <;> rfl
  · simp only [h, if_false]
    rw [getElem?_for_each_from]
    split_ifs
    · rfl
    · rcases nodes_[i + 1]? with _ | nd <;> rfl

/-- The compaction loop leaves no tombstone behind when none lies before its start. -/
theorem erase_loop_no_tombstone : ∀ (fuel : Nat) (nodes_ : List document_tree_node) (from_ : Nat),
    nodes_.length - from_ ≤ fuel → (∀ i, i < from_ → dying_at nodes_ i = false) →
    ∀ i, dying_at (erase_all_unknows_loop fuel nodes_ from_).1 i = false := by
  intro fuel
  induction fuel with
  | zero =>
    intro nodes_ from_ hfuel hbefore i
    simp only [erase_all_unknows_loop]
    rcases Nat.lt_or_ge i from_ with h | h
    · exact hbefore i h
    · unfold dying_at
      rw [List.getElem?_eq_none (by omega)]
  | succ fuel ih =>
    intro nodes_ from_ hfuel hbefore i
    simp only [erase_all_unknows_loop]
    rcases hget : nodes_[from_]? with _ | nd
    · simp only
      rcases Nat.lt_or_ge i from_ with h | h
      · exact hbefore i h
      · have hlen : nodes_.length ≤ from_ := by
          by_contra hcon
          rw [List.getElem?_eq_getElem (by omega)] at hget
          cases hget
        unfold dying_at
        rw [List.getElem?_eq_none (by omega)]
    · simp only
      have hlt : from_ < nodes_.length := by
        by_contra hcon
        rw [List.getElem?_eq_none (by omega)] at hget
        cases hget
      by_cases ht : nd.tombed_ = true
      · simp only [ht, if_true]
        apply ih
        · rw [length_erase_single nodes_ from_ hlt]
          simp only [erase_single_node_and_rotate_]
          omega
        · intro j hj
          simp only [erase_single_node_and_rotate_] at hj
          rw [dying_at_erase_single, if_pos hj]
          exact hbefore j hj
      · simp only [ht]
        apply ih
        · omega
        · intro j hj
          rcases Nat.eq_or_lt_of_le (Nat.le_of_lt_succ hj) with e | e
          · subst e
            unfold dying_at
            rw [hget]
            simpa using ht
          · exact hbefore j e

/-- The compaction loop changes nothing in an array without tombstones. -/
theorem erase_loop_of_no_tombstone : ∀ (fuel : Nat) (nodes_ : List document_tree_node) (from_ : Nat),
    (∀ i, dying_at nodes_ i = false) →
    (erase_all_unknows_loop fuel nodes_ from_).1 = nodes_ := by
  intro fuel
  induction fuel with
  | zero => intro nodes_ from_ _; rfl
  | succ fuel ih =>
    intro nodes_ from_ hall
    simp only [erase_all_unknows_loop]
    rcases hget : nodes_[from_]? with _ | nd
    · rfl
    · simp only
      have ht : nd.tombed_ = false := by
        have := hall from_
        unfold dying_at at this
        rw [hget] at this
        exact this
      simp only [ht]
      exact ih nodes_ (from_ + 1) hall

end document_tree
end jxxson

namespace jxxson
namespace document_node_value

/-- A byte value survives the conversion to a character and back. -/
theorem toNat_ofNat_byte (n : Nat) (h : n < 256) : (Char.ofNat n).toNat = n := by
  have hv : n.isValidChar := Or.inl (by omega)
  unfold Char.ofNat
  rw [dif_pos hv]
  unfold Char.ofNatAux Char.toNat
  simp [UInt32.toNat]

/-- The numeral written for an integer is the usual decimal one. -/
theorem format_int_eq_toString (i : Int) : format_int i = (toString i).toList := by
  unfold format_int
  cases i with
  | ofNat m =>
    have h : ¬ ((Int.ofNat m) < 0) := by simp
    rw [if_neg h]
    rfl
  | negSucc m =>
    have h : Int.negSucc m < 0 := Int.negSucc_lt_zero m
    rw [if_pos h]
    rfl

/-- Reading back the object representation of an `int` gives the `int`. -/
theorem bytes_int_int_bytes (i : Int) (hlo : -(2 : Int) ^ (8 * SIZEOF_INT - 1) ≤ i)
    (hhi : i < (2 : Int) ^ (8 * SIZEOF_INT - 1)) : bytes_int (int_bytes i) = i := by
  have h4 : SIZEOF_INT = 4 := rfl
  rw [h4] at hlo hhi
  norm_num at hlo hhi
  unfold bytes_int int_bytes
  rw [h4]
  have hr : List.range 4 = [0, 1, 2, 3] := by decide
  rw [hr]
  have hu : (i % 2 ^ (8 * 4)).toNat < 4294967296 := by
    have := Int.emod_lt_of_pos i (show (0 : Int) < 2 ^ (8 * 4) by norm_num)
    have := Int.emod_nonneg i (show (2 : Int) ^ (8 * 4) ≠ 0 by norm_num)
    omega
  have hval : ((i % 2 ^ (8 * 4)).toNat : Int) = i % 4294967296 := by
    have := Int.emod_nonneg i (show (2 : Int) ^ (8 * 4) ≠ 0 by norm_num)
    rw [Int.toNat_of_nonneg this]
    norm_num
  generalize (i % 2 ^ (8 * 4)).toNat = u at hu hval
  simp only [List.map_cons, List.map_nil, List.getD_cons_zero, List.getD_cons_succ,
    List.sum_cons, List.sum_nil]
  rw [toNat_ofNat_byte _ (Nat.mod_lt _ (by norm_num)), toNat_ofNat_byte _ (Nat.mod_lt _ (by norm_num)),
    toNat_ofNat_byte _ (Nat.mod_lt _ (by norm_num)), toNat_ofNat_byte _ (Nat.mod_lt _ (by norm_num))]
  have hsum : u / 256 ^ 0 % 256 * 256 ^ 0 + (u / 256 ^ 1 % 256 * 256 ^ 1 +
      (u / 256 ^ 2 % 256 * 256 ^ 2 + (u / 256 ^ 3 % 256 * 256 ^ 3 + 0))) = u := by
    norm_num
    omega
  rw [hsum]
  norm_num
  split_ifs with h <;> omega

end document_node_value
end jxxson

namespace jxxson
namespace document_tree

/-- Once the bound is at least the position, the count of parent steps no longer depends
on it. -/
theorem depth_steps_fuel (nodes_ : List document_tree_node) (hp : parent_precedes nodes_) :
    ∀ (x : Nat), x < nodes_.length → ∀ fuel, x ≤ fuel →
      depth_steps nodes_ fuel x = depth_steps nodes_ x x := by
  intro x
  induction x using Nat.strong_induction_on with
  | _ x ih =>
    intro hx fuel hf
    rcases Nat.eq_zero_or_pos x with h0 | h0
    · subst h0
      cases fuel <;> simp [depth_steps]
    · obtain ⟨h1, h2⟩ := hp x hx h0
      obtain ⟨f, rfl⟩ : ∃ f, fuel = f + 1 := ⟨fuel - 1, by omega⟩
      obtain ⟨y, rfl⟩ : ∃ y, x = y + 1 := ⟨x - 1, by omega⟩
      simp only [depth_steps]
      rw [if_neg (by omega), if_neg (by omega)]
      have hq : (parent_index_at nodes_ (y + 1)).toNat < y + 1 := by omega
      rw [ih _ hq (by omega) f (by omega), ih _ hq (by omega) y (by omega)]

/-- The depth of a node other than the synthetic root is one more than its parent's. -/
theorem node_depth_succ (nodes_ : List document_tree_node) (hp : parent_precedes nodes_)
    (x : Nat) (hx : x < nodes_.length) (h0 : 0 < x) :
    node_depth nodes_ x = node_depth nodes_ (parent_index_at nodes_ x).toNat + 1 := by
  obtain ⟨h1, h2⟩ := hp x hx h0
  unfold node_depth
  obtain ⟨n, hn⟩ : ∃ n, nodes_.length = n + 1 := ⟨nodes_.length - 1, by omega⟩
  rw [hn]
  conv_lhs => simp only [depth_steps]
  rw [if_neg (by omega)]
  have hq : (parent_index_at nodes_ x).toNat < nodes_.length := by omega
  rw [depth_steps_fuel nodes_ hp _ hq n (by omega), depth_steps_fuel nodes_ hp _ hq (n + 1) (by omega)]

theorem node_depth_zero (nodes_ : List document_tree_node) : node_depth nodes_ 0 = 0 := by
  unfold node_depth
  cases nodes_.length <;> simp [depth_steps]

/-- A store whose parent index is non-decreasing and whose parents precede their children
is laid out breadth-first. -/
theorem depth_sorted_of_sorted (nodes_ : List document_tree_node)
    (hs : parent_index_sorted nodes_) (hp : parent_precedes nodes_) : depth_sorted nodes_ := by
  have key : ∀ j, j < nodes_.length → ∀ i, i ≤ j → node_depth nodes_ i ≤ node_depth nodes_ j := by
    intro j
    induction j using Nat.strong_induction_on with
    | _ j ih =>
      intro hj i hij
      rcases Nat.eq_zero_or_pos i with h0 | h0
      · subst h0
        rw [node_depth_zero]
        exact Nat.zero_le _
      · have hj0 : 0 < j := by omega
        obtain ⟨a1, a2⟩ := hp i (by omega) h0
        obtain ⟨b1, b2⟩ := hp j hj hj0
        have hle : parent_index_at nodes_ i ≤ parent_index_at nodes_ j := by
          rcases Nat.eq_or_lt_of_le hij with e | e
          · rw [e]
          · exact hs j hj i e
        rw [node_depth_succ nodes_ hp i (by omega) h0, node_depth_succ nodes_ hp j hj hj0]
        have := ih (parent_index_at nodes_ j).toNat (by omega) (by omega)
          (parent_index_at nodes_ i).toNat (by omega)
        omega
  intro j hj i hij
  exact key j hj i (by omega)

end document_tree

namespace document_tree_parser_t
open document_tree_batch_inserter

/-- The materialized array of a well staged pool satisfies the invariants of the store. -/
theorem invariants_materialize (ins : document_tree_batch_inserter) (hw : well_staged ins)
    (nodes_ : List document_tree_node) (hroot : document_tree.root_at_front nodes_) :
    document_tree.invariants (materialize nodes_ ins) := by
  have hlen := length_materialize ins hw nodes_
  refine ⟨parent_index_sorted_materialize ins hw nodes_ hroot, ⟨?_, ?_⟩, ?_⟩
  · rw [hlen]; exact hw.1
  · unfold document_tree.parent_index_at materialize
    rw [(materialized_loop ins hw nodes_).2.2.2.2.2.2.2,
      getElem?_zero_resize _ _ (by rw [hw.2.1]; exact hw.1) hroot.1]
    exact hroot.2
  · intro c hc hc0
    rw [hlen] at hc
    obtain ⟨k, e, p, hk0, hk, hek, hpe, hpk, hd, hidx, hF⟩ :=
      materialize_node_at ins hw nodes_ c hc0 hc
    have hpid : document_tree.parent_index_at (materialize nodes_ ins) c
        = ((index_at (materialize_loop nodes_ ins).pool p : Nat) : Int) := by
      unfold document_tree.parent_index_at
      rw [hF]
      rfl
    rw [hpid]
    refine ⟨by omega, ?_⟩
    rcases Nat.eq_zero_or_pos p with h0 | h0
    · subst h0
      rw [index_at_materialize_root ins hw nodes_]
      omega
    · have := index_at_lt_of_key_lt ins hw nodes_ p k h0 (by omega) hk (Or.inl (by omega))
      omega

end document_tree_parser_t
end jxxson

namespace jxxson
namespace document_tree

theorem reachable_sample_tree : reachable sample_tree := by
  unfold sample_tree
  repeat (first | exact reachable.ctor _ | refine reachable.emplace ?_ _ (by decide) _ _)

end document_tree
end jxxson

namespace jxxson
namespace document_tree_parser_t

theorem isDigit_iff (c : Char) : c.isDigit = true ↔
    (c = '0' ∨ c = '1' ∨ c = '2' ∨ c = '3' ∨ c = '4' ∨ c = '5' ∨ c = '6' ∨ c = '7' ∨ c = '8' ∨
      c = '9') := by
  constructor
  · intro h
    have h1 : 48 ≤ c.toNat ∧ c.toNat ≤ 57 := by
      simp only [Char.isDigit, Bool.and_eq_true, decide_eq_true_eq, UInt32.le_def, ge_iff_le] at h
      exact h
    obtain ⟨n, hn⟩ : ∃ n, c.toNat = n := ⟨_, rfl⟩
    have hc : c = Char.ofNat n := by rw [← hn, Char.ofNat_toNat]
    rw [hn] at h1
    obtain ⟨ha, hb⟩ := h1
    subst hc
    interval_cases n <;> decide
  · intro h
    rcases h with h | h | h | h | h | h | h | h | h | h <;> subst h <;> decide

/-- Skipping spaces never moves backwards nor past the end. -/
theorem parse_spaces_loop_bounds (input : List Char) : ∀ (fuel beg : Nat),
    beg ≤ parse_spaces_loop input fuel beg ∧
    (beg ≤ input.length → parse_spaces_loop input fuel beg ≤ input.length) := by
  intro fuel
  induction fuel with
  | zero => intro beg; exact ⟨le_refl _, fun h => h⟩
  | succ fuel ih =>
    intro beg
    simp only [parse_spaces_loop]
    rcases hget : input[beg]? with _ | c
    · exact ⟨le_refl _, fun h => h⟩
    · simp only
      have hlt : beg < input.length := by
        by_contra hcon
        rw [List.getElem?_eq_none (by omega)] at hget
        cases hget
      split_ifs
      · obtain ⟨h1, h2⟩ := ih (beg + 1)
        exact ⟨by omega, fun _ => h2 (by omega)⟩
      · exact ⟨le_refl _, fun h => h⟩

theorem parse_spaces_bounds (input : List Char) (beg : Nat) :
    beg ≤ parse_spaces input beg ∧ (beg ≤ input.length → parse_spaces input beg ≤ input.length) :=
  parse_spaces_loop_bounds input _ beg

/-- Skipping spaces from a space moves forward. -/
theorem parse_spaces_progress (input : List Char) (beg : Nat) (c : Char)
    (hget : input[beg]? = some c) (hc : c_isspace c = true) : beg < parse_spaces input beg := by
  have hlt : beg < input.length := by
    by_contra hcon
    rw [List.getElem?_eq_none (by omega)] at hget
    cases hget
  unfold parse_spaces
  obtain ⟨n, hn⟩ : ∃ n, input.length - beg = n + 1 := ⟨input.length - beg - 1, by omega⟩
  rw [hn]
  simp only [parse_spaces_loop, hget, hc, if_true]
  have := (parse_spaces_loop_bounds input n (beg + 1)).1
  omega

theorem copy_to_quote_bounds (input : List Char) : ∀ (fuel beg : Nat) (str : List Char),
    beg ≤ (copy_to_quote input fuel beg str).1 := by
  intro fuel
  induction fuel with
  | zero => intro beg str; exact le_refl _
  | succ fuel ih =>
    intro beg str
    simp only [copy_to_quote]
    rcases input[beg]? with _ | c
    · exact le_refl _
    · simp only
      split_ifs
      · have := ih (beg + 1) (str ++ [c])
        omega
      · exact le_refl _

theorem parse_name_or_string_bounds (input : List Char) (str : List Char) (beg : Nat)
    (is_name : Bool) (buffer : List Char) (beg1 : Nat)
    (h : parse_name_or_string input str beg = some (is_name, buffer, beg1)) :
    beg < beg1 ∧ beg1 ≤ input.length := by
  unfold parse_name_or_string at h
  simp only at h
  have h1 := copy_to_quote_bounds input (input.length - beg) beg str
  generalize (copy_to_quote input (input.length - beg) beg str) = r at h h1
  split_ifs at h with hr
  have h2 := parse_spaces_bounds input (r.1 + 1)
  generalize parse_spaces input (r.1 + 1) = b at h h2
  rcases hget : input[b]? with _ | c
  · rw [hget] at h; cases h
  · rw [hget] at h
    have hlt : b < input.length := by
      by_contra hcon
      rw [List.getElem?_eq_none (by omega)] at hget
      cases hget
    simp only at h
    split_ifs at h
    · cases h; omega
    · cases h; omega

theorem parse_number_loop_bounds (input : List Char) : ∀ (fuel : Nat) (is_float : Bool)
    (buffer : List Char) (beg : Nat),
    beg ≤ (parse_number_loop input fuel is_float buffer beg).2.2 ∧
    (beg ≤ input.length → (parse_number_loop input fuel is_float buffer beg).2.2 ≤ input.length) := by
  intro fuel
  induction fuel with
  | zero => intro is_float buffer beg; exact ⟨le_refl _, fun h => h⟩
  | succ fuel ih =>
    intro is_float buffer beg
    simp only [parse_number_loop]
    rcases hget : input[beg]? with _ | c
    · exact ⟨le_refl _, fun h => h⟩
    · simp only
      have hlt : beg < input.length := by
        by_contra hcon
        rw [List.getElem?_eq_none (by omega)] at hget
        cases hget
      split_ifs
      · obtain ⟨h1, h2⟩ := ih (is_float || c == '.' || c == 'e' || c == 'E') (buffer ++ [c]) (beg + 1)
        exact ⟨by omega, fun _ => h2 (by omega)⟩
      · exact ⟨le_refl _, fun h => h⟩

theorem parse_number_progress (input : List Char) (beg : Nat) (c : Char)
    (hget : input[beg]? = some c) (hc : c.isDigit = true ∨ c = '-') :
    beg < (parse_number input false [] beg).2.2 ∧
    (parse_number input false [] beg).2.2 ≤ input.length := by
  have hlt : beg < input.length := by
    by_contra hcon
    rw [List.getElem?_eq_none (by omega)] at hget
    cases hget
  have hcc : (c_isalnum c || c == '.' || c == '+' || c == '-') = true := by
    rcases hc with hd | hm
    · rw [isDigit_iff] at hd
      rcases hd with h | h | h | h | h | h | h | h | h | h <;> subst h <;> decide
    · subst hm; decide
  unfold parse_number
  obtain ⟨n, hn⟩ : ∃ n, input.length - beg = n + 1 := ⟨input.length - beg - 1, by omega⟩
  rw [hn]
  simp only [parse_number_loop, hget, hcc, if_true]
  obtain ⟨h1, h2⟩ := parse_number_loop_bounds input n (false || c == '.' || c == 'e' || c == 'E')
    ([] ++ [c]) (beg + 1)
  exact ⟨by omega, h2 (by omega)⟩

theorem match_keyword_bounds (input : List Char) : ∀ (letters : List Char) (beg : Nat)
    (beg1 : Nat) (matched : Bool), beg < input.length →
    match_keyword input letters beg = some (beg1, matched) → beg < beg1 ∧ beg1 ≤ input.length := by
  intro letters
  induction letters with
  | nil =>
    intro beg beg1 matched hlt h
    simp only [match_keyword] at h
    cases h
    omega
  | cons letter rest ih =>
    intro beg beg1 matched hlt h
    simp only [match_keyword] at h
    rcases hget : input[beg + 1]? with _ | c
    · rw [hget] at h; cases h
    · rw [hget] at h
      have hlt1 : beg + 1 < input.length := by
        by_contra hcon
        rw [List.getElem?_eq_none (by omega)] at hget
        cases hget
      simp only at h
      split_ifs at h
      · cases h; omega
      · have := ih (beg + 1) beg1 matched hlt1 h
        omega

theorem emplace_scalar_beg (st : parser_state) (beg : Nat) (value : document_node_value)
    (st1 : parser_state) (h : emplace_scalar st beg value = some (switch_result.break_ st1)) :
    st1.beg = beg := by
  unfold emplace_scalar at h
  split at h
  · cases h
  · cases h; rfl

theorem emplace_scalar_ne_return (st : parser_state) (beg : Nat) (value : document_node_value)
    (b : Nat) : emplace_scalar st beg value ≠ some (switch_result.return_ b) := by
  unfold emplace_scalar
  split
  · exact fun h => by cases h
  · exact fun h => by cases h

theorem open_container_beg (st : parser_state) (tag : document_node_value)
    (st1 : parser_state) (h : open_container st tag = some (switch_result.break_ st1)) :
    st1.beg = st.beg + 1 := by
  unfold open_container at h
  split at h
  · cases h
  · split_ifs at h
    · split at h
      · cases h
      · cases h; rfl
    · split at h
      · cases h
      · cases h; rfl

theorem open_container_ne_return (st : parser_state) (tag : document_node_value) (b : Nat) :
    open_container st tag ≠ some (switch_result.return_ b) := by
  unfold open_container
  intro h
  split at h
  · cases h
  · split_ifs at h
    · split at h
      · cases h
      · cases h
    · split at h
      · cases h
      · cases h

/-- A pass through the switch that ends with `break` has moved the position forward, and
not past the end. -/
theorem switch_case_progress (fm : float_model) (input : List Char) (st : parser_state) (c : Char)
    (hget : input[st.beg]? = some c) (st1 : parser_state)
    (h : switch_case fm input st c = some (switch_result.break_ st1)) :
    st.beg < st1.beg ∧ st1.beg ≤ input.length := by
  have hlt : st.beg < input.length := by
    by_contra hcon
    rw [List.getElem?_eq_none (by omega)] at hget
    cases hget
  unfold switch_case at h
  by_cases c1 : c = ' ' ∨ c = '\n' ∨ c = '\t' ∨ c = '\r'
  · rw [if_pos c1] at h
    cases h
    have hsp : c_isspace c = true := by
      rcases c1 with e | e | e | e <;> subst e <;> decide
    exact ⟨parse_spaces_progress input st.beg c hget hsp, (parse_spaces_bounds input st.beg).2 (by omega)⟩
  rw [if_neg c1] at h
  by_cases c2 : c = '"'
  · rw [if_pos c2] at h
    split at h
    · cases h
    · rename_i is_name buffer beg hp
      have hb := parse_name_or_string_bounds input [] (st.beg + 1) is_name buffer beg hp
      split_ifs at h
      · split at h
        · cases h
        · cases h; exact ⟨by show st.beg < beg; omega, hb.2⟩
      · split at h
        · cases h
        · cases h; exact ⟨by show st.beg < beg; omega, hb.2⟩
  rw [if_neg c2] at h
  by_cases c3 : c = '\x7b'
  · rw [if_pos c3] at h
    rw [open_container_beg st _ st1 h]; omega
  rw [if_neg c3] at h
  by_cases c4 : c = '['
  · rw [if_pos c4] at h
    rw [open_container_beg st _ st1 h]; omega
  rw [if_neg c4] at h
  by_cases c5 : c = '\x7d' ∨ c = ']'
  · rw [if_pos c5] at h
    split at h
    · cases h
    · split at h
      · cases h
      · cases h; exact ⟨by show st.beg < st.beg + 1; omega, by show st.beg + 1 ≤ _; omega⟩
  rw [if_neg c5] at h
  by_cases c6 : c.isDigit = true ∨ c = '-'
  · rw [if_pos c6] at h
    have hb := parse_number_progress input st.beg c hget c6
    split at h
    rename_i is_float buffer beg hp
    have hbeg : beg = (parse_number input false [] st.beg).2.2 := by rw [hp]
    split_ifs at h
    · split at h
      · cases h
      · rw [emplace_scalar_beg st _ _ st1 h, hbeg]; exact hb
    · split at h
      · cases h
      · rw [emplace_scalar_beg st _ _ st1 h, hbeg]; exact hb
  rw [if_neg c6] at h
  by_cases c7 : c = 't'
  · rw [if_pos c7] at h
    split at h
    · cases h
    · rename_i beg matched hm
      have hb := match_keyword_bounds input _ st.beg beg matched hlt hm
      split_ifs at h
      · rw [emplace_scalar_beg st _ _ st1 h]; exact hb
      · cases h; exact hb
  rw [if_neg c7] at h
  by_cases c8 : c = 'f'
  · rw [if_pos c8] at h
    split at h
    · cases h
    · rename_i beg matched hm
      have hb := match_keyword_bounds input _ st.beg beg matched hlt hm
      split_ifs at h
      · rw [emplace_scalar_beg st _ _ st1 h]; exact hb
      · cases h; exact hb
  rw [if_neg c8] at h
  by_cases c9 : c = 'n'
  · rw [if_pos c9] at h
    split at h
    · cases h
    · rename_i beg matched hm
      have hb := match_keyword_bounds input _ st.beg beg matched hlt hm
      split_ifs at h with m1 m2
      · rw [emplace_scalar_beg st _ _ st1 h]; omega
      · cases h; exact hb
  rw [if_neg c9] at h
  by_cases c10 : c = ','
  · rw [if_pos c10] at h
    cases h; exact ⟨by show st.beg < st.beg + 1; omega, by show st.beg + 1 ≤ _; omega⟩
  rw [if_neg c10] at h
  cases h

/-- The switch takes its `default` branch exactly for the characters that no `case` label
names, and returns the current position there. -/
theorem switch_case_return (fm : float_model) (input : List Char) (st : parser_state) (c : Char) :
    (case_label c = false → switch_case fm input st c = some (switch_result.return_ st.beg)) ∧
    (∀ b, switch_case fm input st c = some (switch_result.return_ b) →
      case_label c = false ∧ b = st.beg) := by
  constructor
  · intro hno
    unfold case_label at hno
    simp only [Bool.or_eq_false_iff, beq_eq_false_iff_ne, ne_eq] at hno
    obtain ⟨⟨⟨⟨⟨⟨⟨⟨⟨⟨⟨⟨⟨⟨⟨⟨⟨⟨⟨⟨⟨⟨⟨n1, n2⟩, n3⟩, n4⟩, n5⟩, n6⟩, n7⟩, n8⟩, n9⟩, d0⟩, d1⟩, d2⟩, d3⟩, d4⟩,
      d5⟩, d6⟩, d7⟩, d8⟩, d9⟩, n10⟩, n11⟩, n12⟩, n13⟩, n14⟩ := hno
    have hd : ¬ (c.isDigit = true) := by
      rw [isDigit_iff]
      rintro (h | h | h | h | h | h | h | h | h | h) <;> contradiction
    unfold switch_case
    rw [if_neg (by rintro (h | h | h | h) <;> contradiction), if_neg n5, if_neg n6, if_neg n7,
      if_neg (by rintro (h | h) <;> contradiction),
      if_neg (by rintro (h | h) <;> contradiction), if_neg n11, if_neg n12, if_neg n13, if_neg n14]
  · intro b h
    unfold switch_case at h
    by_cases c1 : c = ' ' ∨ c = '\n' ∨ c = '\t' ∨ c = '\r'
    · rw [if_pos c1] at h; cases h
    rw [if_neg c1] at h
    by_cases c2 : c = '"'
    · rw [if_pos c2] at h
      split at h
      · cases h
      · split_ifs at h
        · split at h <;> cases h
        · split at h <;> cases h
    rw [if_neg c2] at h
    by_cases c3 : c = '\x7b'
    · rw [if_pos c3] at h
      exact absurd h (open_container_ne_return st _ b)
    rw [if_neg c3] at h
    by_cases c4 : c = '['
    · rw [if_pos c4] at h
      exact absurd h (open_container_ne_return st _ b)
    rw [if_neg c4] at h
    by_cases c5 : c = '\x7d' ∨ c = ']'
    · rw [if_pos c5] at h
      split at h
      · cases h
      · split at h <;> cases h
    rw [if_neg c5] at h
    by_cases c6 : c.isDigit = true ∨ c = '-'
    · rw [if_pos c6] at h
      split at h
      split_ifs at h
      · split at h
        · cases h
        · exact absurd h (emplace_scalar_ne_return st _ _ b)
      · split at h
        · cases h
        · exact absurd h (emplace_scalar_ne_return st _ _ b)
    rw [if_neg c6] at h
    by_cases c7 : c = 't'
    · rw [if_pos c7] at h
      split at h
      · cases h
      · split_ifs at h
        · exact absurd h (emplace_scalar_ne_return st _ _ b)
        · cases h
    rw [if_neg c7] at h
    by_cases c8 : c = 'f'
    · rw [if_pos c8] at h
      split at h
      · cases h
      · split_ifs at h
        · exact absurd h (emplace_scalar_ne_return st _ _ b)
        · cases h
    rw [if_neg c8] at h
    by_cases c9 : c = 'n'
    · rw [if_pos c9] at h
      split at h
      · cases h
      · split_ifs at h
        · exact absurd h (emplace_scalar_ne_return st _ _ b)
        · cases h
    rw [if_neg c9] at h
    by_cases c10 : c = ','
    · rw [if_pos c10] at h; cases h
    rw [if_neg c10] at h
    cases h
    refine ⟨?_, rfl⟩
    unfold case_label
    simp only [Bool.or_eq_false_iff, beq_eq_false_iff_ne, ne_eq]
    have hd : ∀ x : Char, x.isDigit = true → c ≠ x := by
      intro x hx e
      subst e
      exact c6 (Or.inl hx)
    push_neg at c1 c5 c6
    refine ⟨⟨⟨⟨⟨⟨⟨⟨⟨⟨⟨⟨⟨⟨⟨⟨⟨⟨⟨⟨⟨⟨⟨c1.1, c1.2.1⟩, c1.2.2.1⟩, c1.2.2.2⟩, c2⟩, c3⟩, c4⟩, c5.1⟩, c5.2⟩,
      hd _ (by decide)⟩, hd _ (by decide)⟩, hd _ (by decide)⟩, hd _ (by decide)⟩,
      hd _ (by decide)⟩, hd _ (by decide)⟩, hd _ (by decide)⟩, hd _ (by decide)⟩,
      hd _ (by decide)⟩, hd _ (by decide)⟩, c6.2⟩, c7⟩, c8⟩, c9⟩, c10⟩

/-- At a character that no `case` label names the parser returns at once, with the
position of that character and the node array untouched. -/
theorem parse_loop_default (fm : float_model) (input : List Char)
    (nodes_ : List document_tree_node) (fuel : Nat) (st : parser_state) (c : Char)
    (hget : input[st.beg]? = some c) (hno : case_label c = false) :
    parse_loop fm input nodes_ (fuel + 1) st = some (st.beg, nodes_) := by
  simp only [parse_loop, hget, (switch_case_return fm input st c).1 hno]

/-- Whatever the parser returns is the end of the input, or the position of a character
that no `case` label names, and then the node array is untouched. -/
theorem parse_loop_result (fm : float_model) (input : List Char)
    (nodes_ : List document_tree_node) : ∀ (fuel : Nat) (st : parser_state) (p : Nat)
    (t : List document_tree_node), st.beg ≤ input.length →
    parse_loop fm input nodes_ fuel st = some (p, t) →
    st.beg ≤ p ∧
    (p = input.length ∨ ∃ c, input[p]? = some c ∧ case_label c = false ∧ t = nodes_) := by
  intro fuel
  induction fuel with
  | zero => intro st p t _ h; simp only [parse_loop] at h; cases h
  | succ fuel ih =>
    intro st p t hle h
    simp only [parse_loop] at h
    rcases hget : input[st.beg]? with _ | c
    · rw [hget] at h
      simp only at h
      cases h
      have hlen : input.length ≤ st.beg := by
        by_contra hcon
        rw [List.getElem?_eq_getElem (by omega)] at hget
        cases hget
      exact ⟨le_refl _, Or.inl (by omega)⟩
    · rw [hget] at h
      simp only at h
      rcases hsw : switch_case fm input st c with _ | r
      · rw [hsw] at h; cases h
      · rw [hsw] at h
        cases r with
        | return_ b =>
          simp only at h
          cases h
          obtain ⟨h1, h2⟩ := (switch_case_return fm input st c).2 _ hsw
          subst h2
          exact ⟨le_refl _, Or.inr ⟨c, hget, h1, rfl⟩⟩
        | break_ st1 =>
          simp only at h
          obtain ⟨h1, h2⟩ := switch_case_progress fm input st c hget st1 hsw
          obtain ⟨h3, h4⟩ := ih st1 p t h2 h
          exact ⟨by omega, h4⟩

/-- The bound on the rounds of the parser's loop is never what stops it: any bound above
the distance to the end of the input gives the same result. -/
theorem parse_loop_fuel (fm : float_model) (input : List Char)
    (nodes_ : List document_tree_node) : ∀ (n : Nat) (st : parser_state) (f1 f2 : Nat),
    input.length - st.beg = n → st.beg ≤ input.length → n < f1 → n < f2 →
    parse_loop fm input nodes_ f1 st = parse_loop fm input nodes_ f2 st := by
  intro n
  induction n using Nat.strong_induction_on with
  | _ n ih =>
    intro st f1 f2 hn hle h1 h2
    obtain ⟨g1, rfl⟩ : ∃ g, f1 = g + 1 := ⟨f1 - 1, by omega⟩
    obtain ⟨g2, rfl⟩ : ∃ g, f2 = g + 1 := ⟨f2 - 1, by omega⟩
    simp only [parse_loop]
    rcases hget : input[st.beg]? with _ | c
    · rfl
    · simp only
      rcases hsw : switch_case fm input st c with _ | r
      · rfl
      · cases r with
        | return_ b => rfl
        | break_ st1 =>
          simp only
          obtain ⟨a1, a2⟩ := switch_case_progress fm input st c hget st1 hsw
          exact ih (input.length - st1.beg) (by omega) st1 g1 g2 rfl a2 (by omega) (by omega)

/-- Running `operator()` with a larger bound on the rounds of its loop changes nothing. -/
theorem parse_fuel (fm : float_model) (input : List Char) (nodes_ : List document_tree_node)
    (extra : Nat) :
    parse_loop fm input nodes_ (input.length + 1 + extra)
      { beg := 0, inserter := document_tree_batch_inserter.ctor, current := some 0,
        current_parent := some 0 } = parse fm input nodes_ := by
  unfold parse
  exact parse_loop_fuel fm input nodes_ input.length _ _ _ rfl (Nat.zero_le _) (by omega) (by omega)

end document_tree_parser_t
end jxxson

namespace jxxson
namespace document_tree

/-- The children of a node lie after it and inside the array. -/
theorem child_range_bounds (nodes_ : List document_tree_node) (hinv : invariants nodes_)
    (it : Nat) (hit : it < nodes_.length) (c : Nat) (h1 : search_child_begin nodes_ it ≤ c)
    (h2 : c < search_child_end nodes_ it) : it < c ∧ c < nodes_.length := by
  have hpp := parent_index_lt_self nodes_ hinv it hit
  obtain ⟨a1, a2, a3, _, _, _⟩ := child_search nodes_ hinv.1 it hit hpp
  unfold search_child_begin at h1
  unfold search_child_end at h2
  simp only at h1 h2
  generalize upper_bound nodes_ it nodes_.length ((it : Int) - 1) = b at *
  generalize upper_bound nodes_ it nodes_.length (it : Int) = e at *
  split_ifs at h1 h2 <;> omega

/-- The test `it == std::prev(it.parent().end())` holds exactly for the last child of a
parent. -/
theorem is_last_sibling_iff (nodes_ : List document_tree_node) (hinv : invariants nodes_)
    (it : Nat) (h0 : 0 < it) (hit : it < nodes_.length) (nd : document_tree_node)
    (hnd : nodes_[it]? = some nd) :
    (it == search_child_end nodes_ (iterator_parent nd it) - 1) = decide (last_of_parent nodes_ it) := by
  obtain ⟨hp0, hp1⟩ := hinv.2.2 it hit h0
  have hpid : parent_index_at nodes_ it = nd.pid_ := by
    unfold parent_index_at; rw [hnd]
  have hpar : iterator_parent nd it = (parent_index_at nodes_ it).toNat := by
    unfold iterator_parent
    rw [if_pos (by omega), hpid]
  rw [hpar]
  obtain ⟨p, hp⟩ : ∃ p : Nat, parent_index_at nodes_ it = (p : Int) :=
    ⟨(parent_index_at nodes_ it).toNat, by omega⟩
  have hpn : (parent_index_at nodes_ it).toNat = p := by omega
  rw [hpn]
  have hplt : p < nodes_.length := by omega
  have hpp := parent_index_lt_self nodes_ hinv p hplt
  obtain ⟨_, he⟩ := search_child_of_child nodes_ hinv.1 p hplt hpp it hit hp
  obtain ⟨a1, a2, a3, a4, _, _⟩ := child_search nodes_ hinv.1 p hplt hpp
  rw [he]
  have hr := (a4 it hit).mp hp
  generalize upper_bound nodes_ p nodes_.length ((p : Int) - 1) = b at *
  generalize upper_bound nodes_ p nodes_.length (p : Int) = e at *
  rw [Bool.eq_iff_iff, beq_iff_eq, decide_eq_true_iff]
  unfold last_of_parent
  constructor
  · intro heq j hj hij hcon
    rw [hp] at hcon
    have := (a4 j hj).mp hcon
    omega
  · intro hlast
    by_contra hne
    have hlt : it < e - 1 := by omega
    exact hlast (e - 1) (by omega) hlt (by rw [hp]; exact (a4 (e - 1) (by omega)).mpr ⟨by omega, by omega⟩)

/-- The fold that appends the renderings of the children, when each child has one. -/
theorem foldlM_append_renderings (f : Nat → Option (List Char)) : ∀ (l : List Nat) (init : List Char),
    (∀ c, c ∈ l → ∃ s, f c = some s) →
    l.foldlM (fun out c => (f c).map (fun s => out ++ s)) init
      = some (init ++ (l.map (fun c => (f c).getD [])).flatten) := by
  intro l
  induction l with
  | nil => intro init _; simp
  | cons x xs ih =>
    intro init h
    obtain ⟨s, hs⟩ := h x (List.mem_cons_self _ _)
    rw [List.foldlM_cons, hs]
    simp only [Option.map_some', Option.bind_eq_bind, Option.some_bind, List.map_cons,
      Option.getD_some, List.flatten_cons]
    rw [ih (init ++ s) (fun c hc => h c (List.mem_cons_of_mem _ hc)), List.append_assoc, hs]
    rfl

/-- In a store that satisfies the invariants the rendering of a node always ends: a bound
above the distance of the node to the end of the array is never reached. -/
theorem format_to_impl_total (fm : float_model) (nodes_ : List document_tree_node)
    (hinv : invariants nodes_) : ∀ (fuel depth it : Nat), it ≤ nodes_.length →
    nodes_.length < fuel + it → ∃ out, format_to_impl fm nodes_ fuel depth it = some out := by
  intro fuel
  induction fuel with
  | zero => intro depth it h1 h2; omega
  | succ fuel ih =>
    intro depth it h1 h2
    simp only [format_to_impl]
    rcases hget : nodes_[it]? with _ | nd
    · exact ⟨[], rfl⟩
    · simp only
      have hit : it < nodes_.length := by
        by_contra hcon
        rw [List.getElem?_eq_none (by omega)] at hget
        cases hget
      rw [foldlM_append_renderings (fun c => format_to_impl fm nodes_ fuel (depth + 1) c)]
      · exact ⟨_, rfl⟩
      · intro c hc
        rw [List.mem_range'_1] at hc
        obtain ⟨b1, b2⟩ := child_range_bounds nodes_ hinv it hit c hc.1 (by omega)
        exact ih (depth + 1) c (by omega) (by omega)

/-- A value that is no container writes nothing as its closing token. -/
theorem format_to_close_of_leaf (fm : float_model) (v : document_node_value)
    (h : v.parent_type = false) : v.format_to fm false = [] := by
  unfold document_node_value.parent_type at h
  unfold document_node_value.format_to
  rcases v with ⟨ty, buffer⟩
  cases ty <;> first | rfl | (exfalso; simp at h)

/-- The rendering of a node of a store that satisfies the invariants, with the comma
placed by whether the node is the last child of its parent. -/
theorem format_to_impl_eq (fm : float_model) (nodes_ : List document_tree_node)
    (hinv : invariants nodes_) (it : Nat) (h0 : 0 < it) (hit : it < nodes_.length)
    (nd : document_tree_node) (hnd : nodes_[it]? = some nd)
    (fuel depth : Nat) (hfuel : nodes_.length ≤ fuel + it) :
    format_to_impl fm nodes_ (fuel + 1) depth it = some (
      if nd.value_.parent_type = true then
        List.replicate (depth * 2) ' ' ++ rendered_name nd ++ nd.value_.format_to fm true ++ ['\n']
          ++ rendered_children fm nodes_ fuel (depth + 1) it
          ++ List.replicate (depth * 2) ' ' ++ nd.value_.format_to fm false
          ++ (if last_of_parent nodes_ it then [] else [',']) ++ ['\n']
      else
        List.replicate (depth * 2) ' ' ++ rendered_name nd ++ nd.value_.format_to fm true
          ++ (if last_of_parent nodes_ it then [] else [',']) ++ ['\n']
          ++ rendered_children fm nodes_ fuel (depth + 1) it) := by
  simp only [format_to_impl, hnd]
  rw [foldlM_append_renderings (fun c => format_to_impl fm nodes_ fuel (depth + 1) c)]
  · rw [is_last_sibling_iff nodes_ hinv it h0 hit nd hnd]
    simp only [List.nil_append]
    unfold rendered_children rendered_name
    by_cases hpt : nd.value_.parent_type = true
    · simp only [hpt, if_true]
      by_cases hl : last_of_parent nodes_ it
      · simp [hl]
      · simp [hl]
    · have hpf : nd.value_.parent_type = false := by simpa using hpt
      simp only [hpf, format_to_close_of_leaf fm nd.value_ hpf]
      by_cases hl : last_of_parent nodes_ it
      · simp [hl]
      · simp [hl]
  · intro c hc
    rw [List.mem_range'_1] at hc
    obtain ⟨b1, b2⟩ := child_range_bounds nodes_ hinv it hit c hc.1 (by omega)
    exact format_to_impl_total fm nodes_ hinv fuel (depth + 1) c (by omega) (by omega)

end document_tree
end jxxson

namespace jxxson
namespace document_tree_batch_inserter

/-- A pool built by the constructor and `emplace` under entries of the pool is well
linked; in particular the depth loop of `emplace` always ends there. -/
theorem staged_well_linked (ins : document_tree_batch_inserter) (h : staged ins) :
    well_linked ins := by
  induction h with
  | ctor =>
    refine ⟨by decide, rfl, rfl, rfl, ?_, ?_, ?_⟩
    · intro k hk0 hk
      simp [ctor] at hk
      omega
    · intro k hk
      simp [ctor] at hk
      subst hk
      decide
    · intro k
      unfold index_at
      rcases k with _ | k
      · rfl
      · simp [ctor]
  | @emplace ins ins1 it hst parent hplt name value hemplace ih =>
    obtain ⟨w1, w2, w3, w4, w5, w6, w7⟩ := ih
    have hdl := depth_loop_eq ins.nodes_ w5 w3 parent (ins.nodes_.length + 1) 1 hplt (by omega)
    unfold document_tree_batch_inserter.emplace at hemplace
    rw [hdl] at hemplace
    simp only [Option.some.injEq, Prod.mk.injEq] at hemplace
    obtain ⟨hins1, _⟩ := hemplace
    subst hins1
    generalize hnew :
      inserter_node.mk (1 + depth_at ins.nodes_ parent) (some parent) name value 0 = enew
    have hlen : (ins.nodes_ ++ [enew]).length = ins.nodes_.length + 1 := by simp
    have hd_old : ∀ k, k < ins.nodes_.length → depth_at (ins.nodes_ ++ [enew]) k = depth_at ins.nodes_ k :=
      fun k hk => depth_at_append_left _ _ k hk
    have hp_old : ∀ k, k < ins.nodes_.length →
        parent_at (ins.nodes_ ++ [enew]) k = parent_at ins.nodes_ k :=
      fun k hk => parent_at_append_left _ _ k hk
    have hd_new : depth_at (ins.nodes_ ++ [enew]) ins.nodes_.length = depth_at ins.nodes_ parent + 1 := by
      conv_lhs => unfold depth_at
      rw [getElem?_append_last, ← hnew]
      simp only
      omega
    have hp_new : parent_at (ins.nodes_ ++ [enew]) ins.nodes_.length = some parent := by
      unfold parent_at
      rw [getElem?_append_last, ← hnew]
    unfold well_linked
    dsimp only
    refine ⟨by omega, by omega, by rw [hd_old 0 w1]; exact w3, by rw [hp_old 0 w1]; exact w4,
      ?_, ?_, ?_⟩
    · intro k hk0 hk
      rw [hlen] at hk
      rcases Nat.eq_or_lt_of_le (Nat.le_of_lt_succ hk) with e | e
      · subst e
        exact ⟨parent, hp_new, hplt, by rw [hd_new, hd_old parent hplt]⟩
      · obtain ⟨p, hp1, hp2, hp3⟩ := w5 k hk0 e
        exact ⟨p, by rw [hp_old k e]; exact hp1, hp2,
          by rw [hd_old k e, hd_old p (by omega)]; exact hp3⟩
    · intro k hk
      rw [hlen] at hk
      rcases Nat.eq_or_lt_of_le (Nat.le_of_lt_succ hk) with e | e
      · subst e
        rw [hd_new]
        have : 1 + depth_at ins.nodes_ parent ≤ max ins.max_depth_ (1 + depth_at ins.nodes_ parent) :=
          le_max_right _ _
        omega
      · rw [hd_old k e]
        have := w6 k e
        have : ins.max_depth_ ≤ max ins.max_depth_ (1 + depth_at ins.nodes_ parent) :=
          le_max_left _ _
        omega
    · intro k
      rcases Nat.lt_trichotomy k ins.nodes_.length with e | e | e
      · rw [index_at_append_left _ _ k e]; exact w7 k
      · subst e
        unfold index_at
        rw [getElem?_append_last, ← hnew]
      · unfold index_at
        rw [List.getElem?_eq_none (by omega)]

/-- In a pool built by the constructor and `emplace` under entries of the pool, `emplace`
under an entry appends the new entry with the depth of its parent plus one. -/
theorem staged_emplace_eq (ins : document_tree_batch_inserter) (h : staged ins)
    (parent : Nat) (hparent : parent < ins.nodes_.length) (name : List Char)
    (value : document_node_value) :
    ins.emplace (some parent) name value =
      some ({ nodes_ := ins.nodes_ ++ [{ depth := 1 + depth_at ins.nodes_ parent,
                                          parent := some parent, name := name, value := value }],
              max_depth_ := max ins.max_depth_ (1 + depth_at ins.nodes_ parent),
              size_ := ins.size_ + 1 }, ins.nodes_.length) := by
  obtain ⟨w1, w2, w3, w4, w5, w6, w7⟩ := staged_well_linked ins h
  have hdl := depth_loop_eq ins.nodes_ w5 w3 parent (ins.nodes_.length + 1) 1 hparent (by omega)
  unfold document_tree_batch_inserter.emplace
  rw [hdl]

end document_tree_batch_inserter
end jxxson

namespace jxxson
namespace document_tree

/-- In a store that satisfies the invariants the rendering of a node does not depend on
the bound of the recursion, once the bound is above the distance to the end of the array. -/
theorem format_to_impl_fuel (fm : float_model) (nodes_ : List document_tree_node)
    (hinv : invariants nodes_) : ∀ (f1 f2 depth it : Nat), it ≤ nodes_.length →
    nodes_.length < f1 + it → nodes_.length < f2 + it →
    format_to_impl fm nodes_ f1 depth it = format_to_impl fm nodes_ f2 depth it := by
  intro f1
  induction f1 with
  | zero => intro f2 depth it h1 h2 _; omega
  | succ f1 ih =>
    intro f2 depth it h1 h2 h3
    obtain ⟨g2, rfl⟩ : ∃ g, f2 = g + 1 := ⟨f2 - 1, by omega⟩
    simp only [format_to_impl]
    rcases hget : nodes_[it]? with _ | nd
    · rfl
    · simp only
      have hit : it < nodes_.length := by
        by_contra hcon
        rw [List.getElem?_eq_none (by omega)] at hget
        cases hget
      have hch : ∀ c, c ∈ List.range' (search_child_begin nodes_ it)
          (search_child_end nodes_ it - search_child_begin nodes_ it) → it < c ∧ c < nodes_.length := by
        intro c hc
        rw [List.mem_range'_1] at hc
        exact child_range_bounds nodes_ hinv it hit c hc.1 (by omega)
      rw [foldlM_append_renderings (fun c => format_to_impl fm nodes_ f1 (depth + 1) c) _ _
          (fun c hc => format_to_impl_total fm nodes_ hinv f1 (depth + 1) c
            (by have := hch c hc; omega) (by have := hch c hc; omega)),
        foldlM_append_renderings (fun c => format_to_impl fm nodes_ g2 (depth + 1) c) _ _
          (fun c hc => format_to_impl_total fm nodes_ hinv g2 (depth + 1) c
            (by have := hch c hc; omega) (by have := hch c hc; omega))]
      have hmap : List.map (fun c => (format_to_impl fm nodes_ f1 (depth + 1) c).getD [])
            (List.range' (search_child_begin nodes_ it)
              (search_child_end nodes_ it - search_child_begin nodes_ it))
          = List.map (fun c => (format_to_impl fm nodes_ g2 (depth + 1) c).getD [])
            (List.range' (search_child_begin nodes_ it)
              (search_child_end nodes_ it - search_child_begin nodes_ it)) := by
        apply List.map_congr_left
        intro c hc
        have := hch c hc
        rw [ih g2 (depth + 1) c (by omega) (by omega) (by omega)]
      rw [hmap]

/-- The node at position 1 has nesting depth 0, and a child one more than its parent. -/
theorem nesting_depth_child (nodes_ : List document_tree_node) (hinv : invariants nodes_)
    (it : Nat) (h0 : 0 < it) (hit : it < nodes_.length) (c : Nat) (hc : c < nodes_.length)
    (hcp : parent_index_at nodes_ c = (it : Int)) :
    nesting_depth nodes_ c = nesting_depth nodes_ it + 1 := by
  unfold nesting_depth
  have hc0 : 0 < c := by
    rcases Nat.eq_zero_or_pos c with h | h
    · subst h
      rw [hinv.2.1.2] at hcp
      omega
    · exact h
  rw [node_depth_succ nodes_ hinv.2.2 c hc hc0, hcp, Int.toNat_ofNat,
    node_depth_succ nodes_ hinv.2.2 it hit h0]
  omega

theorem nesting_depth_one (nodes_ : List document_tree_node) (hinv : invariants nodes_)
    (h1 : 1 < nodes_.length) : nesting_depth nodes_ 1 = 0 := by
  unfold nesting_depth
  rw [node_depth_succ nodes_ hinv.2.2 1 h1 (by omega)]
  have := hinv.2.2 1 h1 (by omega)
  have h0 : parent_index_at nodes_ 1 = 0 := by omega
  rw [h0]
  simp [node_depth_zero]

/-- No digit is a space. -/
theorem toDigitsCore_ne_space : ∀ (fuel n : Nat) (ds : List Char),
    (∀ c, c ∈ ds → c ≠ ' ') → ∀ c, c ∈ Nat.toDigitsCore 10 fuel n ds → c ≠ ' ' := by
  intro fuel
  induction fuel with
  | zero => intro n ds h c hc; exact h c hc
  | succ fuel ih =>
    intro n ds h c hc
    have hd : Nat.digitChar (n % 10) ≠ ' ' := by
      have hlt : n % 10 < 10 := Nat.mod_lt _ (by omega)
      generalize n % 10 = m at hlt
      interval_cases m <;> decide
    simp only [Nat.toDigitsCore] at hc
    split_ifs at hc
    · rcases List.mem_cons.mp hc with e | e
      · rw [e]; exact hd
      · exact h c e
    · apply ih _ _ _ c hc
      intro x hx
      rcases List.mem_cons.mp hx with e | e
      · rw [e]; exact hd
      · exact h x e

theorem format_int_head_ne_space (i : Int) :
    (document_node_value.format_int i).head? ≠ some ' ' := by
  intro h
  have hmem : ' ' ∈ document_node_value.format_int i := List.mem_of_mem_head? h
  unfold document_node_value.format_int at hmem
  split_ifs at hmem
  · rcases List.mem_cons.mp hmem with e | e
    · revert e; decide
    · exact toDigitsCore_ne_space _ _ [] (fun _ hc => by cases hc) ' ' e rfl
  · exact toDigitsCore_ne_space _ _ [] (fun _ hc => by cases hc) ' ' hmem rfl

/-- The opening token of a value does not start with a space, given that the text written
for a floating-point value does not. -/
theorem format_to_open_head_ne_space (fm : float_model)
    (hfm : ∀ bytes, (fm.format bytes).head? ≠ some ' ') (v : document_node_value) :
    (v.format_to fm true).head? ≠ some ' ' := by
  unfold document_node_value.format_to
  rcases v with ⟨ty, buffer⟩
  cases ty
  · simp
  · simp only [if_true]
    split_ifs <;> simp
  · exact format_int_head_ne_space _
  · exact hfm _
  · simp
  · simp
  · simp
  · simp

/-- The positions of the child range of a node hold its children. -/
theorem child_positions_spec (nodes_ : List document_tree_node) (hinv : invariants nodes_)
    (it : Nat) (hit : it < nodes_.length) (c : Nat) (hc : c ∈ child_positions nodes_ it) :
    it < c ∧ c < nodes_.length ∧ parent_index_at nodes_ c = (it : Int) := by
  unfold child_positions at hc
  rw [List.mem_range'_1] at hc
  obtain ⟨b1, b2⟩ := child_range_bounds nodes_ hinv it hit c hc.1 (by omega)
  refine ⟨b1, b2, ?_⟩
  have hpp := parent_index_lt_self nodes_ hinv it hit
  by_cases hch : ∃ x, x < nodes_.length ∧ parent_index_at nodes_ x = (it : Int)
  · obtain ⟨x, hx, hxp⟩ := hch
    obtain ⟨hb, he⟩ := search_child_of_child nodes_ hinv.1 it hit hpp x hx hxp
    obtain ⟨_, _, _, h4, _, _⟩ := child_search nodes_ hinv.1 it hit hpp
    rw [hb, he] at hc
    exact (h4 c b2).mpr ⟨hc.1, by omega⟩
  · have hno : ∀ x, x < nodes_.length → parent_index_at nodes_ x ≠ (it : Int) :=
      fun x hx hxp => hch ⟨x, hx, hxp⟩
    obtain ⟨hb, he⟩ := search_child_of_no_child nodes_ hinv.1 it hit hpp hno
    rw [hb, he] at hc
    omega

/-- The renderings of the children as `format_to_impl` calls for them are the renderings
of the children at their nesting depths. -/
theorem rendered_children_eq (fm : float_model) (nodes_ : List document_tree_node)
    (hinv : invariants nodes_) (it : Nat) (h0 : 0 < it) (hit : it < nodes_.length) :
    rendered_children fm nodes_ nodes_.length (nesting_depth nodes_ it + 1) it
      = ((child_positions nodes_ it).map (rendering fm nodes_)).flatten := by
  unfold rendered_children
  congr 1
  apply List.map_congr_left
  intro c hc
  obtain ⟨c1, c2, c3⟩ := child_positions_spec nodes_ hinv it hit c hc
  unfold rendering
  rw [nesting_depth_child nodes_ hinv it h0 hit c c2 c3,
    format_to_impl_fuel fm nodes_ hinv nodes_.length (nodes_.length + 1) _ c (by omega) (by omega)
      (by omega)]

theorem head?_append_ne (a b : List Char) (x : Char) (ha : a.head? ≠ some x)
    (hb : b.head? ≠ some x) : (a ++ b).head? ≠ some x := by
  cases a with
  | nil => simpa using hb
  | cons y ys => simpa using ha

end document_tree
end jxxson

namespace jxxson
namespace document_tree

/-- The positions on which the recursion of `remove` calls itself lie after the current
position and inside the array. -/
theorem tagged_children_bounds (nodes_ : List document_tree_node) (hs : parent_index_sorted nodes_)
    (hb : parent_before nodes_) (root : Nat) (hr : root < nodes_.length) (c : Nat)
    (hc : c ∈ tagged_children nodes_ root) : root < c ∧ c < nodes_.length := by
  obtain ⟨c1, c2, c3, _, _, _⟩ := child_search nodes_ hs root hr (hb root hr)
  unfold tagged_children at hc
  simp only at hc
  rw [upper_bound_congr nodes_ _ (length_set_dying nodes_ root) (parent_index_at_set_dying nodes_ root),
    upper_bound_congr nodes_ _ (length_set_dying nodes_ root) (parent_index_at_set_dying nodes_ root),
    List.mem_range'_1] at hc
  omega

/-- One round of the recursion of `remove`: the node is marked, and the method is called
on each position of `tagged_children` in turn. -/
theorem tag_unfold (fuel : Nat) (nodes_ : List document_tree_node) (root : Nat)
    (hr : root ≠ nodes_.length) :
    tag_current_and_all_children_to_unknow_ (fuel + 1) nodes_ root
      = (tagged_children nodes_ root).foldlM
          (fun acc c => tag_current_and_all_children_to_unknow_ fuel acc c)
          (set_dying nodes_ root) := by
  simp only [tag_current_and_all_children_to_unknow_, if_neg hr]
  rfl

/-- The positions on which the recursion of `format_to` calls itself lie after the current
position and inside the array. -/
theorem child_positions_bounds (nodes_ : List document_tree_node) (hs : parent_index_sorted nodes_)
    (hb : parent_before nodes_) (it : Nat) (hit : it < nodes_.length) (c : Nat)
    (hc : c ∈ child_positions nodes_ it) : it < c ∧ c < nodes_.length := by
  obtain ⟨a1, a2, a3, _, _, _⟩ := child_search nodes_ hs it hit (hb it hit)
  unfold child_positions at hc
  rw [List.mem_range'_1] at hc
  obtain ⟨h1, h2⟩ := hc
  unfold search_child_begin at h1 h2
  unfold search_child_end at h2
  simp only at h1 h2
  generalize upper_bound nodes_ it nodes_.length ((it : Int) - 1) = b at *
  generalize upper_bound nodes_ it nodes_.length (it : Int) = e at *
  split_ifs at h1 h2 <;> omega

/-- The recursion of `remove` ends: a bound above the distance to the end of the array is
not reached, and the array keeps its length and its parent indices. -/
theorem tag_terminates : ∀ (fuel : Nat) (nodes_ : List document_tree_node) (root : Nat),
    parent_index_sorted nodes_ → parent_before nodes_ → root ≤ nodes_.length →
    nodes_.length - root < fuel →
    ∃ nodes1, tag_current_and_all_children_to_unknow_ fuel nodes_ root = some nodes1 := by
  intro fuel
  induction fuel with
  | zero => intro nodes_ root _ _ _ h; omega
  | succ fuel ih =>
    intro nodes_ root hs hb hr hfuel
    simp only [tag_current_and_all_children_to_unknow_]
    by_cases hend : root = nodes_.length
    · rw [if_pos hend]
      exact ⟨nodes_, rfl⟩
    · rw [if_neg hend]
      have hr1 : root < nodes_.length := by omega
      have hlen1 := length_set_dying nodes_ root
      have hpid1 := parent_index_at_set_dying nodes_ root
      rw [upper_bound_congr nodes_ _ hlen1 hpid1, upper_bound_congr nodes_ _ hlen1 hpid1]
      obtain ⟨c1, c2, c3, _, _, _⟩ := child_search nodes_ hs root hr1 (hb root hr1)
      generalize upper_bound nodes_ root nodes_.length ((root : Int) - 1) = beg at *
      generalize upper_bound nodes_ root nodes_.length (root : Int) = last at *
      have inner : ∀ (cnt s : Nat) (acc : List document_tree_node), s + cnt = last → beg ≤ s →
          acc.length = nodes_.length →
          (∀ i, parent_index_at acc i = parent_index_at nodes_ i) →
          ∃ nodes1, (List.range' s cnt).foldlM
              (fun acc c => tag_current_and_all_children_to_unknow_ fuel acc c) acc = some nodes1 := by
        intro cnt
        induction cnt with
        | zero => intro s acc _ _ _ _; exact ⟨acc, rfl⟩
        | succ cnt ihc =>
          intro s acc hsl hbs hlena hpida
          rw [List.range'_succ, List.foldlM_cons]
          have hsa : parent_index_sorted acc := by
            intro j hj i hij
            rw [hpida i, hpida j]
            exact hs j (by omega) i hij
          have hba : parent_before acc := by
            intro i hi
            rw [hpida i]
            exact hb i (by omega)
          obtain ⟨acc1, htag⟩ := ih acc s hsa hba (by omega) (by omega)
          rw [htag]
          simp only [bind, Option.bind]
          have hlen2 := tag_length _ _ _ _ htag
          have hpid2 := tag_parent_index_at _ _ _ _ htag
          exact ihc (s + 1) acc1 (by omega) (by omega) (by omega)
            (fun i => by rw [hpid2 i, hpida i])
      exact inner (last - beg) beg (set_dying nodes_ root) (by omega) (le_refl _) hlen1 hpid1

/-- The result of the recursion of `remove` does not depend on the bound, once the bound
is above the distance to the end of the array. -/
theorem tag_fuel : ∀ (f1 f2 : Nat) (nodes_ : List document_tree_node) (root : Nat),
    parent_index_sorted nodes_ → parent_before nodes_ → root ≤ nodes_.length →
    nodes_.length - root < f1 → nodes_.length - root < f2 →
    tag_current_and_all_children_to_unknow_ f1 nodes_ root
      = tag_current_and_all_children_to_unknow_ f2 nodes_ root := by
  intro f1
  induction f1 with
  | zero => intro f2 nodes_ root _ _ _ h _; omega
  | succ f1 ih =>
    intro f2 nodes_ root hs hb hr h1 h2
    obtain ⟨g2, rfl⟩ : ∃ g, f2 = g + 1 := ⟨f2 - 1, by omega⟩
    simp only [tag_current_and_all_children_to_unknow_]
    by_cases hend : root = nodes_.length
    · rw [if_pos hend, if_pos hend]
    · rw [if_neg hend, if_neg hend]
      have hr1 : root < nodes_.length := by omega
      have hlen1 := length_set_dying nodes_ root
      have hpid1 := parent_index_at_set_dying nodes_ root
      rw [upper_bound_congr nodes_ _ hlen1 hpid1, upper_bound_congr nodes_ _ hlen1 hpid1]
      obtain ⟨c1, c2, c3, _, _, _⟩ := child_search nodes_ hs root hr1 (hb root hr1)
      generalize upper_bound nodes_ root nodes_.length ((root : Int) - 1) = beg at *
      generalize upper_bound nodes_ root nodes_.length (root : Int) = last at *
      have inner : ∀ (cnt s : Nat) (acc : List document_tree_node), s + cnt = last → beg ≤ s →
          acc.length = nodes_.length →
          (∀ i, parent_index_at acc i = parent_index_at nodes_ i) →
          (List.range' s cnt).foldlM
              (fun acc c => tag_current_and_all_children_to_unknow_ f1 acc c) acc
            = (List.range' s cnt).foldlM
              (fun acc c => tag_current_and_all_children_to_unknow_ g2 acc c) acc := by
        intro cnt
        induction cnt with
        | zero => intro s acc _ _ _ _; rfl
        | succ cnt ihc =>
          intro s acc hsl hbs hlena hpida
          rw [List.range'_succ, List.foldlM_cons, List.foldlM_cons]
          have hsa : parent_index_sorted acc := by
            intro j hj i hij
            rw [hpida i, hpida j]
            exact hs j (by omega) i hij
          have hba : parent_before acc := by
            intro i hi
            rw [hpida i]
            exact hb i (by omega)
          rw [ih g2 acc s hsa hba (by omega) (by omega) (by omega)]
          rcases htag : tag_current_and_all_children_to_unknow_ g2 acc s with _ | acc1
          · rfl
          · simp only [bind, Option.bind]
            have hlen2 := tag_length _ _ _ _ htag
            have hpid2 := tag_parent_index_at _ _ _ _ htag
            exact ihc (s + 1) acc1 (by omega) (by omega) (by omega)
              (fun i => by rw [hpid2 i, hpida i])
      exact inner (last - beg) beg (set_dying nodes_ root) (by omega) (le_refl _) hlen1 hpid1

/-- The rendering of a node ends: a bound above the distance of the node to the end of
the array is never reached. -/
theorem format_to_impl_terminates (fm : float_model) (nodes_ : List document_tree_node)
    (hs : parent_index_sorted nodes_) (hb : parent_before nodes_) :
    ∀ (fuel depth it : Nat), it ≤ nodes_.length → nodes_.length - it < fuel →
    ∃ out, format_to_impl fm nodes_ fuel depth it = some out := by
  intro fuel
  induction fuel with
  | zero => intro depth it h1 h2; omega
  | succ fuel ih =>
    intro depth it h1 h2
    simp only [format_to_impl]
    rcases hget : nodes_[it]? with _ | nd
    · exact ⟨[], rfl⟩
    · simp only
      have hit : it < nodes_.length := by
        by_contra hcon
        rw [List.getElem?_eq_none (by omega)] at hget
        cases hget
      rw [foldlM_append_renderings (fun c => format_to_impl fm nodes_ fuel (depth + 1) c)]
      · exact ⟨_, rfl⟩
      · intro c hc
        obtain ⟨b1, b2⟩ := child_positions_bounds nodes_ hs hb it hit c hc
        exact ih (depth + 1) c (by omega) (by omega)

/-- The rendering of a node does not depend on the bound of the recursion, once the bound
is above the distance to the end of the array. -/
theorem format_to_impl_bound (fm : float_model) (nodes_ : List document_tree_node)
    (hs : parent_index_sorted nodes_) (hb : parent_before nodes_) :
    ∀ (f1 f2 depth it : Nat), it ≤ nodes_.length →
    nodes_.length - it < f1 → nodes_.length - it < f2 →
    format_to_impl fm nodes_ f1 depth it = format_to_impl fm nodes_ f2 depth it := by
  intro f1
  induction f1 with
  | zero => intro f2 depth it h1 h2 _; omega
  | succ f1 ih =>
    intro f2 depth it h1 h2 h3
    obtain ⟨g2, rfl⟩ : ∃ g, f2 = g + 1 := ⟨f2 - 1, by omega⟩
    simp only [format_to_impl]
    rcases hget : nodes_[it]? with _ | nd
    · rfl
    · simp only
      have hit : it < nodes_.length := by
        by_contra hcon
        rw [List.getElem?_eq_none (by omega)] at hget
        cases hget
      have hch : ∀ c, c ∈ List.range' (search_child_begin nodes_ it)
          (search_child_end nodes_ it - search_child_begin nodes_ it) → it < c ∧ c < nodes_.length :=
        fun c hc => child_positions_bounds nodes_ hs hb it hit c hc
      rw [foldlM_append_renderings (fun c => format_to_impl fm nodes_ f1 (depth + 1) c) _ _
          (fun c hc => format_to_impl_terminates fm nodes_ hs hb f1 (depth + 1) c
            (by have := hch c hc; omega) (by have := hch c hc; omega)),
        foldlM_append_renderings (fun c => format_to_impl fm nodes_ g2 (depth + 1) c) _ _
          (fun c hc => format_to_impl_terminates fm nodes_ hs hb g2 (depth + 1) c
            (by have := hch c hc; omega) (by have := hch c hc; omega))]
      have hmap : List.map (fun c => (format_to_impl fm nodes_ f1 (depth + 1) c).getD [])
            (List.range' (search_child_begin nodes_ it)
              (search_child_end nodes_ it - search_child_begin nodes_ it))
          = List.map (fun c => (format_to_impl fm nodes_ g2 (depth + 1) c).getD [])
            (List.range' (search_child_begin nodes_ it)
              (search_child_end nodes_ it - search_child_begin nodes_ it)) := by
        apply List.map_congr_left
        intro c hc
        have := hch c hc
        rw [ih g2 (depth + 1) c (by omega) (by omega) (by omega)]
      rw [hmap]

/-- The child range of a node depends on the length of the array and on the parent
indices only. -/
theorem search_child_congr (nodes_ nodes2 : List document_tree_node)
    (hlen : nodes2.length = nodes_.length)
    (hpid : ∀ i, parent_index_at nodes2 i = parent_index_at nodes_ i) (p : Nat) :
    search_child_begin nodes2 p = search_child_begin nodes_ p ∧
    search_child_end nodes2 p = search_child_end nodes_ p := by
  unfold search_child_begin search_child_end
  simp only
  rw [upper_bound_congr nodes_ nodes2 hlen hpid, upper_bound_congr nodes_ nodes2 hlen hpid,
    hpid, hpid, hlen]
  exact ⟨rfl, rfl⟩

/-- The fold that appends the renderings of the children depends on the renderings of the
children only. -/
theorem foldlM_append_congr (f g : Nat → Option (List Char)) : ∀ (l : List Nat) (init : List Char),
    (∀ c, c ∈ l → f c = g c) →
    l.foldlM (fun out c => (f c).map (fun s => out ++ s)) init
      = l.foldlM (fun out c => (g c).map (fun s => out ++ s)) init := by
  intro l
  induction l with
  | nil => intro init _; rfl
  | cons x xs ih =>
    intro init h
    rw [List.foldlM_cons, List.foldlM_cons, h x (List.mem_cons_self _ _)]
    rcases g x with _ | s
    · rfl
    · simp only [Option.map_some', Option.bind_eq_bind, Option.some_bind]
      exact ih (init ++ s) (fun c hc => h c (List.mem_cons_of_mem _ hc))

/-- The rendering of a node reads the names and values of the node and its descendants
only: a store of the same length with the same parent indices, and the same nodes at
these positions, gives the same rendering. -/
theorem format_to_impl_congr (fm : float_model) (nodes_ nodes2 : List document_tree_node)
    (hinv : invariants nodes_) (hlen : nodes2.length = nodes_.length)
    (hpid : ∀ i, parent_index_at nodes2 i = parent_index_at nodes_ i) (r : Nat)
    (hsame : ∀ i, i < nodes_.length → in_subtree nodes_ r i = true → nodes2[i]? = nodes_[i]?) :
    ∀ (fuel depth it : Nat), it < nodes_.length → in_subtree nodes_ r it = true →
    format_to_impl fm nodes2 fuel depth it = format_to_impl fm nodes_ fuel depth it := by
  intro fuel
  induction fuel with
  | zero => intro depth it _ _; rfl
  | succ fuel ih =>
    intro depth it hit hin
    simp only [format_to_impl]
    rw [hsame it hit hin]
    rcases hget : nodes_[it]? with _ | nd
    · rfl
    · simp only
      rw [(search_child_congr nodes_ nodes2 hlen hpid it).1,
        (search_child_congr nodes_ nodes2 hlen hpid it).2,
        (search_child_congr nodes_ nodes2 hlen hpid (iterator_parent nd it)).2,
        foldlM_append_congr (fun c => format_to_impl fm nodes2 fuel (depth + 1) c)
          (fun c => format_to_impl fm nodes_ fuel (depth + 1) c)]
      intro c hc
      obtain ⟨c1, c2, c3⟩ := child_positions_spec nodes_ hinv it hit c hc
      exact ih (depth + 1) c c2 (in_subtree_of_parent nodes_ hinv r c it c2 c3 hin)

/-- The subtrees of two different children of one parent share no position. -/
theorem in_subtree_sibling_disjoint (nodes_ : List document_tree_node) (hinv : invariants nodes_)
    (a b : Nat) (ha : a < nodes_.length) (hb : b < nodes_.length) (hab : a ≠ b)
    (hp : parent_index_at nodes_ a = parent_index_at nodes_ b) :
    ∀ (i : Nat), i < nodes_.length → in_subtree nodes_ a i = true →
      in_subtree nodes_ b i = false := by
  intro i
  induction i using Nat.strong_induction_on with
  | _ i ih =>
    intro hi hia
    by_contra hcon
    have hib : in_subtree nodes_ b i = true := by simpa using hcon
    have hpa := parent_index_lt_self nodes_ hinv a ha
    have hpb := parent_index_lt_self nodes_ hinv b hb
    have hpi := parent_index_lt_self nodes_ hinv i hi
    rw [in_subtree_step nodes_ hinv a i hi] at hia
    rw [in_subtree_step nodes_ hinv b i hi] at hib
    simp only [Bool.or_eq_true, beq_iff_eq, Bool.and_eq_true, decide_eq_true_eq] at hia hib
    rcases hia with hia | ⟨h0, hia⟩
    · subst hia
      rcases hib with hib | ⟨h0, hib⟩
      · exact hab hib
      · have := le_of_in_subtree nodes_ hinv b _ (by omega) hib
        omega
    · rcases hib with hib | ⟨_, hib⟩
      · subst hib
        have := le_of_in_subtree nodes_ hinv a _ (by omega) hia
        omega
      · have := ih (parent_index_at nodes_ i).toNat (by omega) (by omega) hia
        rw [this] at hib
        cases hib

/-- A child lies in the child range of its parent. -/
theorem mem_child_positions (nodes_ : List document_tree_node) (hinv : invariants nodes_)
    (p : Nat) (hp : p < nodes_.length) (c : Nat) (hc : c < nodes_.length)
    (hcp : parent_index_at nodes_ c = (p : Int)) : c ∈ child_positions nodes_ p := by
  have hpp := parent_index_lt_self nodes_ hinv p hp
  obtain ⟨hb, he⟩ := search_child_of_child nodes_ hinv.1 p hp hpp c hc hcp
  obtain ⟨_, _, _, h4, _, _⟩ := child_search nodes_ hinv.1 p hp hpp
  have := (h4 c hc).mp hcp
  unfold child_positions
  rw [hb, he, List.mem_range'_1]
  omega

/-- The rendering of a node in terms of the renderings of its children. -/
theorem rendering_eq (fm : float_model) (nodes_ : List document_tree_node)
    (hinv : invariants nodes_) (it : Nat) (h0 : 0 < it) (hit : it < nodes_.length)
    (nd : document_tree_node) (hnd : nodes_[it]? = some nd) :
    rendering fm nodes_ it =
      (if nd.value_.parent_type = true then
        List.replicate (nesting_depth nodes_ it * 2) ' ' ++ rendered_name nd
          ++ nd.value_.format_to fm true ++ ['\n']
          ++ ((child_positions nodes_ it).map (rendering fm nodes_)).flatten
          ++ List.replicate (nesting_depth nodes_ it * 2) ' ' ++ nd.value_.format_to fm false
          ++ (if last_of_parent nodes_ it then [] else [',']) ++ ['\n']
      else
        List.replicate (nesting_depth nodes_ it * 2) ' ' ++ rendered_name nd
          ++ nd.value_.format_to fm true
          ++ (if last_of_parent nodes_ it then [] else [',']) ++ ['\n']
          ++ ((child_positions nodes_ it).map (rendering fm nodes_)).flatten) := by
  unfold rendering
  rw [format_to_impl_eq fm nodes_ hinv it h0 hit nd hnd nodes_.length _ (by omega),
    rendered_children_eq fm nodes_ hinv it h0 hit, Option.getD_some]
  rfl

/-- The rendering of a node holds the rendering of each of its children. -/
theorem rendering_child (fm : float_model) (nodes_ : List document_tree_node)
    (hinv : invariants nodes_) (p : Nat) (h0 : 0 < p) (hp : p < nodes_.length)
    (c : Nat) (hc : c < nodes_.length) (hcp : parent_index_at nodes_ c = (p : Int)) :
    ∃ pre post, rendering fm nodes_ p = pre ++ rendering fm nodes_ c ++ post := by
  obtain ⟨nd, hnd⟩ : ∃ nd, nodes_[p]? = some nd := ⟨nodes_[p], List.getElem?_eq_getElem hp⟩
  have hmem := mem_child_positions nodes_ hinv p hp c hc hcp
  obtain ⟨s, t, hst⟩ := List.mem_iff_append.mp hmem
  rw [rendering_eq fm nodes_ hinv p h0 hp nd hnd, hst]
  simp only [List.map_append, List.map_cons, List.flatten_append, List.flatten_cons]
  by_cases hpt : nd.value_.parent_type = true
  · rw [if_pos hpt]
    exact ⟨List.replicate (nesting_depth nodes_ p * 2) ' ' ++ rendered_name nd
        ++ nd.value_.format_to fm true ++ ['\n'] ++ (s.map (rendering fm nodes_)).flatten,
      (t.map (rendering fm nodes_)).flatten
        ++ List.replicate (nesting_depth nodes_ p * 2) ' ' ++ nd.value_.format_to fm false
        ++ (if last_of_parent nodes_ p then [] else [',']) ++ ['\n'], by
      simp only [List.append_assoc]⟩
  · rw [if_neg hpt]
    exact ⟨List.replicate (nesting_depth nodes_ p * 2) ' ' ++ rendered_name nd
        ++ nd.value_.format_to fm true
        ++ (if last_of_parent nodes_ p then [] else [',']) ++ ['\n']
        ++ (s.map (rendering fm nodes_)).flatten,
      (t.map (rendering fm nodes_)).flatten, by
      simp only [List.append_assoc]⟩

/-- The rendering of a node holds the rendering of each of its descendants. -/
theorem rendering_descendant (fm : float_model) (nodes_ : List document_tree_node)
    (hinv : invariants nodes_) (r : Nat) (h0 : 0 < r) :
    ∀ (i : Nat), i < nodes_.length → in_subtree nodes_ r i = true →
      ∃ pre post, rendering fm nodes_ r = pre ++ rendering fm nodes_ i ++ post := by
  intro i
  induction i using Nat.strong_induction_on with
  | _ i ih =>
    intro hi hin
    have hpi := parent_index_lt_self nodes_ hinv i hi
    rw [in_subtree_step nodes_ hinv r i hi] at hin
    simp only [Bool.or_eq_true, beq_iff_eq, Bool.and_eq_true, decide_eq_true_eq] at hin
    rcases hin with hin | ⟨hp0, hin⟩
    · subst hin
      exact ⟨[], [], by simp⟩
    · have hle := le_of_in_subtree nodes_ hinv r _ (by omega) hin
      obtain ⟨pre, post, hr⟩ := ih (parent_index_at nodes_ i).toNat (by omega) (by omega) hin
      obtain ⟨pre1, post1, hc⟩ := rendering_child fm nodes_ hinv (parent_index_at nodes_ i).toNat
        (by omega) (by omega) i hi (by omega)
      exact ⟨pre ++ pre1, post1 ++ post, by rw [hr, hc]; simp only [List.append_assoc]⟩

/-- The rendering of a node that is not the last child of its parent: the comma and the
line end come last for a container, and after the opening token for a leaf. -/
theorem rendering_comma (fm : float_model) (nodes_ : List document_tree_node)
    (hinv : invariants nodes_) (it : Nat) (h0 : 0 < it) (hit : it < nodes_.length)
    (nd : document_tree_node) (hnd : nodes_[it]? = some nd) (hl : ¬ last_of_parent nodes_ it) :
    ∃ pre, rendering fm nodes_ it = pre ++ [',', '\n']
      ++ (if nd.value_.parent_type = true then []
          else ((child_positions nodes_ it).map (rendering fm nodes_)).flatten) := by
  rw [rendering_eq fm nodes_ hinv it h0 hit nd hnd]
  simp only [if_neg hl]
  by_cases hpt : nd.value_.parent_type = true
  · rw [if_pos hpt, if_pos hpt]
    exact ⟨List.replicate (nesting_depth nodes_ it * 2) ' ' ++ rendered_name nd
        ++ nd.value_.format_to fm true ++ ['\n']
        ++ ((child_positions nodes_ it).map (rendering fm nodes_)).flatten
        ++ List.replicate (nesting_depth nodes_ it * 2) ' ' ++ nd.value_.format_to fm false, by
      simp only [List.append_assoc, List.append_nil, List.cons_append, List.nil_append]⟩
  · rw [if_neg hpt, if_neg hpt]
    exact ⟨List.replicate (nesting_depth nodes_ it * 2) ' ' ++ rendered_name nd
        ++ nd.value_.format_to fm true, by
      simp only [List.append_assoc, List.append_nil, List.cons_append, List.nil_append]⟩

end document_tree
end jxxson

namespace jxxson
namespace document_tree

/-- Claim C1: in every tree obtained from the constructor by emplace under an existing
node, remove of a node other than the synthetic root and erase(begin()), the parent_index
values read left to right are non-decreasing. -/
theorem parent_index_sorted_of_reachable (nodes_ : List document_tree_node)
    (h : reachable nodes_) : parent_index_sorted nodes_ :=
  (reachable_invariants nodes_ h).1.1

theorem parent_index_sorted_of_reachable_witness :
    parent_index_sorted (erase ((remove sample_tree 3).getD []) 0).1 :=
  parent_index_sorted_of_reachable _
    (reachable.erase
      (@reachable.remove sample_tree _
        (by
          unfold sample_tree
          repeat (first | exact reachable.ctor _ | refine reachable.emplace ?_ _ (by decide) _ _))
        3 (by decide) (by decide) (by decide)))

/-- Claim C10: in every tree obtained from the constructor by emplace, remove (never of
position 0) and erase(begin()), the node at position 0 has parent_index -1 and is the only
one that has, and every other position i holds a parent_index p with 0 <= p < i. -/
theorem root_unique_and_parent_precedes_of_reachable (nodes_ : List document_tree_node)
    (h : reachable nodes_) :
    0 < nodes_.length ∧ parent_index_at nodes_ 0 = -1 ∧
    (∀ i, i < nodes_.length → parent_index_at nodes_ i = -1 → i = 0) ∧
    (∀ i, i < nodes_.length → 0 < i →
      0 ≤ parent_index_at nodes_ i ∧ parent_index_at nodes_ i < (i : Int)) := by
  obtain ⟨_, hroot, hprec⟩ := (reachable_invariants nodes_ h).1
  refine ⟨hroot.1, hroot.2, fun i hi hpid => ?_, hprec⟩
  rcases Nat.eq_zero_or_pos i with h0 | h0
  · exact h0
  · have := hprec i hi h0
    omega

theorem root_unique_and_parent_precedes_of_reachable_witness :
    0 < (erase ((remove sample_tree 2).getD []) 0).1.length ∧
    parent_index_at (erase ((remove sample_tree 2).getD []) 0).1 0 = -1 ∧
    (∀ i, i < (erase ((remove sample_tree 2).getD []) 0).1.length →
      parent_index_at (erase ((remove sample_tree 2).getD []) 0).1 i = -1 → i = 0) ∧
    (∀ i, i < (erase ((remove sample_tree 2).getD []) 0).1.length → 0 < i →
      0 ≤ parent_index_at (erase ((remove sample_tree 2).getD []) 0).1 i ∧
      parent_index_at (erase ((remove sample_tree 2).getD []) 0).1 i < (i : Int)) :=
  root_unique_and_parent_precedes_of_reachable _
    (reachable.erase
      (@reachable.remove sample_tree _
        (by
          unfold sample_tree
          repeat (first | exact reachable.ctor _ | refine reachable.emplace ?_ _ (by decide) _ _))
        2 (by decide) (by decide) (by decide)))

/-- Claim C2, as stated, fails: in a store with non-decreasing parent_index whose node
at position 2 has the two children at positions 1 and 2, the searches return the range
[2, 3), which has one element and misses position 1. -/
theorem child_range_sorted_only_counterexample :
    parent_index_sorted self_parent_store ∧ 2 < self_parent_store.length ∧
    1 ≤ children_count self_parent_store 2 ∧
    ¬ (search_child_end self_parent_store 2 - search_child_begin self_parent_store 2
        = children_count self_parent_store 2) ∧
    ¬ (∀ i, i < self_parent_store.length → (parent_index_at self_parent_store i = 2 ↔
        search_child_begin self_parent_store 2 ≤ i ∧ i < search_child_end self_parent_store 2)) ∧
    ¬ (iterator_size self_parent_store 2 = children_count self_parent_store 2) := by
  decide

/-- Claim C2 (amended): in a store whose parent_index sequence is non-decreasing and in
which the node at position p has a parent_index smaller than p and k >= 1 children,
search_child_begin(p) and search_child_end(p) delimit a range [b, e) with e - b = k that
holds exactly the positions whose parent_index is p, in increasing position order, and
the cursor's size() returns k. -/
theorem child_range_correct (nodes_ : List document_tree_node) (hs : parent_index_sorted nodes_)
    (p : Nat) (hp : p < nodes_.length) (hpp : parent_index_at nodes_ p < (p : Int))
    (hk : 1 ≤ children_count nodes_ p) :
    search_child_begin nodes_ p < search_child_end nodes_ p ∧
    search_child_end nodes_ p ≤ nodes_.length ∧
    (∀ i, i < nodes_.length → (parent_index_at nodes_ i = (p : Int) ↔
      search_child_begin nodes_ p ≤ i ∧ i < search_child_end nodes_ p)) ∧
    List.range' (search_child_begin nodes_ p) (search_child_end nodes_ p - search_child_begin nodes_ p)
      = (List.range nodes_.length).filter (fun i => parent_index_at nodes_ i == (p : Int)) ∧
    search_child_end nodes_ p - search_child_begin nodes_ p = children_count nodes_ p ∧
    iterator_size nodes_ p = children_count nodes_ p := by
  obtain ⟨nd, hmem, hnd⟩ := List.countP_pos_iff.mp (Nat.lt_of_lt_of_le Nat.zero_lt_one hk)
  obtain ⟨c, hc, hget⟩ := List.getElem_of_mem hmem
  have hcp : parent_index_at nodes_ c = (p : Int) := by
    rw [parent_index_at_of_lt _ _ hc, hget]; simpa using hnd
  obtain ⟨hb, he⟩ := search_child_of_child nodes_ hs p hp hpp c hc hcp
  obtain ⟨h1, h2, h3, h4, _, _⟩ := child_search nodes_ hs p hp hpp
  have hcnt := children_count_eq nodes_ p _ _ h2 h3 h4
  have hcr := (h4 c hc).mp hcp
  unfold iterator_size
  simp only
  rw [hb, he]
  generalize upper_bound nodes_ p nodes_.length ((p : Int) - 1) = b at *
  generalize upper_bound nodes_ p nodes_.length (p : Int) = e at *
  refine ⟨by omega, h3, h4, ?_, hcnt.symm, ?_⟩
  · apply List.eq_of_perm_of_sorted (r := (· < ·))
    · apply (List.perm_ext_iff_of_nodup (List.nodup_range' b (e - b))
        ((List.nodup_range _).filter _)).mpr
      intro i
      simp only [List.mem_range'_1, List.mem_filter, List.mem_range, beq_iff_eq]
      constructor
      · intro hi
        exact ⟨by omega, (h4 i (by omega)).mpr ⟨hi.1, by omega⟩⟩
      · intro hi
        have := (h4 i hi.1).mp hi.2
        omega
    · exact List.pairwise_lt_range' b (e - b)
    · exact (List.sorted_lt_range _).filter _
  · rw [if_pos (by omega), hcnt]
    omega

theorem child_range_correct_witness :
    search_child_begin sample_tree 3 < search_child_end sample_tree 3 ∧
    search_child_end sample_tree 3 ≤ sample_tree.length ∧
    (∀ i, i < sample_tree.length → (parent_index_at sample_tree i = ((3 : Nat) : Int) ↔
      search_child_begin sample_tree 3 ≤ i ∧ i < search_child_end sample_tree 3)) ∧
    List.range' (search_child_begin sample_tree 3)
        (search_child_end sample_tree 3 - search_child_begin sample_tree 3)
      = (List.range sample_tree.length).filter
          (fun i => parent_index_at sample_tree i == ((3 : Nat) : Int)) ∧
    search_child_end sample_tree 3 - search_child_begin sample_tree 3 = children_count sample_tree 3 ∧
    iterator_size sample_tree 3 = children_count sample_tree 3 :=
  child_range_correct sample_tree (by decide) 3 (by decide) (by decide) (by decide)

/-- Claim C5: in a store that satisfies the invariants, emplace under a container node P
that has a child puts the new node at the position right after P's last child, with
parent_index equal to P's position; afterwards the child range of P starts where it
started, holds the previous children unchanged at their previous positions, and ends
with the new node. -/
theorem emplace_after_last_child (nodes_ : List document_tree_node) (hinv : invariants nodes_)
    (p : Nat) (hp : p < nodes_.length) (hcont : (nodes_[p]).value_.parent_type = true)
    (last : Nat) (hl : last < nodes_.length) (hlp : parent_index_at nodes_ last = (p : Int))
    (hlast : ∀ j, j < nodes_.length → last < j → parent_index_at nodes_ j ≠ (p : Int))
    (name : List Char) (value : document_node_value) :
    (emplace nodes_ p name value).2 = last + 1 ∧
    (emplace nodes_ p name value).1[last + 1]? =
      some { name_ := name, value_ := value, pid_ := (p : Int), tombed_ := false } ∧
    (emplace nodes_ p name value).1.length = nodes_.length + 1 ∧
    search_child_begin (emplace nodes_ p name value).1 p = search_child_begin nodes_ p ∧
    search_child_end nodes_ p = last + 1 ∧
    search_child_end (emplace nodes_ p name value).1 p = last + 2 ∧
    (∀ i, i ≤ last → (emplace nodes_ p name value).1[i]? = nodes_[i]?) := by
  have hq := upper_bound_eq_after_last_child nodes_ hinv p last hl hlp
    (fun j hj1 hj2 => hlast j hj2 hj1)
  have hget := getElem?_emplace nodes_ hinv p hp hcont name value
  have hpid := parent_index_at_emplace nodes_ hinv p hp hcont name value
  have hinv1 := invariants_emplace nodes_ hinv p hp name value
  have hlen := length_emplace nodes_ hinv p hp name value
  rw [if_pos hcont] at hlen
  have hr2 : (emplace nodes_ p name value).2 = last + 1 := by
    rw [emplace_eq nodes_ hinv p hp hcont]; exact hq
  rw [hq] at hget hpid
  obtain ⟨_, _, hq3, hq4⟩ := upper_bound_spec nodes_ hinv.1 0 (p : Int)
  rw [hq] at hq3 hq4
  generalize (emplace nodes_ p name value).1 = nodes1 at *
  have hpp : parent_index_at nodes_ p < (p : Int) := by
    rcases Nat.eq_zero_or_pos p with h0 | h0
    · subst h0; rw [hinv.2.1.2]; decide
    · exact (hinv.2.2 p hp h0).2
  have hplast : p < last := by
    by_contra hcon
    rcases Nat.eq_or_lt_of_le (Nat.le_of_not_lt hcon) with h | h
    · rw [h] at hlp; omega
    · have := hinv.1 p hp last h
      omega
  have hpp1 : parent_index_at nodes1 p < (p : Int) := by
    rw [hpid p (by omega), if_pos (by omega)]; exact hpp
  have hnew : parent_index_at nodes1 (last + 1) = (p : Int) := by
    rw [hpid (last + 1) (by omega)]; simp
  obtain ⟨hb, he⟩ := search_child_of_child nodes_ hinv.1 p hp hpp last hl hlp
  obtain ⟨hb1, he1⟩ := search_child_of_child nodes1 hinv1.1 p (by omega) hpp1 (last + 1)
    (by omega) hnew
  obtain ⟨c1, c2, c3, c4, _, _⟩ := child_search nodes_ hinv.1 p hp hpp
  obtain ⟨d1, d2, d3, d4, _, _⟩ := child_search nodes1 hinv1.1 p (by omega) hpp1
  rw [hb, he, hb1, he1]
  generalize upper_bound nodes_ p nodes_.length ((p : Int) - 1) = b at *
  generalize upper_bound nodes_ p nodes_.length (p : Int) = e at *
  generalize upper_bound nodes1 p nodes1.length ((p : Int) - 1) = b1 at *
  generalize upper_bound nodes1 p nodes1.length (p : Int) = e1 at *
  have hbl := (c4 last hl).mp hlp
  have hb1l := (d4 (last + 1) (by omega)).mp hnew
  have hsame : ∀ i, i ≤ last → parent_index_at nodes1 i = parent_index_at nodes_ i := by
    intro i hi
    rw [hpid i (by omega), if_pos (by omega)]
  have hafter : ∀ i, last + 1 < i → i < nodes_.length + 1 → (p : Int) < parent_index_at nodes1 i := by
    intro i hi hi2
    rw [hpid i hi2, if_neg (by omega), if_neg (by omega)]
    have := hq4 (i - 1) (by omega) (by omega)
    split_ifs <;> omega
  refine ⟨hr2, ?_, hlen, ?_, ?_, ?_, ?_⟩
  · rw [hget]; simp [document_tree_node.of_pointer]
  · -- the first child is the same position before and after
    have e1 : b ≤ b1 := by
      by_contra hcon
      have h1 := (d4 b1 (by omega)).mpr ⟨le_refl _, by omega⟩
      rw [hsame b1 (by omega)] at h1
      have := (c4 b1 (by omega)).mp h1
      omega
    have e2 : b1 ≤ b := by
      by_contra hcon
      have h1 := (c4 b (by omega)).mpr ⟨le_refl _, by omega⟩
      rw [← hsame b (by omega)] at h1
      have := (d4 b (by omega)).mp h1
      omega
    omega
  · by_contra hcon
    by_cases hlt : e < last + 1
    · omega
    · have := (c4 (last + 1) (by omega)).mpr ⟨by omega, by omega⟩
      exact hlast (last + 1) (by omega) (by omega) this
  · by_contra hcon
    by_cases hlt : e1 < last + 2
    · omega
    · have h1 := (d4 (last + 2) (by omega)).mpr ⟨by omega, by omega⟩
      have := hafter (last + 2) (by omega) (by omega)
      omega
  · intro i hi
    rw [hget, if_pos (by omega)]

theorem emplace_after_last_child_witness :
    (emplace sample_tree 3 ['x'] (document_node_value.of_int 7)).2 = 6 + 1 ∧
    (emplace sample_tree 3 ['x'] (document_node_value.of_int 7)).1[6 + 1]? =
      some { name_ := ['x'], value_ := document_node_value.of_int 7, pid_ := ((3 : Nat) : Int),
             tombed_ := false } ∧
    (emplace sample_tree 3 ['x'] (document_node_value.of_int 7)).1.length = sample_tree.length + 1 ∧
    search_child_begin (emplace sample_tree 3 ['x'] (document_node_value.of_int 7)).1 3
      = search_child_begin sample_tree 3 ∧
    search_child_end sample_tree 3 = 6 + 1 ∧
    search_child_end (emplace sample_tree 3 ['x'] (document_node_value.of_int 7)).1 3 = 6 + 2 ∧
    (∀ i, i ≤ 6 → (emplace sample_tree 3 ['x'] (document_node_value.of_int 7)).1[i]?
      = sample_tree[i]?) :=
  emplace_after_last_child sample_tree (by decide) 3 (by decide) (by decide) 6 (by decide)
    (by decide) (by decide) ['x'] (document_node_value.of_int 7)

/-- Claim C7: in a store that satisfies the invariants, access(P, n) returns the lowest
position of a child of P named n, and the tree's end() sentinel when P has no child of
that name, whether or not the child range of P ends at the array end.  (The call only
reads the array: it returns a cursor and no new array.) -/
theorem access_name_correct (nodes_ : List document_tree_node) (hinv : invariants nodes_)
    (p : Nat) (hp : p < nodes_.length) (name : List Char) :
    access_name nodes_ p name =
      match first_child_named nodes_ p name with
      | some c => c
      | none => nodes_.length := by
  unfold access_name
  simp only
  rcases hf : first_child_named nodes_ p name with _ | c
  · have hnone := first_child_named_eq_none nodes_ p name hf
    rw [find_if_child_missing nodes_ hinv p hp name hnone]
    simp
  · obtain ⟨hc, hcp, hcn, hfirst⟩ := first_child_named_eq_some nodes_ p name c hf
    obtain ⟨h1, h2⟩ := find_if_child_found nodes_ hinv p hp name c hc hcp hcn hfirst
    rw [h1, if_neg h2]

theorem access_name_correct_witness :
    (access_name sample_tree 1 ['c'] = 4 ∧ access_name sample_tree 1 ['z'] = sample_tree.length) ∧
    access_name sample_tree 3 ['a'] = sample_tree.length :=
  ⟨⟨access_name_correct sample_tree (by decide) 1 (by decide) ['c'],
    access_name_correct sample_tree (by decide) 1 (by decide) ['z']⟩,
   access_name_correct sample_tree (by decide) 3 (by decide) ['a']⟩

/-- Claim C6: for an object node P of a store that satisfies the invariants,
insert_or_access(P, n) returns the lowest-position child of P named n and leaves the
array as it is when there is one; otherwise the array grows by exactly one node, the
returned cursor is at that node, which is named n, holds the null value and has P as
parent, P has one child more, and the other nodes keep name, value, tombstone and order. -/
theorem insert_or_access_name_correct (nodes_ : List document_tree_node) (hinv : invariants nodes_)
    (p : Nat) (hp : p < nodes_.length)
    (hobj : (nodes_[p]).value_.type = document_tree_node_type.object) (name : List Char) :
    match first_child_named nodes_ p name with
    | some c => insert_or_access_name nodes_ p name = (nodes_, c)
    | none =>
      (insert_or_access_name nodes_ p name).1.length = nodes_.length + 1 ∧
      (insert_or_access_name nodes_ p name).1[(insert_or_access_name nodes_ p name).2]? =
        some { name_ := name, value_ := { type := document_tree_node_type.null, buffer := [] },
               pid_ := (p : Int), tombed_ := false } ∧
      children_count (insert_or_access_name nodes_ p name).1 p = children_count nodes_ p + 1 ∧
      ((insert_or_access_name nodes_ p name).1.eraseIdx (insert_or_access_name nodes_ p name).2).map
          (fun nd => (nd.name_, nd.value_, nd.tombed_))
        = nodes_.map (fun nd => (nd.name_, nd.value_, nd.tombed_)) := by
  have hcont : (nodes_[p]).value_.parent_type = true := by
    simp [document_node_value.parent_type, hobj]
  rcases hf : first_child_named nodes_ p name with _ | c
  · simp only
    have hnone := first_child_named_eq_none nodes_ p name hf
    have hins : insert_or_access_name nodes_ p name =
        emplace nodes_ p name document_node_value.of_null := by
      unfold insert_or_access_name
      simp only
      rw [find_if_child_missing nodes_ hinv p hp name hnone, if_pos rfl]
    rw [hins]
    refine ⟨?_, ?_, children_count_emplace nodes_ hinv p hp hcont _ _,
      eraseIdx_emplace_frame nodes_ hinv p hp hcont _ _⟩
    · rw [length_emplace nodes_ hinv p hp, if_pos hcont]
    · rw [getElem?_emplace nodes_ hinv p hp hcont]
      have h2 : (emplace nodes_ p name document_node_value.of_null).2
          = upper_bound nodes_ 0 nodes_.length (p : Int) := by
        rw [emplace_eq nodes_ hinv p hp hcont]
      rw [h2, if_neg (lt_irrefl _), if_pos rfl]
      rfl
  · simp only
    obtain ⟨hc, hcp, hcn, hfirst⟩ := first_child_named_eq_some nodes_ p name c hf
    obtain ⟨h1, h2⟩ := find_if_child_found nodes_ hinv p hp name c hc hcp hcn hfirst
    unfold insert_or_access_name
    simp only
    rw [h1, if_neg h2]

theorem insert_or_access_name_correct_witness :
    insert_or_access_name sample_tree 1 ['c'] = (sample_tree, 4) ∧
    ((insert_or_access_name sample_tree 4 ['e']).1.length = sample_tree.length + 1 ∧
      (insert_or_access_name sample_tree 4 ['e']).1[(insert_or_access_name sample_tree 4 ['e']).2]? =
        some { name_ := ['e'], value_ := { type := document_tree_node_type.null, buffer := [] },
               pid_ := ((4 : Nat) : Int), tombed_ := false } ∧
      children_count (insert_or_access_name sample_tree 4 ['e']).1 4 = children_count sample_tree 4 + 1 ∧
      ((insert_or_access_name sample_tree 4 ['e']).1.eraseIdx
          (insert_or_access_name sample_tree 4 ['e']).2).map
          (fun nd => (nd.name_, nd.value_, nd.tombed_))
        = sample_tree.map (fun nd => (nd.name_, nd.value_, nd.tombed_))) :=
  ⟨insert_or_access_name_correct sample_tree (by decide) 1 (by decide) (by decide) ['c'],
   insert_or_access_name_correct sample_tree (by decide) 4 (by decide) (by decide) ['e']⟩

/-- The part of claim C8 that the code meets: for an index below SIZE_MAX (so that
`i + 1` does not wrap) in a store whose positions fit `std::ptrdiff_t`, access(P, i) is
the end() sentinel when i is at least the number of children and the position
begin(P) + i, a child of P, otherwise. -/
theorem access_index_below_size_max (nodes_ : List document_tree_node) (hinv : invariants nodes_)
    (p : Nat) (hp : p < nodes_.length) (hlen : nodes_.length < SIZE_MOD / 2)
    (i : Nat) (hi : i + 1 < SIZE_MOD) :
    access_index nodes_ p i =
      (if children_count nodes_ p ≤ i then (nodes_.length : Int)
       else ((search_child_begin nodes_ p + i : Nat) : Int)) ∧
    (i < children_count nodes_ p →
      search_child_begin nodes_ p + i < nodes_.length ∧
      parent_index_at nodes_ (search_child_begin nodes_ p + i) = (p : Int)) := by
  have hpp := parent_index_lt_self nodes_ hinv p hp
  obtain ⟨h1, h2, h3, h4, _, _⟩ := child_search nodes_ hinv.1 p hp hpp
  have hcnt := children_count_eq nodes_ p _ _ h2 h3 h4
  have hmod : SIZE_MOD = 18446744073709551616 := by decide
  unfold access_index to_size_t to_ptrdiff_t
  simp only
  rw [Nat.mod_eq_of_lt hi]
  by_cases hch : ∃ c, c < nodes_.length ∧ parent_index_at nodes_ c = (p : Int)
  · obtain ⟨c, hc, hcp⟩ := hch
    obtain ⟨hb, he⟩ := search_child_of_child nodes_ hinv.1 p hp hpp c hc hcp
    rw [hb, he]
    generalize upper_bound nodes_ p nodes_.length ((p : Int) - 1) = b at *
    generalize upper_bound nodes_ p nodes_.length (p : Int) = e at *
    have hsub : (((e : Int) - (b : Int)) % (SIZE_MOD : Int)).toNat = e - b := by
      rw [Int.emod_eq_of_lt (by omega) (by omega)]
      omega
    rw [hsub, hcnt]
    constructor
    · by_cases hik : e - b ≤ i
      · rw [if_pos (by omega), if_pos hik]
      · rw [if_neg (by omega), if_neg hik, if_pos (by omega)]
        push_cast
        rfl
    · intro hik
      exact ⟨by omega, (h4 (b + i) (by omega)).mpr ⟨by omega, by omega⟩⟩
  · have hno : ∀ c, c < nodes_.length → parent_index_at nodes_ c ≠ (p : Int) :=
      fun c hc hcp => hch ⟨c, hc, hcp⟩
    obtain ⟨hb, he⟩ := search_child_of_no_child nodes_ hinv.1 p hp hpp hno
    rw [hb, he]
    have hk0 : children_count nodes_ p = 0 := by
      rw [hcnt]
      by_contra hcon
      exact hno _ (by omega) ((h4 (upper_bound nodes_ p nodes_.length ((p : Int) - 1)) (by omega)).mpr
        ⟨le_refl _, by omega⟩)
    rw [hk0]
    simp

theorem access_index_below_size_max_witness :
    (access_index sample_tree 3 1 =
      (if children_count sample_tree 3 ≤ 1 then (sample_tree.length : Int)
       else ((search_child_begin sample_tree 3 + 1 : Nat) : Int)) ∧
    (1 < children_count sample_tree 3 →
      search_child_begin sample_tree 3 + 1 < sample_tree.length ∧
      parent_index_at sample_tree (search_child_begin sample_tree 3 + 1) = ((3 : Nat) : Int))) :=
  access_index_below_size_max sample_tree (by decide) 3 (by decide) (by decide) 1 (by decide)

/-- Claim C8 at the index SIZE_MAX: the node at position 3 of the sample tree has the two
children at positions 5 and 6, the index 2^64 - 1 is not below 2, and access returns the
position 4 (begin() - 1, a sibling of the parent), which is not the end() sentinel 8. -/
theorem access_index_size_max :
    invariants sample_tree ∧ children_count sample_tree 3 = 2 ∧
    search_child_begin sample_tree 3 = 5 ∧ sample_tree.length = 8 ∧
    access_index sample_tree 3 (SIZE_MOD - 1) = 4 := by
  decide

/-- Claim C3: on a store that satisfies the invariants and has no tombstone, a series of
remove(P) calls (P never the synthetic root) followed by erase(begin()) terminates and
leaves the original array with exactly the removed nodes and their descendants deleted;
every survivor keeps its name, value and relative order, and its parent_index is the new
position of the node that was its parent (`compacted`). -/
theorem remove_then_erase_compacts (nodes_ : List document_tree_node) (hinv : invariants nodes_)
    (hlive : ∀ i, i < nodes_.length → dying_at nodes_ i = false)
    (whiches : List Nat) (hw : ∀ w, w ∈ whiches → 0 < w ∧ w < nodes_.length) :
    ∃ nodes1, remove_all nodes_ whiches = some nodes1 ∧
      (erase nodes1 0).1
        = compacted nodes_ (fun i => whiches.any (fun w => in_subtree nodes_ w i)) := by
  obtain ⟨nodes1, hrem, hframe, hd⟩ := remove_all_marks whiches nodes_ hinv (fun w hw1 => (hw w hw1).2)
  refine ⟨nodes1, hrem, ?_⟩
  have hlen : nodes1.length = nodes_.length := by
    rcases Nat.lt_trichotomy nodes1.length nodes_.length with hlt | heq | hgt
    · have := hframe nodes1.length
      rw [List.getElem?_eq_none (le_refl _), List.getElem?_eq_getElem hlt] at this
      simp at this
    · exact heq
    · have := hframe nodes_.length
      rw [List.getElem?_eq_none (le_refl _), List.getElem?_eq_getElem hgt] at this
      simp at this
  have hpid : ∀ i, parent_index_at nodes1 i = parent_index_at nodes_ i := by
    intro i
    have hf := hframe i
    unfold parent_index_at
    rcases h1 : nodes1[i]? with _ | a <;> rcases h2 : nodes_[i]? with _ | b <;>
      rw [h1, h2] at hf <;> simp [document_tree_node.dying] at hf ⊢
    exact hf.2.2
  have hinv1 := invariants_congr nodes_ nodes1 hlen hpid hinv
  have hdead : ∀ i, i < nodes_.length →
      dying_at nodes1 i = whiches.any (fun w => in_subtree nodes_ w i) := by
    intro i hi
    rw [Bool.eq_iff_iff, hd i hi, hlive i hi]
    simp
  have hroot : dying_at nodes1 0 = false := by
    rw [hdead 0 hinv.2.1.1]
    rw [Bool.eq_false_iff]
    intro hany
    rw [List.any_eq_true] at hany
    obtain ⟨w, hw1, hw2⟩ := hany
    have := le_of_in_subtree nodes_ hinv w 0 hinv.2.1.1 hw2
    have := (hw w hw1).1
    omega
  rw [erase_eq nodes1 hinv1 hroot, hlen]
  have := filter_shifted_eq_compacted nodes_ nodes1 hinv
    (fun i => whiches.any (fun w => in_subtree nodes_ w i)) hlive hframe hlen hdead
    (fun i hi h0 hp => by
      simp only [List.any_eq_true] at hp ⊢
      obtain ⟨w, hw1, hw2⟩ := hp
      exact ⟨w, hw1, in_subtree_of_parent nodes_ hinv w i _ hi (by omega) hw2⟩)
    nodes_.length 0 (by omega)
  simpa [compacted] using this

theorem remove_then_erase_compacts_witness :
    ∃ nodes1, remove_all sample_tree [3, 7] = some nodes1 ∧
      (erase nodes1 0).1
        = compacted sample_tree (fun i => [3, 7].any (fun w => in_subtree sample_tree w i)) :=
  remove_then_erase_compacts sample_tree (by decide) (by decide) [3, 7] (by decide)

end document_tree
end jxxson

namespace jxxson
namespace document_tree_parser_t
open document_tree_batch_inserter

/-- Claim C4, which the parser does not meet: the well-formed document with members
a = [null] and b = 1 is parsed into a tree in which b is an element of the array a, of
value null, and 1 is a further element of a; the text written for this tree, parsed again,
gives a tree with one node more, so the two trees differ. The same document with true in
the place of null is parsed into the tree of the document and written and parsed back to
the same tree. -/
theorem parse_format_parse_null_in_array :
    parse no_float null_in_array_document (document_tree.ctor 16)
      = some (18, null_in_array_tree) ∧
    document_tree.format_to no_float null_in_array_tree = some null_in_array_text ∧
    parse no_float null_in_array_text (document_tree.ctor 16)
      = some (46, null_in_array_reparsed) ∧
    null_in_array_reparsed ≠ null_in_array_tree ∧
    parse no_float true_in_array_document (document_tree.ctor 16)
      = some (18, true_in_array_tree) ∧
    (document_tree.format_to no_float true_in_array_tree).bind
        (fun out => parse no_float out (document_tree.ctor 16))
      = some (34, true_in_array_tree) := by
  refine ⟨by decide, by decide, by decide, by decide, by decide, by decide⟩

/-- Claim C9: for every staging pool filled in depth-first discovery order (each emplace
names as parent the most recently staged entry or one of its ancestors) and every tree
whose array starts with the synthetic root, the materialization loop leaves an array with
one node per pool entry whose parent_index sequence is non-decreasing; each entry but the
pool root gets a position from 1 on that holds its name and value with, as parent_index,
the position its parent entry got; and of two entries staged under one parent the earlier
one gets the earlier position, with every position between the two holding a child of that
same parent, so the children of a parent fill one contiguous run in staging order. -/
theorem materialize_sorted_and_contiguous (ins : document_tree_batch_inserter)
    (h : depth_first ins) (nodes_ : List document_tree_node)
    (hroot : document_tree.root_at_front nodes_) :
    (materialize nodes_ ins).length = ins.nodes_.length ∧
    document_tree.parent_index_sorted (materialize nodes_ ins) ∧
    (∀ k e p, 0 < k → ins.nodes_[k]? = some e → e.parent = some p →
      0 < index_at (materialize_loop nodes_ ins).pool k ∧
      index_at (materialize_loop nodes_ ins).pool k < ins.nodes_.length ∧
      (materialize nodes_ ins)[index_at (materialize_loop nodes_ ins).pool k]? =
        some (document_tree_node.of_pid
          ((index_at (materialize_loop nodes_ ins).pool p : Nat) : Int) e.name e.value)) ∧
    (∀ a b, 0 < a → a < b → b < ins.nodes_.length →
      parent_at ins.nodes_ a = parent_at ins.nodes_ b →
      index_at (materialize_loop nodes_ ins).pool a < index_at (materialize_loop nodes_ ins).pool b ∧
      ∀ c, index_at (materialize_loop nodes_ ins).pool a ≤ c →
        c ≤ index_at (materialize_loop nodes_ ins).pool b →
        document_tree.parent_index_at (materialize nodes_ ins) c =
          ((parent_index (materialize_loop nodes_ ins).pool (parent_at ins.nodes_ a) : Nat) : Int)) := by
  have hw := (depth_first_well_staged ins h).1
  have hsorted := parent_index_sorted_materialize ins hw nodes_ hroot
  have hlen := length_materialize ins hw nodes_
  have hnode : ∀ k e p, 0 < k → ins.nodes_[k]? = some e → e.parent = some p →
      0 < index_at (materialize_loop nodes_ ins).pool k ∧
      index_at (materialize_loop nodes_ ins).pool k < ins.nodes_.length ∧
      (materialize nodes_ ins)[index_at (materialize_loop nodes_ ins).pool k]? =
        some (document_tree_node.of_pid
          ((index_at (materialize_loop nodes_ ins).pool p : Nat) : Int) e.name e.value) := by
    intro k e p hk0 he hp
    have hk : k < ins.nodes_.length := by
      rcases Nat.lt_or_ge k ins.nodes_.length with h1 | h1
      · exact h1
      · rw [List.getElem?_eq_none h1] at he
        cases he
    obtain ⟨j, hj, hj2, hidx⟩ := index_at_materialize_order ins hw nodes_ k hk0 hk
    have hf := (materialized_loop ins hw nodes_).2.2.2.2.2.2.1 j k e hj he
    rw [hidx]
    refine ⟨by omega, hj2, ?_⟩
    unfold materialize
    rw [hf, hp]
    rfl
  have hpid : ∀ k, 0 < k → k < ins.nodes_.length →
      document_tree.parent_index_at (materialize nodes_ ins)
          (index_at (materialize_loop nodes_ ins).pool k) =
        ((parent_index (materialize_loop nodes_ ins).pool (parent_at ins.nodes_ k) : Nat) : Int) := by
    intro k hk0 hk
    obtain ⟨p, hp1, _, _⟩ := hw.2.2.2.2.1 k hk0 hk
    have he : ins.nodes_[k]? = some (ins.nodes_[k]) := List.getElem?_eq_getElem hk
    have hp1a := hp1
    unfold parent_at at hp1a
    rw [he] at hp1a
    simp only at hp1a
    have := (hnode k _ p hk0 he hp1a).2.2
    unfold document_tree.parent_index_at
    rw [this, hp1]
    rfl
  refine ⟨hlen, hsorted, hnode, ?_⟩
  intro a b ha0 hab hb hpar
  have hda : depth_at ins.nodes_ a = depth_at ins.nodes_ b := by
    obtain ⟨pa, hpa1, _, hpa3⟩ := hw.2.2.2.2.1 a ha0 (by omega)
    obtain ⟨pb, hpb1, _, hpb3⟩ := hw.2.2.2.2.1 b (by omega) hb
    rw [hpa1, hpb1] at hpar
    cases hpar
    omega
  have hlt := index_at_lt_of_key_lt ins hw nodes_ a b ha0 (by omega) hb (Or.inr ⟨hda, hab⟩)
  refine ⟨hlt, ?_⟩
  intro c hc1 hc2
  have hA := hpid a ha0 (by omega)
  have hB := hpid b (by omega) hb
  rw [← hpar] at hB
  have hib : index_at (materialize_loop nodes_ ins).pool b < (materialize nodes_ ins).length := by
    obtain ⟨j, _, hj2, hidx⟩ := index_at_materialize_order ins hw nodes_ b (by omega) hb
    omega
  have h1 : document_tree.parent_index_at (materialize nodes_ ins)
      (index_at (materialize_loop nodes_ ins).pool a) ≤
      document_tree.parent_index_at (materialize nodes_ ins) c := by
    rcases Nat.eq_or_lt_of_le hc1 with e | e
    · rw [e]
    · exact hsorted c (by omega) _ e
  have h2 : document_tree.parent_index_at (materialize nodes_ ins) c ≤
      document_tree.parent_index_at (materialize nodes_ ins)
        (index_at (materialize_loop nodes_ ins).pool b) := by
    rcases Nat.eq_or_lt_of_le hc2 with e | e
    · rw [e]
    · exact hsorted _ hib c e
  omega

theorem depth_first_sample_pool : depth_first sample_pool :=
  depth_first.emplace (depth_first.emplace (depth_first.emplace (depth_first.emplace
    (depth_first.emplace (depth_first.emplace (depth_first.emplace depth_first.ctor
      0 (by decide) [] document_node_value.of_object_tag rfl)
      1 (by decide) ['a'] (document_node_value.of_int 1) rfl)
      1 (by decide) ['b'] document_node_value.of_array_tag rfl)
      3 (by decide) [] (document_node_value.of_int 2) rfl)
      3 (by decide) [] (document_node_value.of_int 3) rfl)
      1 (by decide) ['c'] document_node_value.of_object_tag rfl)
      6 (by decide) ['d'] (document_node_value.of_int 4) rfl

theorem materialize_sorted_and_contiguous_witness :
    depth_first sample_pool ∧ document_tree.root_at_front (document_tree.ctor 16) ∧
    (materialize (document_tree.ctor 16) sample_pool).length = sample_pool.nodes_.length ∧
    document_tree.parent_index_sorted (materialize (document_tree.ctor 16) sample_pool) :=
  ⟨depth_first_sample_pool, by decide,
    (materialize_sorted_and_contiguous sample_pool depth_first_sample_pool
      (document_tree.ctor 16) (by decide)).1,
    (materialize_sorted_and_contiguous sample_pool depth_first_sample_pool
      (document_tree.ctor 16) (by decide)).2.1⟩

end document_tree_parser_t
end jxxson

namespace jxxson
namespace document_tree

/-- Claim C11: for every store, erase(begin()) run a second time directly after a first
erase(begin()) leaves the node array exactly as the first run left it. -/
theorem erase_twice_unchanged (nodes_ : List document_tree_node) :
    (erase (erase nodes_ 0).1 0).1 = (erase nodes_ 0).1 := by
  have h : ∀ i, dying_at (erase nodes_ 0).1 i = false := by
    unfold erase erase_all_unknows_
    exact erase_loop_no_tombstone _ nodes_ 0 (le_refl _) (fun i hi => absurd hi (Nat.not_lt_zero i))
  generalize (erase nodes_ 0).1 = nodes1 at h
  unfold erase erase_all_unknows_
  exact erase_loop_of_no_tombstone _ nodes1 0 h

/-- The part of claim C12 that the code meets: in a store that satisfies the invariants
and whose positions fit `std::ptrdiff_t`, for an index i below the number of children of
P, insert_or_access(P, i) leaves the node array unchanged and returns the position
begin(P) + i, which is a child of P. -/
theorem insert_or_access_index_existing (nodes_ : List document_tree_node) (hinv : invariants nodes_)
    (p : Nat) (hp : p < nodes_.length) (hlen : nodes_.length < SIZE_MOD / 2)
    (i : Nat) (hi : i < children_count nodes_ p) :
    insert_or_access_index nodes_ p i
      = some (nodes_, ((search_child_begin nodes_ p + i : Nat) : Int)) ∧
    search_child_begin nodes_ p + i < nodes_.length ∧
    parent_index_at nodes_ (search_child_begin nodes_ p + i) = (p : Int) := by
  have hpp := parent_index_lt_self nodes_ hinv p hp
  obtain ⟨h1, h2, h3, h4, _, _⟩ := child_search nodes_ hinv.1 p hp hpp
  have hcnt := children_count_eq nodes_ p _ _ h2 h3 h4
  have hmod : SIZE_MOD = 18446744073709551616 := by decide
  have hb0 : upper_bound nodes_ p nodes_.length ((p : Int) - 1) < nodes_.length := by omega
  have hcp := (h4 _ hb0).mpr ⟨le_refl _, by omega⟩
  obtain ⟨hb, he⟩ := search_child_of_child nodes_ hinv.1 p hp hpp _ hb0 hcp
  have hbound : ¬ (0 : Int) < insert_or_access_bound nodes_ p i := by
    unfold insert_or_access_bound to_size_t to_ptrdiff_t
    rw [hb, he, Nat.mod_eq_of_lt (by omega)]
    generalize upper_bound nodes_ p nodes_.length ((p : Int) - 1) = b at *
    generalize upper_bound nodes_ p nodes_.length (p : Int) = e at *
    rcases Nat.eq_or_lt_of_le (Nat.succ_le_of_lt (hcnt ▸ hi)) with heq | hlt
    · have hz : ((i + 1 : Nat) : Int) - ((e : Int) - (b : Int)) = 0 := by omega
      rw [hz]
      simp [hmod]
    · have hz : (((i + 1 : Nat) : Int) - ((e : Int) - (b : Int))) % (SIZE_MOD : Int)
          = ((i + 1 : Nat) : Int) - ((e : Int) - (b : Int)) + (SIZE_MOD : Int) := by
        rw [← Int.add_emod_self, Int.emod_eq_of_lt (by omega) (by omega)]
      rw [hz]
      split_ifs <;> omega
  refine ⟨?_, by omega, (h4 _ (by omega)).mpr ⟨by omega, by omega⟩⟩
  unfold insert_or_access_index
  have hloop : ∀ fuel, insert_or_access_loop p i (fuel + 1) nodes_ 0 = some nodes_ := by
    intro fuel
    simp only [insert_or_access_loop]
    rw [if_neg hbound]
  rw [hloop (SIZE_MOD / 2)]
  simp only
  unfold to_ptrdiff_t
  rw [if_pos (by omega)]
  push_cast
  rfl

theorem insert_or_access_index_existing_witness :
    insert_or_access_index sample_tree 3 1
      = some (sample_tree, ((search_child_begin sample_tree 3 + 1 : Nat) : Int)) ∧
    search_child_begin sample_tree 3 + 1 < sample_tree.length ∧
    parent_index_at sample_tree (search_child_begin sample_tree 3 + 1) = ((3 : Nat) : Int) :=
  insert_or_access_index_existing sample_tree (by decide) 3 (by decide) (by decide) 1 (by decide)

/-- Claim C12, which the code does not meet when more than one child is missing: the node
at position 3 of the sample tree (the array `b`) has 2 children; insert_or_access(3, 3)
has to add 2 children and return the fourth child, but it adds one child only (the array
grows from 8 to 9 nodes and `b` ends with 3 children) and returns position 8, the node
`d`, whose parent is the node at position 4.  With the index 2 the one missing child is
added and returned (position 7); with the index 5 two children are added where four are
missing, and the position returned is the end of the array. -/
theorem insert_or_access_index_adds_too_few :
    invariants sample_tree ∧ sample_tree.length = 8 ∧ children_count sample_tree 3 = 2 ∧
    (insert_or_access_index sample_tree 3 3).map
        (fun r => (r.1.length, children_count r.1 3, r.2, parent_index_at r.1 8, name_at r.1 8))
      = some (9, 3, 8, 4, ['d']) ∧
    (insert_or_access_index sample_tree 3 2).map
        (fun r => (r.1.length, children_count r.1 3, r.2, parent_index_at r.1 7))
      = some (9, 3, 7, 3) ∧
    (insert_or_access_index sample_tree 3 5).map
        (fun r => (r.1.length, children_count r.1 3, r.2))
      = some (10, 4, 10) := by
  decide

end document_tree
end jxxson

namespace jxxson
namespace document_node_value

/-- Claim C16: for a value of each kind, whatever its buffer, format_to<true> writes
`null` for Null, `true` or `false` for Bool according to the stored boolean, the plain
decimal numeral of the stored integer for Int, an opening brace for Object, an opening
bracket for Array, nothing for Root, and for String the buffer copied unchanged between
two double quotes; format_to<false> writes a closing brace for Object, a closing bracket
for Array and nothing for every other kind. -/
theorem format_to_by_kind (fm : float_model) (buffer : List Char) (b : Bool) :
    format_to fm true { type := document_tree_node_type.null, buffer := buffer } = "null".toList ∧
    format_to fm true { type := document_tree_node_type.boolean, buffer := buffer }
      = (if as_bool { type := document_tree_node_type.boolean, buffer := buffer }
          then "true".toList else "false".toList) ∧
    format_to fm true (of_bool b) = (if b then "true".toList else "false".toList) ∧
    format_to fm true { type := document_tree_node_type.integer, buffer := buffer }
      = (toString (as_int { type := document_tree_node_type.integer, buffer := buffer })).toList ∧
    format_to fm true { type := document_tree_node_type.object, buffer := buffer } = ['\x7b'] ∧
    format_to fm true { type := document_tree_node_type.array, buffer := buffer } = ['['] ∧
    format_to fm true { type := document_tree_node_type.root, buffer := buffer } = [] ∧
    format_to fm true (of_string buffer) = ['"'] ++ buffer ++ ['"'] ∧
    format_to fm false { type := document_tree_node_type.object, buffer := buffer } = ['\x7d'] ∧
    format_to fm false { type := document_tree_node_type.array, buffer := buffer } = [']'] ∧
    format_to fm false { type := document_tree_node_type.null, buffer := buffer } = [] ∧
    format_to fm false { type := document_tree_node_type.boolean, buffer := buffer } = [] ∧
    format_to fm false { type := document_tree_node_type.integer, buffer := buffer } = [] ∧
    format_to fm false { type := document_tree_node_type.floating_point, buffer := buffer } = [] ∧
    format_to fm false { type := document_tree_node_type.string, buffer := buffer } = [] ∧
    format_to fm false { type := document_tree_node_type.root, buffer := buffer } = [] := by
  refine ⟨rfl, rfl, ?_, ?_, rfl, rfl, rfl, rfl, rfl, rfl, rfl, rfl, rfl, rfl, rfl, rfl⟩
  · cases b <;> rfl
  · exact format_int_eq_toString _

/-- Claim C18: the value constructed from an integer i of the width of `int` has kind Int
and a buffer of sizeof(int) bytes, the little-endian two's complement bytes of i, and
as<int>() returns i; the value constructed from a boolean b has kind Bool and a buffer of
one byte, and as<bool>() returns b. -/
theorem of_int_of_bool_roundtrip (i : Int) (hlo : -(2 : Int) ^ (8 * SIZEOF_INT - 1) ≤ i)
    (hhi : i < (2 : Int) ^ (8 * SIZEOF_INT - 1)) (b : Bool) :
    (of_int i).type = document_tree_node_type.integer ∧
    (of_int i).buffer.length = SIZEOF_INT ∧
    (∀ k, k < SIZEOF_INT → (of_int i).buffer[k]? =
      some (Char.ofNat ((i % 2 ^ (8 * SIZEOF_INT)).toNat / 256 ^ k % 256))) ∧
    as_int (of_int i) = i ∧
    (of_bool b).type = document_tree_node_type.boolean ∧
    (of_bool b).buffer.length = 1 ∧
    as_bool (of_bool b) = b := by
  refine ⟨rfl, ?_, ?_, bytes_int_int_bytes i hlo hhi, rfl, rfl, ?_⟩
  · simp [of_int, int_bytes]
  · intro k hk
    simp only [of_int, int_bytes]
    rw [List.getElem?_map, List.getElem?_range hk]
    rfl
  · cases b <;> decide

theorem of_int_of_bool_roundtrip_witness :
    (of_int (-12)).type = document_tree_node_type.integer ∧
    (of_int (-12)).buffer.length = SIZEOF_INT ∧
    (∀ k, k < SIZEOF_INT → (of_int (-12)).buffer[k]? =
      some (Char.ofNat (((-12 : Int) % 2 ^ (8 * SIZEOF_INT)).toNat / 256 ^ k % 256))) ∧
    as_int (of_int (-12)) = -12 ∧
    (of_bool true).type = document_tree_node_type.boolean ∧
    (of_bool true).buffer.length = 1 ∧
    as_bool (of_bool true) = true :=
  of_int_of_bool_roundtrip (-12) (by decide) (by decide) true

end document_node_value
end jxxson

namespace jxxson
namespace document_tree_parser_t

set_option maxRecDepth 100000 in
/-- Claim C17: parsing the sample document into a freshly constructed tree consumes all
29 characters and leaves a store in which the node at position 1 is an object whose child
range is the positions 2, 3, 4, holding `a` (Int 1), `b` (Array) and `c` (Object) in this
order; the child range of `b` is the positions 5, 6, holding unnamed Int nodes 2 then 3;
and the child range of `c` is the position 7 alone, holding `d` (Int 4). -/
theorem parse_sample_document :
    ∃ nodes_, parse no_float sample_document (document_tree.ctor 16) = some (29, nodes_) ∧
      nodes_.length = 8 ∧
      nodes_[1]? = some (document_tree_node.of_pid 0 [] document_node_value.of_object_tag) ∧
      document_tree.search_child_begin nodes_ 1 = 2 ∧ document_tree.search_child_end nodes_ 1 = 5 ∧
      nodes_[2]? = some (document_tree_node.of_pid 1 ['a'] (document_node_value.of_int 1)) ∧
      nodes_[3]? = some (document_tree_node.of_pid 1 ['b'] document_node_value.of_array_tag) ∧
      nodes_[4]? = some (document_tree_node.of_pid 1 ['c'] document_node_value.of_object_tag) ∧
      document_tree.search_child_begin nodes_ 3 = 5 ∧ document_tree.search_child_end nodes_ 3 = 7 ∧
      nodes_[5]? = some (document_tree_node.of_pid 3 [] (document_node_value.of_int 2)) ∧
      nodes_[6]? = some (document_tree_node.of_pid 3 [] (document_node_value.of_int 3)) ∧
      document_tree.search_child_begin nodes_ 4 = 7 ∧ document_tree.search_child_end nodes_ 4 = 8 ∧
      nodes_[7]? = some (document_tree_node.of_pid 4 ['d'] (document_node_value.of_int 4)) :=
  ⟨document_tree.sample_tree, by decide, by decide, by decide, by decide, by decide, by decide,
    by decide, by decide, by decide, by decide, by decide, by decide, by decide, by decide,
    by decide⟩

end document_tree_parser_t
end jxxson

namespace jxxson
namespace document_tree

/-- Claim C20: in a store that satisfies the invariants, for a node at position p that has
no children (wherever it lies in the array) search_child_begin(p) and search_child_end(p)
both are the end() sentinel and size() is 0; and for a node whose children run up to the
end of the array, search_child_end(p) is the end() sentinel and search_child_begin(p) is
the position of its first child. -/
theorem search_child_at_end_of_array (nodes_ : List document_tree_node) (hinv : invariants nodes_)
    (p : Nat) (hp : p < nodes_.length) :
    ((∀ c, c < nodes_.length → parent_index_at nodes_ c ≠ (p : Int)) →
      search_child_begin nodes_ p = nodes_.length ∧ search_child_end nodes_ p = nodes_.length ∧
      iterator_size nodes_ p = 0) ∧
    (∀ first, first < nodes_.length → parent_index_at nodes_ first = (p : Int) →
      (∀ c, c < first → parent_index_at nodes_ c ≠ (p : Int)) →
      parent_index_at nodes_ (nodes_.length - 1) = (p : Int) →
      search_child_begin nodes_ p = first ∧ search_child_end nodes_ p = nodes_.length) := by
  have hpp := parent_index_lt_self nodes_ hinv p hp
  constructor
  · intro hnone
    obtain ⟨hb, he⟩ := search_child_of_no_child nodes_ hinv.1 p hp hpp hnone
    refine ⟨hb, he, ?_⟩
    unfold iterator_size
    rw [hb, he]
    simp
  · intro first hfirst hfp hbefore hlast
    obtain ⟨hb, he⟩ := search_child_of_child nodes_ hinv.1 p hp hpp first hfirst hfp
    obtain ⟨h1, h2, h3, h4, _, _⟩ := child_search nodes_ hinv.1 p hp hpp
    rw [hb, he]
    generalize upper_bound nodes_ p nodes_.length ((p : Int) - 1) = b at *
    generalize upper_bound nodes_ p nodes_.length (p : Int) = e at *
    have hf := (h4 first hfirst).mp hfp
    have hl := (h4 (nodes_.length - 1) (by omega)).mp hlast
    constructor
    · by_contra hne
      exact hbefore b (by omega) ((h4 b (by omega)).mpr ⟨le_refl _, by omega⟩)
    · omega

theorem search_child_at_end_of_array_witness :
    (search_child_begin sample_tree 2 = sample_tree.length ∧
      search_child_end sample_tree 2 = sample_tree.length ∧ iterator_size sample_tree 2 = 0) ∧
    (search_child_begin sample_tree 7 = sample_tree.length ∧
      search_child_end sample_tree 7 = sample_tree.length ∧ iterator_size sample_tree 7 = 0) ∧
    (search_child_begin sample_tree 4 = 7 ∧ search_child_end sample_tree 4 = sample_tree.length) :=
  ⟨(search_child_at_end_of_array sample_tree (by decide) 2 (by decide)).1 (by decide),
   (search_child_at_end_of_array sample_tree (by decide) 7 (by decide)).1 (by decide),
   (search_child_at_end_of_array sample_tree (by decide) 4 (by decide)).2 7 (by decide) (by decide)
     (by decide) (by decide)⟩

end document_tree
end jxxson

namespace jxxson
namespace document_tree
open document_tree_batch_inserter document_tree_parser_t

/-- Claim C19: in every store whose parent_index is non-decreasing and in which the parent
of every node but the one at position 0 precedes it, the depth of the nodes (the number of
parent steps to position 0) is non-decreasing along the array; this is so in every tree
obtained from the constructor by emplace, remove and erase(begin()), and in the array that
the materialization leaves for a pool staged in depth-first order (a bulk load). -/
theorem depth_sorted_of_store :
    (∀ nodes_ : List document_tree_node,
      parent_index_sorted nodes_ → parent_precedes nodes_ → depth_sorted nodes_) ∧
    (∀ nodes_ : List document_tree_node, reachable nodes_ → depth_sorted nodes_) ∧
    (∀ (ins : document_tree_batch_inserter) (nodes_ : List document_tree_node),
      depth_first ins → root_at_front nodes_ → depth_sorted (materialize nodes_ ins)) := by
  refine ⟨depth_sorted_of_sorted, ?_, ?_⟩
  · intro nodes_ h
    have hinv := (reachable_invariants nodes_ h).1
    exact depth_sorted_of_sorted nodes_ hinv.1 hinv.2.2
  · intro ins nodes_ h hroot
    have hinv := invariants_materialize ins (depth_first_well_staged ins h).1 nodes_ hroot
    exact depth_sorted_of_sorted _ hinv.1 hinv.2.2

theorem depth_sorted_of_store_witness :
    depth_sorted sample_tree ∧
    depth_sorted (erase ((remove sample_tree 3).getD []) 0).1 ∧
    depth_sorted (materialize (ctor 16) sample_pool) ∧
    (List.range 8).map (node_depth sample_tree) = [0, 1, 2, 2, 2, 3, 3, 3] :=
  ⟨depth_sorted_of_store.1 sample_tree (by decide) (by decide),
   depth_sorted_of_store.2.1 _
     (reachable.erase
       (@reachable.remove sample_tree _ reachable_sample_tree 3 (by decide) (by decide) (by decide))),
   depth_sorted_of_store.2.2 sample_pool (ctor 16) depth_first_sample_pool (by decide),
   by decide⟩

end document_tree
end jxxson

namespace jxxson
namespace document_tree_parser_t

/-- Claim C13 fails as stated: on the object with a nameless scalar the parser does not
return the position 1 of the scalar but runs to the end, position 3, and leaves a tree
whose object node has become the integer 1; on the object followed by an unmatched closing
brace at position 7 it runs to the end, position 8, and leaves the tree of the object. -/
theorem parse_violation_counterexample :
    parse no_float nameless_scalar_document (document_tree.ctor 16)
      = some (3, [document_tree_node.of_pid (-1) [] document_node_value.of_root_tag,
                  document_tree_node.of_pid 0 [] (document_node_value.of_int 1)]) ∧
    (parse no_float nameless_scalar_document (document_tree.ctor 16)).map Prod.fst ≠ some 1 ∧
    parse no_float unmatched_close_document (document_tree.ctor 16)
      = some (8, [document_tree_node.of_pid (-1) [] document_node_value.of_root_tag,
                  document_tree_node.of_pid 0 [] document_node_value.of_object_tag,
                  document_tree_node.of_pid 1 ['a'] (document_node_value.of_int 1)]) ∧
    (parse no_float unmatched_close_document (document_tree.ctor 16)).map Prod.fst ≠ some 7 := by
  refine ⟨by decide, by decide, by decide, by decide⟩

/-- Claim C13 as amended: whenever the parser returns, the position it returns is the end
of the input or the position of a character that starts no token (one that no `case`
label of the switch names), and in the second case the node array is what it was before
the call; an unmatched closing bracket or a nameless scalar or container inside an object
does not stop it. -/
theorem parse_returns_end_or_default (fm : float_model) (input : List Char)
    (nodes_ : List document_tree_node) (p : Nat) (t : List document_tree_node)
    (h : parse fm input nodes_ = some (p, t)) :
    p = input.length ∨ ∃ c, input[p]? = some c ∧ case_label c = false ∧ t = nodes_ :=
  (parse_loop_result fm input nodes_ _ _ p t (Nat.zero_le _) h).2

theorem parse_returns_end_or_default_witness :
    3 = nameless_scalar_document.length ∨
      ∃ c, nameless_scalar_document[3]? = some c ∧ case_label c = false ∧
        [document_tree_node.of_pid (-1) [] document_node_value.of_root_tag,
         document_tree_node.of_pid 0 [] (document_node_value.of_int 1)] = document_tree.ctor 16 :=
  parse_returns_end_or_default no_float nameless_scalar_document (document_tree.ctor 16) 3 _
    (by decide)

/-- Claim C14: when the loop of the parser stands at a character that starts no token
(one that no `case` label of the switch names), whatever has been staged so far, it
returns the position of that character at once, and the node array of the tree is what it
was before the call. -/
theorem parse_default_returns_unchanged (fm : float_model) (input : List Char)
    (nodes_ : List document_tree_node) (fuel : Nat) (st : parser_state) (c : Char)
    (hget : input[st.beg]? = some c) (hno : case_label c = false) :
    parse_loop fm input nodes_ (fuel + 1) st = some (st.beg, nodes_) :=
  parse_loop_default fm input nodes_ fuel st c hget hno

theorem parse_default_returns_unchanged_witness :
    parse_loop no_float ['x', '1'] document_tree.sample_tree (2 + 1) initial_state
      = some (initial_state.beg, document_tree.sample_tree) ∧
    parse no_float "\x7b\"a\":1,x\x7d".toList document_tree.sample_tree
      = some (7, document_tree.sample_tree) :=
  ⟨parse_default_returns_unchanged no_float ['x', '1'] document_tree.sample_tree 2 initial_state 'x'
    (by decide) (by decide), by decide⟩

end document_tree_parser_t

namespace document_tree

/-- Claim C15: in a store that satisfies the invariants the rendering of every node but
the synthetic root is: the indentation, the name part, the opening token of the value,
and then, for a leaf, a comma exactly if the node is not the last child of its parent,
the line end and the renderings of its children; for a container, the line end directly,
the renderings of its children, the indentation, the closing token, a comma exactly if
the node is not the last child of its parent, and the line end.  The recursion always
ends, and format_to produces an output. -/
theorem format_to_comma_iff_not_last (fm : float_model) (nodes_ : List document_tree_node)
    (hinv : invariants nodes_) (it : Nat) (h0 : 0 < it) (hit : it < nodes_.length)
    (nd : document_tree_node) (hnd : nodes_[it]? = some nd)
    (fuel depth : Nat) (hfuel : nodes_.length ≤ fuel + it) :
    (∃ out, format_to fm nodes_ = some out) ∧
    format_to_impl fm nodes_ (fuel + 1) depth it = some (
      if nd.value_.parent_type = true then
        List.replicate (depth * 2) ' ' ++ rendered_name nd ++ nd.value_.format_to fm true ++ ['\n']
          ++ rendered_children fm nodes_ fuel (depth + 1) it
          ++ List.replicate (depth * 2) ' ' ++ nd.value_.format_to fm false
          ++ (if last_of_parent nodes_ it then [] else [',']) ++ ['\n']
      else
        List.replicate (depth * 2) ' ' ++ rendered_name nd ++ nd.value_.format_to fm true
          ++ (if last_of_parent nodes_ it then [] else [',']) ++ ['\n']
          ++ rendered_children fm nodes_ fuel (depth + 1) it) :=
  ⟨format_to_impl_total fm nodes_ hinv _ 0 1 (by omega) (by omega),
   format_to_impl_eq fm nodes_ hinv it h0 hit nd hnd fuel depth hfuel⟩

theorem format_to_comma_iff_not_last_witness :
    (∃ out, format_to no_float sample_tree = some out) ∧
    format_to_impl no_float sample_tree (8 + 1) 1 3 = some (
      if (document_tree_node.of_pid 1 ['b'] document_node_value.of_array_tag).value_.parent_type
          = true then
        List.replicate (1 * 2) ' '
          ++ rendered_name (document_tree_node.of_pid 1 ['b'] document_node_value.of_array_tag)
          ++ (document_tree_node.of_pid 1 ['b'] document_node_value.of_array_tag).value_.format_to
              no_float true ++ ['\n']
          ++ rendered_children no_float sample_tree 8 (1 + 1) 3
          ++ List.replicate (1 * 2) ' '
          ++ (document_tree_node.of_pid 1 ['b'] document_node_value.of_array_tag).value_.format_to
              no_float false
          ++ (if last_of_parent sample_tree 3 then [] else [',']) ++ ['\n']
      else
        List.replicate (1 * 2) ' '
          ++ rendered_name (document_tree_node.of_pid 1 ['b'] document_node_value.of_array_tag)
          ++ (document_tree_node.of_pid 1 ['b'] document_node_value.of_array_tag).value_.format_to
              no_float true
          ++ (if last_of_parent sample_tree 3 then [] else [',']) ++ ['\n']
          ++ rendered_children no_float sample_tree 8 (1 + 1) 3) ∧
    format_to_impl no_float sample_tree (8 + 1) 1 3 = some "  \"b\":[\n    2,\n    3\n  ],\n".toList ∧
    format_to no_float sample_tree = some
      "\x7b\n  \"a\":1,\n  \"b\":[\n    2,\n    3\n  ],\n  \"c\":\x7b\n    \"d\":4\n  \x7d\n\x7d\n".toList :=
  ⟨(format_to_comma_iff_not_last no_float sample_tree (by decide) 3 (by decide) (by decide)
      (document_tree_node.of_pid 1 ['b'] document_node_value.of_array_tag) (by decide) 8 1
      (by decide)).1,
   (format_to_comma_iff_not_last no_float sample_tree (by decide) 3 (by decide) (by decide)
      (document_tree_node.of_pid 1 ['b'] document_node_value.of_array_tag) (by decide) 8 1
      (by decide)).2,
   by decide, by decide⟩

end document_tree
end jxxson

namespace jxxson
namespace document_tree

/-- Claim C22: in a store that satisfies the invariants, remove(P) ends and leaves an
array of the same size in which every position holds the node it held, with the same
name, value and parent_index, and a node is tombstoned exactly if it was tombstoned before
or it is P or a descendant of P. -/
theorem remove_marks_subtree_only (nodes_ : List document_tree_node) (hinv : invariants nodes_)
    (P : Nat) (hP : P < nodes_.length) :
    ∃ nodes1, remove nodes_ P = some nodes1 ∧ nodes1.length = nodes_.length ∧
      (∀ i nd, nodes_[i]? = some nd →
        ∃ nd1, nodes1[i]? = some nd1 ∧ nd1.name_ = nd.name_ ∧ nd1.value_ = nd.value_ ∧
          nd1.pid_ = nd.pid_ ∧
          (nd1.tombed_ = true ↔ nd.tombed_ = true ∨ in_subtree nodes_ P i = true)) := by
  obtain ⟨nodes1, hrem, hd⟩ := remove_eq_some nodes_ hinv P hP
  have hlen := tag_length _ _ _ _ hrem
  have hframe := (tag_frame _ _ _ _ hrem).1
  refine ⟨nodes1, hrem, hlen, ?_⟩
  intro i nd hnd
  have hi : i < nodes_.length := by
    by_contra hcon
    rw [List.getElem?_eq_none (by omega)] at hnd
    cases hnd
  have h1 : nodes1[i]? = some (nodes1[i]) := List.getElem?_eq_getElem (by omega)
  have hf := hframe i
  rw [h1, hnd] at hf
  simp only [Option.map_some', Option.some.injEq, document_tree_node.dying] at hf
  have hdi := hd i hi
  unfold dying_at at hdi
  rw [h1, hnd] at hdi
  simp only at hdi
  rw [document_tree_node.mk.injEq] at hf
  exact ⟨_, h1, hf.1, hf.2.1, hf.2.2.1, hdi⟩

theorem remove_marks_subtree_only_witness :
    ∃ nodes1, remove sample_tree 3 = some nodes1 ∧ nodes1.length = sample_tree.length ∧
      (∀ i nd, sample_tree[i]? = some nd →
        ∃ nd1, nodes1[i]? = some nd1 ∧ nd1.name_ = nd.name_ ∧ nd1.value_ = nd.value_ ∧
          nd1.pid_ = nd.pid_ ∧
          (nd1.tombed_ = true ↔ nd.tombed_ = true ∨ in_subtree sample_tree 3 i = true)) :=
  remove_marks_subtree_only sample_tree (by decide) 3 (by decide)

/-- Claim C26: in a store that satisfies the invariants, for a parent at position p that
is not below the parent_index of the last node, the two binary searches of emplace_sorted_
both give size(), so that no node is re-indexed and the new node is inserted at the end:
emplace_sorted_ gives exactly the array and the iterator that emplace_back_ gives. -/
theorem emplace_sorted_eq_emplace_back (nodes_ : List document_tree_node) (hinv : invariants nodes_)
    (p : Nat) (hp : p < nodes_.length)
    (hfast : parent_index_at nodes_ (nodes_.length - 1) ≤ (p : Int))
    (name : List Char) (value : document_node_value) :
    upper_bound nodes_ 0 nodes_.length (p : Int) = nodes_.length ∧
    upper_bound nodes_ 0 nodes_.length ((nodes_.length : Int) - 1) = nodes_.length ∧
    emplace_sorted_ nodes_ p name value = emplace_back_ nodes_ (some p) name value := by
  obtain ⟨_, a2, _, a4⟩ := upper_bound_spec nodes_ hinv.1 0 (p : Int)
  obtain ⟨_, b2, _, b4⟩ := upper_bound_spec nodes_ hinv.1 0 ((nodes_.length : Int) - 1)
  have hq : upper_bound nodes_ 0 nodes_.length (p : Int) = nodes_.length := by
    by_contra hne
    have := a4 (nodes_.length - 1) (by have := a2 (Nat.zero_le _); omega) (by omega)
    omega
  have hu : upper_bound nodes_ 0 nodes_.length ((nodes_.length : Int) - 1) = nodes_.length := by
    by_contra hne
    have h1 := b4 (nodes_.length - 1) (by have := b2 (Nat.zero_le _); omega) (by omega)
    have h2 := parent_index_lt_self nodes_ hinv (nodes_.length - 1) (by omega)
    omega
  refine ⟨hq, hu, ?_⟩
  unfold emplace_sorted_ emplace_back_
  simp only
  rw [hq, hu]
  unfold for_each_from
  simp

theorem emplace_sorted_eq_emplace_back_witness :
    upper_bound sample_tree 0 sample_tree.length ((4 : Nat) : Int) = sample_tree.length ∧
    upper_bound sample_tree 0 sample_tree.length ((sample_tree.length : Int) - 1)
      = sample_tree.length ∧
    emplace_sorted_ sample_tree 4 ['e'] document_node_value.of_null
      = emplace_back_ sample_tree (some 4) ['e'] document_node_value.of_null :=
  emplace_sorted_eq_emplace_back sample_tree (by decide) 4 (by decide) (by decide) ['e']
    document_node_value.of_null

/-- Claim C29: in every store, for a node P whose value kind is Null, Bool, Int, Float or
String, emplace(P, name, value) leaves the node array unchanged and returns the end()
sentinel; and insert_or_access(P, name), when no node in the child range of P has the
name, returns the end() sentinel with the node array unchanged too. -/
theorem emplace_under_leaf (nodes_ : List document_tree_node) (P : Nat) (nd : document_tree_node)
    (hnd : nodes_[P]? = some nd)
    (hkind : nd.value_.type = document_tree_node_type.null ∨
      nd.value_.type = document_tree_node_type.boolean ∨
      nd.value_.type = document_tree_node_type.integer ∨
      nd.value_.type = document_tree_node_type.floating_point ∨
      nd.value_.type = document_tree_node_type.string)
    (name : List Char) (value : document_node_value) :
    emplace nodes_ P name value = (nodes_, nodes_.length) ∧
    ((∀ i, search_child_begin nodes_ P ≤ i → i < search_child_end nodes_ P →
        name_at nodes_ i ≠ name) →
      insert_or_access_name nodes_ P name = (nodes_, nodes_.length)) := by
  have hleaf : nd.value_.parent_type = false := by
    unfold document_node_value.parent_type
    rcases hkind with h | h | h | h | h <;> rw [h] <;> rfl
  have hemp : ∀ (name : List Char) (value : document_node_value),
      emplace nodes_ P name value = (nodes_, nodes_.length) := by
    intro name value
    unfold emplace emplace_auto_
    rw [hnd]
    rcases nodes_.getLast? with _ | back
    · rfl
    · simp only [hleaf]
      rfl
  refine ⟨hemp name value, ?_⟩
  intro hno
  unfold insert_or_access_name
  simp only
  rw [find_if_eq_last nodes_ _ _ _ (fun j hj h1 h2 => by
    have := hno j h1 h2
    rw [name_at_of_lt nodes_ j hj] at this
    simpa using this)]
  rw [if_pos rfl]
  exact hemp name _

theorem emplace_under_leaf_witness :
    emplace sample_tree 2 ['x'] document_node_value.of_null = (sample_tree, sample_tree.length) ∧
    insert_or_access_name sample_tree 2 ['x'] = (sample_tree, sample_tree.length) :=
  ⟨(emplace_under_leaf sample_tree 2
      (document_tree_node.of_pid 1 ['a'] (document_node_value.of_int 1)) (by decide)
      (by decide) ['x'] document_node_value.of_null).1,
   (emplace_under_leaf sample_tree 2
      (document_tree_node.of_pid 1 ['a'] (document_node_value.of_int 1)) (by decide)
      (by decide) ['x'] document_node_value.of_null).2 (by decide)⟩

/-- Claim C28: in a store that satisfies the invariants, emplace under a container node P
makes the array one node longer; the new node sits at the returned position q, with the
given name and value, the parent_index p and no tombstone; every node that was at a
position i is now at i (before q) or i + 1 (from q on), so the order is kept, with its
name, value and tombstone flag, and its parent_index is unchanged when it is below q and
one more otherwise, which is the new position of the node that was its parent. -/
theorem emplace_frame (nodes_ : List document_tree_node) (hinv : invariants nodes_)
    (p : Nat) (hp : p < nodes_.length) (hcont : (nodes_[p]).value_.parent_type = true)
    (name : List Char) (value : document_node_value) :
    (emplace nodes_ p name value).1.length = nodes_.length + 1 ∧
    (emplace nodes_ p name value).2 ≤ nodes_.length ∧
    (emplace nodes_ p name value).1[(emplace nodes_ p name value).2]? =
      some { name_ := name, value_ := value, pid_ := (p : Int), tombed_ := false } ∧
    (∀ i j, i < j → position_after_insert (emplace nodes_ p name value).2 i
      < position_after_insert (emplace nodes_ p name value).2 j) ∧
    (∀ i nd, nodes_[i]? = some nd →
      ∃ nd1, (emplace nodes_ p name value).1[position_after_insert
          (emplace nodes_ p name value).2 i]? = some nd1 ∧
        nd1.name_ = nd.name_ ∧ nd1.value_ = nd.value_ ∧ nd1.tombed_ = nd.tombed_ ∧
        nd1.pid_ = (if ((emplace nodes_ p name value).2 : Int) ≤ nd.pid_ then nd.pid_ + 1
          else nd.pid_) ∧
        (0 ≤ nd.pid_ → nd1.pid_ =
          ((position_after_insert (emplace nodes_ p name value).2 nd.pid_.toNat : Nat) : Int))) := by
  have hget := getElem?_emplace nodes_ hinv p hp hcont name value
  have hlen := length_emplace nodes_ hinv p hp name value
  rw [if_pos hcont] at hlen
  obtain ⟨hpq, _, _, h4, _, _, _⟩ := emplace_sorted_search nodes_ hinv p hp
  obtain ⟨_, hq2, _, _⟩ := upper_bound_spec nodes_ hinv.1 0 (p : Int)
  have hq2 := hq2 (Nat.zero_le _)
  have hr2 : (emplace nodes_ p name value).2 = upper_bound nodes_ 0 nodes_.length (p : Int) := by
    rw [emplace_eq nodes_ hinv p hp hcont]
  rw [hr2]
  generalize upper_bound nodes_ 0 nodes_.length (p : Int) = q at *
  generalize (emplace nodes_ p name value).1 = nodes1 at *
  refine ⟨hlen, hq2, ?_, ?_, ?_⟩
  · rw [hget q, if_neg (lt_irrefl _), if_pos rfl]
    rfl
  · intro i j hij
    unfold position_after_insert
    split_ifs <;> omega
  · intro i nd hnd
    have hi : i < nodes_.length := by
      by_contra hcon
      rw [List.getElem?_eq_none (by omega)] at hnd
      cases hnd
    have hpid : parent_index_at nodes_ i = nd.pid_ := by
      unfold parent_index_at; rw [hnd]
    unfold position_after_insert
    by_cases hiq : i < q
    · rw [if_pos hiq, hget i, if_pos hiq, hnd]
      have := h4 i hiq
      refine ⟨nd, rfl, rfl, rfl, rfl, ?_, ?_⟩
      · rw [if_neg (by omega)]
      · intro h0
        rw [if_pos (by omega)]
        omega
    · rw [if_neg hiq, hget (i + 1), if_neg (by omega), if_neg (by omega), Nat.add_sub_cancel, hnd]
      simp only [Option.map_some']
      by_cases hc : (q : Int) ≤ nd.pid_
      · rw [if_pos hc]
        refine ⟨_, rfl, rfl, rfl, rfl, ?_, ?_⟩
        · rw [if_pos hc]
          rfl
        · intro h0
          rw [if_neg (by omega)]
          simp only [document_tree_node.inc_parent_index]
          omega
      · rw [if_neg hc]
        refine ⟨_, rfl, rfl, rfl, rfl, ?_, ?_⟩
        · rw [if_neg hc]
        · intro h0
          rw [if_pos (by omega)]
          omega

theorem emplace_frame_witness :
    (emplace sample_tree 1 ['e'] document_node_value.of_null).1.length = sample_tree.length + 1 ∧
    (emplace sample_tree 1 ['e'] document_node_value.of_null).2 = 5 ∧
    (emplace sample_tree 1 ['e'] document_node_value.of_null).1[5]? =
      some { name_ := ['e'], value_ := document_node_value.of_null, pid_ := ((1 : Nat) : Int),
             tombed_ := false } ∧
    (List.range 9).map (parent_index_at (emplace sample_tree 1 ['e'] document_node_value.of_null).1)
      = [-1, 0, 1, 1, 1, 1, 3, 3, 4] :=
  ⟨(emplace_frame sample_tree (by decide) 1 (by decide) (by decide) ['e']
      document_node_value.of_null).1,
   by decide,
   by decide,
   by decide⟩

/-- Claim C24 fails as stated: in the sample tree with the node at position 5 removed (so
tombstoned), the node at the later position 6 has parent_index 3, and after
erase_single_node_and_rotate_(5) it sits at position 5 with parent_index 3 still, not 2;
the node `d` behind it keeps its parent_index 4 as well. -/
theorem erase_single_later_node_counterexample :
    invariants ((remove sample_tree 5).getD []) ∧
    dying_at ((remove sample_tree 5).getD []) 5 = true ∧
    (List.range 8).map (parent_index_at ((remove sample_tree 5).getD []))
      = [-1, 0, 1, 1, 1, 3, 3, 4] ∧
    (List.range 7).map (parent_index_at
        (erase_single_node_and_rotate_ ((remove sample_tree 5).getD []) 5).1)
      = [-1, 0, 1, 1, 1, 3, 4] := by
  decide

/-- Claim C24 as amended: in a store that satisfies the invariants,
erase_single_node_and_rotate_(w) removes the node at position w, so that every other node
moves from its position i to i (before w) or i - 1 (after w) with its name, value and
tombstone flag, and decrements by one the parent_index of exactly the nodes whose
parent_index is w or more, which all lie after w; every other parent_index, before or
after w, is unchanged. -/
theorem erase_single_decrements_later_parents (nodes_ : List document_tree_node)
    (hinv : invariants nodes_) (w : Nat) (hw : w < nodes_.length) :
    (erase_single_node_and_rotate_ nodes_ w).1.length = nodes_.length - 1 ∧
    (∀ i nd, nodes_[i]? = some nd → i ≠ w →
      ∃ nd1, (erase_single_node_and_rotate_ nodes_ w).1[position_after_erase w i]? = some nd1 ∧
        nd1.name_ = nd.name_ ∧ nd1.value_ = nd.value_ ∧ nd1.tombed_ = nd.tombed_ ∧
        nd1.pid_ = (if (w : Int) ≤ nd.pid_ then nd.pid_ - 1 else nd.pid_) ∧
        ((w : Int) ≤ nd.pid_ → w < i)) := by
  refine ⟨length_erase_single nodes_ w hw, ?_⟩
  intro i nd hnd hiw
  have hi : i < nodes_.length := by
    by_contra hcon
    rw [List.getElem?_eq_none (by omega)] at hnd
    cases hnd
  have hpid : parent_index_at nodes_ i = nd.pid_ := by
    unfold parent_index_at; rw [hnd]
  have hlt := parent_index_lt_self nodes_ hinv i hi
  rw [erase_single_eq nodes_ hinv.1 w]
  unfold position_after_erase
  have hmap : ∀ k, k = i →
      (List.map (fun nd : document_tree_node =>
        if (w : Int) - 1 < nd.pid_ then nd.dec_parent_index else nd) nodes_)[k]?
        = some (if (w : Int) - 1 < nd.pid_ then nd.dec_parent_index else nd) := by
    intro k hk
    rw [hk, List.getElem?_map, hnd]
    rfl
  have hres : ∃ nd1, (if (w : Int) - 1 < nd.pid_ then nd.dec_parent_index else nd) = nd1 ∧
      nd1.name_ = nd.name_ ∧ nd1.value_ = nd.value_ ∧ nd1.tombed_ = nd.tombed_ ∧
      nd1.pid_ = (if (w : Int) ≤ nd.pid_ then nd.pid_ - 1 else nd.pid_) := by
    by_cases hc : (w : Int) ≤ nd.pid_
    · rw [if_pos (by omega), if_pos hc]
      exact ⟨_, rfl, rfl, rfl, rfl, rfl⟩
    · rw [if_neg (by omega), if_neg hc]
      exact ⟨_, rfl, rfl, rfl, rfl, rfl⟩
  obtain ⟨nd1, e1, e2, e3, e4, e5⟩ := hres
  refine ⟨nd1, ?_, e2, e3, e4, e5, fun h => by omega⟩
  rw [List.getElem?_eraseIdx]
  by_cases hlt2 : i < w
  · rw [if_pos hlt2, if_pos hlt2, hmap i rfl, e1]
  · rw [if_neg hlt2, if_neg (by omega), hmap (i - 1 + 1) (by omega), e1]

theorem erase_single_decrements_later_parents_witness :
    (erase_single_node_and_rotate_ sample_tree 3).1.length = sample_tree.length - 1 ∧
    (∀ i nd, sample_tree[i]? = some nd → i ≠ 3 →
      ∃ nd1, (erase_single_node_and_rotate_ sample_tree 3).1[position_after_erase 3 i]? = some nd1 ∧
        nd1.name_ = nd.name_ ∧ nd1.value_ = nd.value_ ∧ nd1.tombed_ = nd.tombed_ ∧
        nd1.pid_ = (if ((3 : Nat) : Int) ≤ nd.pid_ then nd.pid_ - 1 else nd.pid_) ∧
        (((3 : Nat) : Int) ≤ nd.pid_ → 3 < i)) ∧
    (List.range 7).map (parent_index_at (erase_single_node_and_rotate_ sample_tree 3).1)
      = [-1, 0, 1, 1, 2, 2, 3] :=
  ⟨(erase_single_decrements_later_parents sample_tree (by decide) 3 (by decide)).1,
   (erase_single_decrements_later_parents sample_tree (by decide) 3 (by decide)).2,
   by decide⟩

/-- Claim C25 fails as stated: for the object at position 1 of the sample tree, which the
append fast path does not serve (1 is below the parent_index 4 of the last node),
emplace_sorted_ inserts at position 5; the nodes from position 5 on had the parent_index
values 3, 3, 4, and they have them still, at the positions 6, 7, 8: none is incremented. -/
theorem emplace_sorted_later_node_counterexample :
    invariants sample_tree ∧ (sample_tree[1]?).map (fun nd => nd.value_.parent_type) = some true ∧
    ¬ ((1 : Int) ≥ parent_index_at sample_tree (sample_tree.length - 1)) ∧
    (emplace_sorted_ sample_tree 1 ['e'] document_node_value.of_null).2 = 5 ∧
    (List.range 8).map (parent_index_at sample_tree) = [-1, 0, 1, 1, 1, 3, 3, 4] ∧
    (List.range 9).map (parent_index_at
        (emplace_sorted_ sample_tree 1 ['e'] document_node_value.of_null).1)
      = [-1, 0, 1, 1, 1, 1, 3, 3, 4] := by
  decide

/-- Claim C25 as amended: in a store that satisfies the invariants, emplace_sorted_ for a
parent at position p finds by binary search the position q behind the last node whose
parent_index is at most p (q is after p; every node before q has a parent_index of at most
p and every node from q on a larger one), increments by one the parent_index of exactly
the nodes whose parent_index is q or more, leaves every other parent_index as it is, and
inserts the new node at q: a node that was at position i is then at i (before q) or i + 1
(from q on), with its name, value and tombstone flag. -/
theorem emplace_sorted_increments_later_parents (nodes_ : List document_tree_node)
    (hinv : invariants nodes_) (p : Nat) (hp : p < nodes_.length)
    (name : List Char) (value : document_node_value) :
    p < (emplace_sorted_ nodes_ p name value).2 ∧
    (emplace_sorted_ nodes_ p name value).2 ≤ nodes_.length ∧
    (∀ i, i < (emplace_sorted_ nodes_ p name value).2 → parent_index_at nodes_ i ≤ (p : Int)) ∧
    (∀ i, (emplace_sorted_ nodes_ p name value).2 ≤ i → i < nodes_.length →
      (p : Int) < parent_index_at nodes_ i) ∧
    (emplace_sorted_ nodes_ p name value).1.length = nodes_.length + 1 ∧
    (emplace_sorted_ nodes_ p name value).1[(emplace_sorted_ nodes_ p name value).2]? =
      some { name_ := name, value_ := value, pid_ := (p : Int), tombed_ := false } ∧
    (∀ i nd, nodes_[i]? = some nd →
      ∃ nd1, (emplace_sorted_ nodes_ p name value).1[position_after_insert
          (emplace_sorted_ nodes_ p name value).2 i]? = some nd1 ∧
        nd1.name_ = nd.name_ ∧ nd1.value_ = nd.value_ ∧ nd1.tombed_ = nd.tombed_ ∧
        nd1.pid_ = (if ((emplace_sorted_ nodes_ p name value).2 : Int) ≤ nd.pid_ then nd.pid_ + 1
          else nd.pid_)) := by
  obtain ⟨hpq, _, _, h4, h5, _, _⟩ := emplace_sorted_search nodes_ hinv p hp
  obtain ⟨_, hq2, _, _⟩ := upper_bound_spec nodes_ hinv.1 0 (p : Int)
  have hq2 := hq2 (Nat.zero_le _)
  have hlen := length_emplace_sorted nodes_ hinv p hp name value
  have hclosed : emplace_sorted_ nodes_ p name value =
      (vector_emplace
        (nodes_.map (fun nd =>
          if (upper_bound nodes_ 0 nodes_.length (p : Int) : Int) - 1 < nd.pid_
          then nd.inc_parent_index else nd))
        (upper_bound nodes_ 0 nodes_.length (p : Int))
        (document_tree_node.of_pointer (some p) name value),
       upper_bound nodes_ 0 nodes_.length (p : Int)) := by
    unfold emplace_sorted_
    simp only
    rw [for_each_from_upper_bound nodes_ hinv.1]
  rw [hclosed] at hlen ⊢
  simp only at hlen ⊢
  generalize upper_bound nodes_ 0 nodes_.length (p : Int) = q at *
  have hget := fun i => getElem?_vector_emplace
    (nodes_.map (fun nd => if (q : Int) - 1 < nd.pid_ then nd.inc_parent_index else nd)) q
    (document_tree_node.of_pointer (some p) name value) (by rw [List.length_map]; exact hq2) i
  refine ⟨hpq, hq2, h4, h5, hlen, ?_, ?_⟩
  · rw [hget q, if_neg (lt_irrefl _), if_pos rfl]
    rfl
  · intro i nd hnd
    have hi : i < nodes_.length := by
      by_contra hcon
      rw [List.getElem?_eq_none (by omega)] at hnd
      cases hnd
    have hpid : parent_index_at nodes_ i = nd.pid_ := by
      unfold parent_index_at; rw [hnd]
    have hres : ∃ nd1, (if (q : Int) - 1 < nd.pid_ then nd.inc_parent_index else nd) = nd1 ∧
        nd1.name_ = nd.name_ ∧ nd1.value_ = nd.value_ ∧ nd1.tombed_ = nd.tombed_ ∧
        nd1.pid_ = (if (q : Int) ≤ nd.pid_ then nd.pid_ + 1 else nd.pid_) := by
      by_cases hc : (q : Int) ≤ nd.pid_
      · rw [if_pos (by omega), if_pos hc]
        exact ⟨_, rfl, rfl, rfl, rfl, rfl⟩
      · rw [if_neg (by omega), if_neg hc]
        exact ⟨_, rfl, rfl, rfl, rfl, rfl⟩
    obtain ⟨nd1, e1, e2, e3, e4, e5⟩ := hres
    refine ⟨nd1, ?_, e2, e3, e4, e5⟩
    unfold position_after_insert
    by_cases hiq : i < q
    · rw [if_pos hiq, hget i, if_pos hiq, List.getElem?_map, hnd]
      simp only [Option.map_some']
      rw [e1]
    · rw [if_neg hiq, hget (i + 1), if_neg (by omega), if_neg (by omega), Nat.add_sub_cancel,
        List.getElem?_map, hnd]
      simp only [Option.map_some']
      rw [e1]

theorem emplace_sorted_increments_later_parents_witness :
    1 < (emplace_sorted_ sample_tree 1 ['e'] document_node_value.of_null).2 ∧
    (emplace_sorted_ sample_tree 1 ['e'] document_node_value.of_null).2 ≤ sample_tree.length ∧
    (emplace_sorted_ sample_tree 0 ['e'] document_node_value.of_null).2 = 2 ∧
    (List.range 9).map (parent_index_at
        (emplace_sorted_ sample_tree 0 ['e'] document_node_value.of_null).1)
      = [-1, 0, 0, 1, 1, 1, 4, 4, 5] :=
  ⟨(emplace_sorted_increments_later_parents sample_tree (by decide) 1 (by decide) ['e']
      document_node_value.of_null).1,
   (emplace_sorted_increments_later_parents sample_tree (by decide) 1 (by decide) ['e']
      document_node_value.of_null).2.1,
   by decide, by decide⟩

/-- Claim C21 fails as stated: in the tree whose object at position 1 holds the two empty
objects `a` (position 2) and `b` (position 3), `a` is a container without children, and
emplace under `a` puts the new node at position 4, behind `b`, not at position 3. -/
theorem emplace_childless_counterexample :
    invariants two_empty_objects ∧
    (two_empty_objects[2]?).map (fun nd => nd.value_.parent_type) = some true ∧
    children_count two_empty_objects 2 = 0 ∧
    (emplace two_empty_objects 2 ['x'] document_node_value.of_null).2 = 4 ∧
    (List.range 5).map (parent_index_at
        (emplace two_empty_objects 2 ['x'] document_node_value.of_null).1) = [-1, 0, 1, 1, 2] := by
  decide

/-- Claim C21 as amended: in a store that satisfies the invariants, emplace under a
container node P that has no children puts the new node at the position q behind P and
behind every later node whose parent precedes P (every node between P and q has a smaller
parent_index than P's position, every node from q on a larger one); q is the position
right after P exactly if P is the last node or the node after P has a parent_index larger
than P's position. -/
theorem emplace_childless_position (nodes_ : List document_tree_node) (hinv : invariants nodes_)
    (p : Nat) (hp : p < nodes_.length) (hcont : (nodes_[p]).value_.parent_type = true)
    (hnone : ∀ c, c < nodes_.length → parent_index_at nodes_ c ≠ (p : Int))
    (name : List Char) (value : document_node_value) :
    p < (emplace nodes_ p name value).2 ∧ (emplace nodes_ p name value).2 ≤ nodes_.length ∧
    (∀ i, p < i → i < (emplace nodes_ p name value).2 → parent_index_at nodes_ i < (p : Int)) ∧
    (∀ i, (emplace nodes_ p name value).2 ≤ i → i < nodes_.length →
      (p : Int) < parent_index_at nodes_ i) ∧
    (emplace nodes_ p name value).1[(emplace nodes_ p name value).2]? =
      some { name_ := name, value_ := value, pid_ := (p : Int), tombed_ := false } ∧
    ((emplace nodes_ p name value).2 = p + 1 ↔
      (p + 1 = nodes_.length ∨ (p : Int) < parent_index_at nodes_ (p + 1))) := by
  have hget := getElem?_emplace nodes_ hinv p hp hcont name value
  obtain ⟨hpq, _, _, h4, h5, _, _⟩ := emplace_sorted_search nodes_ hinv p hp
  obtain ⟨_, hq2, _, _⟩ := upper_bound_spec nodes_ hinv.1 0 (p : Int)
  have hq2 := hq2 (Nat.zero_le _)
  have hr2 : (emplace nodes_ p name value).2 = upper_bound nodes_ 0 nodes_.length (p : Int) := by
    rw [emplace_eq nodes_ hinv p hp hcont]
  rw [hr2]
  generalize upper_bound nodes_ 0 nodes_.length (p : Int) = q at *
  refine ⟨hpq, hq2, ?_, h5, ?_, ?_⟩
  · intro i hpi hiq
    have h1 := h4 i hiq
    have h2 := hnone i (by omega)
    omega
  · rw [hget q, if_neg (lt_irrefl _), if_pos rfl]
    rfl
  · constructor
    · intro hq
      rcases Nat.eq_or_lt_of_le (Nat.succ_le_of_lt hp) with e | e
      · exact Or.inl e
      · exact Or.inr (h5 (p + 1) (by omega) e)
    · intro h
      rcases h with e | e
      · omega
      · by_contra hne
        have h1 := h4 (p + 1) (by omega)
        omega

theorem emplace_childless_position_witness :
    2 < (emplace two_empty_objects 2 ['x'] document_node_value.of_null).2 ∧
    (emplace two_empty_objects 2 ['x'] document_node_value.of_null).2 ≤ two_empty_objects.length ∧
    ((emplace two_empty_objects 2 ['x'] document_node_value.of_null).2 = 2 + 1 ↔
      (2 + 1 = two_empty_objects.length ∨
        ((2 : Nat) : Int) < parent_index_at two_empty_objects (2 + 1))) ∧
    (emplace two_empty_objects 3 ['x'] document_node_value.of_null).2 = 3 + 1 :=
  ⟨(emplace_childless_position two_empty_objects (by decide) 2 (by decide) (by decide) (by decide)
      ['x'] document_node_value.of_null).1,
   (emplace_childless_position two_empty_objects (by decide) 2 (by decide) (by decide) (by decide)
      ['x'] document_node_value.of_null).2.1,
   (emplace_childless_position two_empty_objects (by decide) 2 (by decide) (by decide) (by decide)
      ['x'] document_node_value.of_null).2.2.2.2.2,
   (emplace_childless_position two_empty_objects (by decide) 3 (by decide) (by decide) (by decide)
      ['x'] document_node_value.of_null).2.2.2.2.2.mpr (Or.inl (by decide))⟩

end document_tree
end jxxson

namespace jxxson
namespace document_tree_parser_t

/-- Claim C30: when the parser stands at the keyword `null` and a character follows the
keyword, the pass through the switch stages the null value and leaves the position behind
that following character, whatever it is: the result does not depend on it, and neither
`current` nor `current_parent` changes, so a closing bracket in that place closes nothing.
The document `[[null],1]` is therefore read to its end (position 10) as an outer array
holding one inner array whose children are null and 1. -/
theorem null_skips_next_character (fm : float_model) (input : List Char) (st : parser_state)
    (c : Char) (h0 : input[st.beg]? = some 'n') (h1 : input[st.beg + 1]? = some 'u')
    (h2 : input[st.beg + 2]? = some 'l') (h3 : input[st.beg + 3]? = some 'l')
    (h4 : input[st.beg + 4]? = some c) :
    switch_case fm input st 'n' = emplace_scalar st (st.beg + 5) document_node_value.of_null ∧
    (∀ st1, switch_case fm input st 'n' = some (switch_result.break_ st1) →
      st1.beg = st.beg + 5 ∧ st1.current = st.current ∧
      st1.current_parent = st.current_parent ∧
      ∀ (nodes_ : List document_tree_node) (fuel : Nat),
        parse_loop fm input nodes_ (fuel + 1) st = parse_loop fm input nodes_ fuel st1) ∧
    parse no_float nested_null_document (document_tree.ctor 16)
      = some (10, [document_tree_node.of_pid (-1) [] document_node_value.of_root_tag,
                   document_tree_node.of_pid 0 [] document_node_value.of_array_tag,
                   document_tree_node.of_pid 1 [] document_node_value.of_array_tag,
                   document_tree_node.of_pid 2 [] document_node_value.of_null,
                   document_tree_node.of_pid 2 [] (document_node_value.of_int 1)]) := by
  have hlt : st.beg + 4 < input.length := by
    by_contra hcon
    rw [List.getElem?_eq_none (by omega)] at h4
    cases h4
  have hsw : switch_case fm input st 'n'
      = emplace_scalar st (st.beg + 5) document_node_value.of_null := by
    unfold switch_case
    rw [if_neg (by decide), if_neg (by decide), if_neg (by decide), if_neg (by decide),
      if_neg (by decide), if_neg (by decide), if_neg (by decide), if_neg (by decide),
      if_pos rfl]
    simp only [match_keyword, h1, h2, h3, ne_eq, not_true_eq_false, if_false, if_true]
    rw [if_pos (by omega)]
  refine ⟨hsw, ?_, by decide⟩
  intro st1 hst1
  have hloop : ∀ (nodes_ : List document_tree_node) (fuel : Nat),
      parse_loop fm input nodes_ (fuel + 1) st = parse_loop fm input nodes_ fuel st1 := by
    intro nodes_ fuel
    simp only [parse_loop, h0, hst1]
  rw [hsw] at hst1
  unfold emplace_scalar at hst1
  split at hst1
  · cases hst1
  · cases hst1
    exact ⟨rfl, rfl, rfl, hloop⟩

theorem null_skips_next_character_witness :
    switch_case no_float nested_null_document
        { beg := 2, inserter := document_tree_batch_inserter.sample_pool, current := some 3,
          current_parent := some 3 } 'n'
      = emplace_scalar
        { beg := 2, inserter := document_tree_batch_inserter.sample_pool, current := some 3,
          current_parent := some 3 } (2 + 5) document_node_value.of_null ∧
    parse no_float nested_null_document (document_tree.ctor 16)
      = some (10, [document_tree_node.of_pid (-1) [] document_node_value.of_root_tag,
                   document_tree_node.of_pid 0 [] document_node_value.of_array_tag,
                   document_tree_node.of_pid 1 [] document_node_value.of_array_tag,
                   document_tree_node.of_pid 2 [] document_node_value.of_null,
                   document_tree_node.of_pid 2 [] (document_node_value.of_int 1)]) ∧
    parse no_float "[null1]".toList (document_tree.ctor 16)
      = some (7, [document_tree_node.of_pid (-1) [] document_node_value.of_root_tag,
                  document_tree_node.of_pid 0 [] document_node_value.of_array_tag,
                  document_tree_node.of_pid 1 [] document_node_value.of_null]) :=
  ⟨(null_skips_next_character no_float nested_null_document
      { beg := 2, inserter := document_tree_batch_inserter.sample_pool, current := some 3,
        current_parent := some 3 } ']' (by decide) (by decide) (by decide) (by decide)
      (by decide)).1,
   (null_skips_next_character no_float nested_null_document
      { beg := 2, inserter := document_tree_batch_inserter.sample_pool, current := some 3,
        current_parent := some 3 } ']' (by decide) (by decide) (by decide) (by decide)
      (by decide)).2.2,
   by decide⟩

end document_tree_parser_t
end jxxson

namespace jxxson
namespace document_tree_parser_t
open document_tree_batch_inserter

/-- Claim C23: for every pool built by the constructor and emplace under entries of the
pool, the materialization leaves a node array with one node per pool entry (n + 1 nodes
for n entries besides the root); the pool root keeps position 0 and the other entries get
the positions 1, ..., n, each position once and no two entries the same, in the order of
their depth and, within a depth, of their staging; the node at the position of an entry
carries the entry's name and value, and its parent_index is the position of the entry's
parent (the position 0 of the pool root for an entry of depth 1), which is smaller than
the entry's own position. -/
theorem materialize_assigns_positions (ins : document_tree_batch_inserter) (h : staged ins)
    (nodes_ : List document_tree_node) :
    (materialize nodes_ ins).length = ins.nodes_.length ∧
    index_at (materialize_loop nodes_ ins).pool 0 = 0 ∧
    (∀ k, 0 < k → k < ins.nodes_.length →
      0 < index_at (materialize_loop nodes_ ins).pool k ∧
      index_at (materialize_loop nodes_ ins).pool k < ins.nodes_.length) ∧
    (∀ c, 0 < c → c < ins.nodes_.length →
      ∃ k, 0 < k ∧ k < ins.nodes_.length ∧ index_at (materialize_loop nodes_ ins).pool k = c) ∧
    (∀ u v, 0 < u → u < ins.nodes_.length → v < ins.nodes_.length →
      (depth_at ins.nodes_ u < depth_at ins.nodes_ v ∨
        (depth_at ins.nodes_ u = depth_at ins.nodes_ v ∧ u < v)) →
      index_at (materialize_loop nodes_ ins).pool u < index_at (materialize_loop nodes_ ins).pool v) ∧
    (∀ u v, u < ins.nodes_.length → v < ins.nodes_.length →
      index_at (materialize_loop nodes_ ins).pool u = index_at (materialize_loop nodes_ ins).pool v →
      u = v) ∧
    (∀ k e p, 0 < k → ins.nodes_[k]? = some e → e.parent = some p →
      p < k ∧ depth_at ins.nodes_ k = depth_at ins.nodes_ p + 1 ∧
      (depth_at ins.nodes_ k = 1 → p = 0) ∧
      (materialize nodes_ ins)[index_at (materialize_loop nodes_ ins).pool k]? =
        some (document_tree_node.of_pid
          ((index_at (materialize_loop nodes_ ins).pool p : Nat) : Int) e.name e.value) ∧
      index_at (materialize_loop nodes_ ins).pool p < index_at (materialize_loop nodes_ ins).pool k) := by
  have hw := staged_well_linked ins h
  have hlen := length_materialize_of_linked ins hw nodes_
  have hroot := index_at_materialize_root_of_linked ins hw nodes_
  have hlt := index_at_lt_of_key_lt_of_linked ins hw nodes_
  have hpos : ∀ k, 0 < k → k < ins.nodes_.length →
      0 < index_at (materialize_loop nodes_ ins).pool k ∧
      index_at (materialize_loop nodes_ ins).pool k < ins.nodes_.length := by
    intro k hk0 hk
    obtain ⟨j, _, hj2, hidx⟩ := index_at_materialize_order_of_linked ins hw nodes_ k hk0 hk
    omega
  have hdepth_pos : ∀ k, 0 < k → k < ins.nodes_.length → 0 < depth_at ins.nodes_ k := by
    intro k hk0 hk
    obtain ⟨p, _, _, hp3⟩ := hw.2.2.2.2.1 k hk0 hk
    omega
  refine ⟨hlen, hroot, hpos, ?_, hlt, ?_, ?_⟩
  · intro c hc0 hc
    obtain ⟨k, e, p, hk0, hk, _, _, _, _, hidx, _⟩ :=
      materialize_node_at_of_linked ins hw nodes_ c hc0 hc
    exact ⟨k, hk0, hk, hidx⟩
  · intro u v hu hv heq
    by_contra hne
    rcases Nat.eq_zero_or_pos u with hu0 | hu0
    · subst hu0
      have := (hpos v (by omega) hv).1
      omega
    · rcases Nat.eq_zero_or_pos v with hv0 | hv0
      · subst hv0
        have := (hpos u hu0 hu).1
        omega
      · rcases Nat.lt_trichotomy (depth_at ins.nodes_ u) (depth_at ins.nodes_ v) with c | c | c
        · have := hlt u v hu0 hu hv (Or.inl c)
          omega
        · rcases Nat.lt_or_gt_of_ne hne with d | d
          · have := hlt u v hu0 hu hv (Or.inr ⟨c, d⟩)
            omega
          · have := hlt v u hv0 hv hu (Or.inr ⟨c.symm, d⟩)
            omega
        · have := hlt v u hv0 hv hu (Or.inl c)
          omega
  · intro k e p hk0 he hp
    have hk : k < ins.nodes_.length := by
      rcases Nat.lt_or_ge k ins.nodes_.length with h1 | h1
      · exact h1
      · rw [List.getElem?_eq_none h1] at he
        cases he
    obtain ⟨q, hq1, hq2, hq3⟩ := hw.2.2.2.2.1 k hk0 hk
    have hqp : q = p := by
      unfold parent_at at hq1
      rw [he] at hq1
      simp only at hq1
      rw [hp] at hq1
      cases hq1
      rfl
    subst hqp
    obtain ⟨j, hj, hj2, hidx⟩ := index_at_materialize_order_of_linked ins hw nodes_ k hk0 hk
    have hf := (materialized_loop_of_linked ins hw nodes_).2.2.2.2.2.2.1 j k e hj he
    refine ⟨hq2, hq3, ?_, ?_, ?_⟩
    · intro hd1
      by_contra hne
      have := hdepth_pos q (by omega) (by omega)
      omega
    · rw [hidx]
      unfold materialize
      rw [hf, hp]
      rfl
    · rcases Nat.eq_zero_or_pos q with h0 | h0
      · subst h0
        rw [hroot]
        exact (hpos k hk0 hk).1
      · exact hlt q k h0 (by omega) hk (Or.inl (by omega))

theorem staged_interleaved_pool : staged interleaved_pool :=
  staged.emplace (staged.emplace (staged.emplace (staged.emplace staged.ctor
    0 (by decide) [] document_node_value.of_array_tag rfl)
    0 (by decide) [] document_node_value.of_array_tag rfl)
    2 (by decide) [] (document_node_value.of_int 2) rfl)
    1 (by decide) [] (document_node_value.of_int 1) rfl

theorem materialize_assigns_positions_witness :
    (materialize (document_tree.ctor 16) interleaved_pool).length = interleaved_pool.nodes_.length ∧
    index_at (materialize_loop (document_tree.ctor 16) interleaved_pool).pool 0 = 0 ∧
    (List.range 5).map (index_at (materialize_loop (document_tree.ctor 16) interleaved_pool).pool)
      = [0, 1, 2, 3, 4] ∧
    materialize (document_tree.ctor 16) interleaved_pool
      = [document_tree_node.of_pid (-1) [] document_node_value.of_root_tag,
         document_tree_node.of_pid 0 [] document_node_value.of_array_tag,
         document_tree_node.of_pid 0 [] document_node_value.of_array_tag,
         document_tree_node.of_pid 2 [] (document_node_value.of_int 2),
         document_tree_node.of_pid 1 [] (document_node_value.of_int 1)] :=
  ⟨(materialize_assigns_positions interleaved_pool staged_interleaved_pool
      (document_tree.ctor 16)).1,
   (materialize_assigns_positions interleaved_pool staged_interleaved_pool
      (document_tree.ctor 16)).2.1,
   by decide, by decide⟩

end document_tree_parser_t
end jxxson

namespace jxxson
namespace document_tree

/-- Claim C27: in a store that satisfies the invariants, with a floating-point format
that writes no leading space, format_to writes the rendering of the node at position 1,
whose nesting depth is 0, and every child has the nesting depth of its parent plus one.
The rendering of a node at nesting depth d is: an opening line of exactly 2 d spaces
(what follows is no space), the name between double quotes and a colon exactly when the
name is not empty, the opening token, for a leaf the comma if it is not the last child,
and a line end; then the renderings of its children; then, for a container, a closing line
of exactly 2 d spaces, the closing token, the comma if it is not the last child, and a
line end. -/
theorem format_to_lines (fm : float_model) (hfm : ∀ bytes, (fm.format bytes).head? ≠ some ' ')
    (nodes_ : List document_tree_node) (hinv : invariants nodes_)
    (it : Nat) (h0 : 0 < it) (hit : it < nodes_.length)
    (nd : document_tree_node) (hnd : nodes_[it]? = some nd) :
    format_to fm nodes_ = some (rendering fm nodes_ 1) ∧
    nesting_depth nodes_ 1 = 0 ∧
    (∀ c, c ∈ child_positions nodes_ it →
      parent_index_at nodes_ c = (it : Int) ∧
      nesting_depth nodes_ c = nesting_depth nodes_ it + 1) ∧
    format_to_impl fm nodes_ (nodes_.length + 1) (nesting_depth nodes_ it) it
      = some (rendering fm nodes_ it) ∧
    rendering fm nodes_ it =
      (if nd.value_.parent_type = true then
        List.replicate (2 * nesting_depth nodes_ it) ' '
          ++ (if nd.name_ ≠ [] then '"' :: (nd.name_ ++ ['"', ':']) else [])
          ++ nd.value_.format_to fm true ++ ['\n']
          ++ ((child_positions nodes_ it).map (rendering fm nodes_)).flatten
          ++ List.replicate (2 * nesting_depth nodes_ it) ' ' ++ nd.value_.format_to fm false
          ++ (if last_of_parent nodes_ it then [] else [',']) ++ ['\n']
      else
        List.replicate (2 * nesting_depth nodes_ it) ' '
          ++ (if nd.name_ ≠ [] then '"' :: (nd.name_ ++ ['"', ':']) else [])
          ++ nd.value_.format_to fm true
          ++ (if last_of_parent nodes_ it then [] else [',']) ++ ['\n']
          ++ ((child_positions nodes_ it).map (rendering fm nodes_)).flatten) ∧
    ((if nd.name_ ≠ [] then '"' :: (nd.name_ ++ ['"', ':']) else [])
        ++ nd.value_.format_to fm true
        ++ (if last_of_parent nodes_ it then [] else [',']) ++ ['\n']).head? ≠ some ' ' ∧
    (nd.value_.format_to fm false
        ++ (if last_of_parent nodes_ it then [] else [',']) ++ ['\n']).head? ≠ some ' ' := by
  have h1 : 1 < nodes_.length := by omega
  have hd1 := nesting_depth_one nodes_ hinv h1
  refine ⟨?_, hd1, ?_, ?_, ?_, ?_, ?_⟩
  · unfold format_to rendering
    rw [hd1]
    obtain ⟨out, hout⟩ := format_to_impl_total fm nodes_ hinv (nodes_.length + 1) 0 1 (by omega)
      (by omega)
    rw [hout]
    rfl
  · intro c hc
    obtain ⟨c1, c2, c3⟩ := child_positions_spec nodes_ hinv it hit c hc
    exact ⟨c3, nesting_depth_child nodes_ hinv it h0 hit c c2 c3⟩
  · unfold rendering
    obtain ⟨out, hout⟩ := format_to_impl_total fm nodes_ hinv (nodes_.length + 1)
      (nesting_depth nodes_ it) it (by omega) (by omega)
    rw [hout]
    rfl
  · unfold rendering
    rw [format_to_impl_eq fm nodes_ hinv it h0 hit nd hnd nodes_.length _ (by omega),
      rendered_children_eq fm nodes_ hinv it h0 hit, Option.getD_some,
      Nat.mul_comm (nesting_depth nodes_ it) 2]
    rfl
  · have hopen := format_to_open_head_ne_space fm hfm nd.value_
    rw [List.append_assoc, List.append_assoc]
    apply head?_append_ne
    · split_ifs <;> simp
    · apply head?_append_ne _ _ _ hopen
      split_ifs <;> simp
  · rw [List.append_assoc]
    apply head?_append_ne
    · unfold document_node_value.format_to
      rcases nd.value_ with ⟨ty, buffer⟩
      cases ty <;> simp
    · split_ifs <;> simp

theorem format_to_lines_witness :
    format_to no_float sample_tree = some (rendering no_float sample_tree 1) ∧
    nesting_depth sample_tree 1 = 0 ∧
    (∀ c, c ∈ child_positions sample_tree 3 →
      parent_index_at sample_tree c = ((3 : Nat) : Int) ∧
      nesting_depth sample_tree c = nesting_depth sample_tree 3 + 1) ∧
    rendering no_float sample_tree 3 = "  \"b\":[\n    2,\n    3\n  ],\n".toList ∧
    (List.range 8).map (nesting_depth sample_tree) = [0, 0, 1, 1, 1, 2, 2, 2] :=
  ⟨(format_to_lines no_float (fun _ => by simp [no_float]) sample_tree (by decide) 3 (by decide)
      (by decide) (document_tree_node.of_pid 1 ['b'] document_node_value.of_array_tag)
      (by decide)).1,
   (format_to_lines no_float (fun _ => by simp [no_float]) sample_tree (by decide) 3 (by decide)
      (by decide) (document_tree_node.of_pid 1 ['b'] document_node_value.of_array_tag)
      (by decide)).2.1,
   (format_to_lines no_float (fun _ => by simp [no_float]) sample_tree (by decide) 3 (by decide)
      (by decide) (document_tree_node.of_pid 1 ['b'] document_node_value.of_array_tag)
      (by decide)).2.2.1,
   by decide, by decide⟩

end document_tree
end jxxson

namespace jxxson
namespace document_tree

/-- Claim C31: in a store whose parent_index is non-decreasing and in which every non-root
node (a node whose parent_index is not -1) has a parent_index smaller than its own
position, the recursion of `remove` and the recursion of `format_to` terminate.  For
`tag_current_and_all_children_to_unknow_`: `remove` returns a store for every position up
to `end()`, a bound above the distance to the end of the array is never reached and
gives the result of `remove`, one round marks the node and calls the method on the
positions between its two binary searches, and each of these positions is strictly
greater than the current position and inside the array.  For `format_to_impl`:
`format_to` returns a text, a bound above the distance to the end of the array is never
reached and gives the same text as the bound of `format_to`, and each position of the
child range, on which the method calls itself, is strictly greater than the current
position and inside the array. -/
theorem remove_and_format_to_terminate (fm : float_model) (nodes_ : List document_tree_node)
    (hs : parent_index_sorted nodes_)
    (hb : ∀ i, i < nodes_.length → parent_index_at nodes_ i ≠ -1 →
      parent_index_at nodes_ i < (i : Int)) :
    (∀ which, which ≤ nodes_.length → ∃ nodes1, remove nodes_ which = some nodes1) ∧
    (∀ which fuel, which ≤ nodes_.length → nodes_.length - which < fuel →
      tag_current_and_all_children_to_unknow_ fuel nodes_ which = remove nodes_ which) ∧
    (∀ root fuel, root < nodes_.length →
      tag_current_and_all_children_to_unknow_ (fuel + 1) nodes_ root
        = (tagged_children nodes_ root).foldlM
            (fun acc c => tag_current_and_all_children_to_unknow_ fuel acc c)
            (set_dying nodes_ root)) ∧
    (∀ root c, root < nodes_.length → c ∈ tagged_children nodes_ root →
      root < c ∧ c < nodes_.length) ∧
    (∃ out, format_to fm nodes_ = some out) ∧
    (∀ depth it fuel, it ≤ nodes_.length → nodes_.length - it < fuel →
      ∃ out, format_to_impl fm nodes_ fuel depth it = some out ∧
        format_to_impl fm nodes_ (nodes_.length + 1) depth it = some out) ∧
    (∀ it c, it < nodes_.length → c ∈ child_positions nodes_ it →
      it < c ∧ c < nodes_.length) := by
  have hpb : parent_before nodes_ := by
    intro i hi
    by_cases h : parent_index_at nodes_ i = -1
    · rw [h]; omega
    · exact hb i hi h
  refine ⟨?_, ?_, ?_, ?_, ?_, ?_, ?_⟩
  · intro which hw
    exact tag_terminates (nodes_.length + 1) nodes_ which hs hpb hw (by omega)
  · intro which fuel hw hfuel
    exact tag_fuel fuel (nodes_.length + 1) nodes_ which hs hpb hw hfuel (by omega)
  · intro root fuel hr
    exact tag_unfold fuel nodes_ root (by omega)
  · intro root c hr hc
    exact tagged_children_bounds nodes_ hs hpb root hr c hc
  · unfold format_to
    rcases Nat.eq_zero_or_pos nodes_.length with h0 | h0
    · refine ⟨[], ?_⟩
      simp only [format_to_impl]
      rw [List.getElem?_eq_none (by omega)]
    · exact format_to_impl_terminates fm nodes_ hs hpb (nodes_.length + 1) 0 1 h0 (by omega)
  · intro depth it fuel hit hfuel
    obtain ⟨out, hout⟩ := format_to_impl_terminates fm nodes_ hs hpb fuel depth it hit hfuel
    refine ⟨out, hout, ?_⟩
    rw [← hout]
    exact format_to_impl_bound fm nodes_ hs hpb (nodes_.length + 1) fuel depth it hit (by omega)
      hfuel
  · intro it c hit hc
    exact child_positions_bounds nodes_ hs hpb it hit c hc

/-- The hypotheses of `remove_and_format_to_terminate` hold for the sample tree. -/
theorem remove_and_format_to_terminate_witness :
    parent_index_sorted sample_tree ∧
    (∀ i, i < sample_tree.length → parent_index_at sample_tree i ≠ -1 →
      parent_index_at sample_tree i < (i : Int)) ∧
    (∃ nodes1, remove sample_tree 1 = some nodes1) ∧
    (∃ out, format_to no_float sample_tree = some out) :=
  ⟨by decide, by decide,
    (remove_and_format_to_terminate no_float sample_tree (by decide) (by decide)).1 1 (by decide),
    (remove_and_format_to_terminate no_float sample_tree (by decide) (by decide)).2.2.2.2.1⟩

/-- Claim C32: `format_to` writes nothing when the array holds the synthetic root only.
In a store that satisfies the invariants and holds more nodes, `format_to` writes the
rendering of the node at position 1; this text holds the rendering of every position in
the subtree of position 1; and it reads nothing else of the store: a store of the same
length with the same parent indices and the same nodes at the positions of that subtree
gives the same text.  A further child of the synthetic root (parent_index 0 at a position
greater than 1) and its descendants are outside the subtree of position 1, and with such
a child the node at position 1 is not the last child of its parent, so its rendering has
the comma: the comma and the line end come last for a container, and are followed only by
the renderings of the node's children for a leaf, hence come last for a leaf without
children. -/
theorem format_to_first_root_child_only (fm : float_model) (nodes_ : List document_tree_node) :
    (nodes_.length = 1 → format_to fm nodes_ = some []) ∧
    (invariants nodes_ → 1 < nodes_.length →
      format_to fm nodes_ = some (rendering fm nodes_ 1) ∧
      (∀ i, i < nodes_.length → in_subtree nodes_ 1 i = true →
        ∃ pre post, rendering fm nodes_ 1 = pre ++ rendering fm nodes_ i ++ post) ∧
      (∀ nodes2 : List document_tree_node, nodes2.length = nodes_.length →
        (∀ i, i < nodes_.length → parent_index_at nodes2 i = parent_index_at nodes_ i) →
        (∀ i, i < nodes_.length → in_subtree nodes_ 1 i = true → nodes2[i]? = nodes_[i]?) →
        format_to fm nodes2 = format_to fm nodes_) ∧
      (∀ j, 1 < j → j < nodes_.length → parent_index_at nodes_ j = 0 →
        (∀ i, i < nodes_.length → in_subtree nodes_ j i = true →
          in_subtree nodes_ 1 i = false) ∧
        ¬ last_of_parent nodes_ 1 ∧
        ∃ nd pre, nodes_[1]? = some nd ∧
          rendering fm nodes_ 1 = pre ++ [',', '\n']
            ++ (if nd.value_.parent_type = true then []
                else ((child_positions nodes_ 1).map (rendering fm nodes_)).flatten) ∧
          (nd.value_.parent_type = true ∨ child_positions nodes_ 1 = [] →
            rendering fm nodes_ 1 = pre ++ [',', '\n']))) := by
  refine ⟨?_, ?_⟩
  · intro hlen
    unfold format_to
    simp only [format_to_impl]
    rw [List.getElem?_eq_none (by omega)]
  · intro hinv h1
    have hp1 : parent_index_at nodes_ 1 = 0 := by
      have := hinv.2.2 1 h1 (by omega)
      omega
    refine ⟨?_, ?_, ?_, ?_⟩
    · unfold format_to rendering
      rw [nesting_depth_one nodes_ hinv h1]
      obtain ⟨out, hout⟩ := format_to_impl_total fm nodes_ hinv (nodes_.length + 1) 0 1
        (by omega) (by omega)
      rw [hout]
      rfl
    · exact rendering_descendant fm nodes_ hinv 1 (by omega)
    · intro nodes2 hlen hpid hsame
      have hpid2 : ∀ i, parent_index_at nodes2 i = parent_index_at nodes_ i := by
        intro i
        by_cases hi : i < nodes_.length
        · exact hpid i hi
        · unfold parent_index_at
          rw [List.getElem?_eq_none (by omega), List.getElem?_eq_none (by omega)]
      unfold format_to
      rw [hlen]
      exact format_to_impl_congr fm nodes_ nodes2 hinv hlen hpid2 1 hsame (nodes_.length + 1) 0 1
        h1 (in_subtree_self nodes_ 1)
    · intro j hj1 hj hpj
      have hnl : ¬ last_of_parent nodes_ 1 := by
        intro hl
        exact hl j hj hj1 (by rw [hpj, hp1])
      refine ⟨?_, hnl, ?_⟩
      · exact in_subtree_sibling_disjoint nodes_ hinv j 1 hj h1 (by omega) (by rw [hpj, hp1])
      · obtain ⟨pre, hpre⟩ := rendering_comma fm nodes_ hinv 1 (by omega) h1 nodes_[1]
          (List.getElem?_eq_getElem h1) hnl
        refine ⟨nodes_[1], pre, List.getElem?_eq_getElem h1, hpre, ?_⟩
        intro hcase
        rw [hpre]
        rcases hcase with hc | hc
        · rw [if_pos hc, List.append_nil]
        · rw [hc]
          split_ifs <;> simp

/-- The store `two_root_children` satisfies the hypotheses of
`format_to_first_root_child_only`: the text is that of the object at position 1 with the
comma, and the name and value of the integer at position 2 do not change it. -/
theorem format_to_first_root_child_only_witness :
    invariants two_root_children ∧ 1 < two_root_children.length ∧
    parent_index_at two_root_children 2 = 0 ∧
    format_to no_float two_root_children = some (rendering no_float two_root_children 1) ∧
    format_to no_float two_root_children_changed = format_to no_float two_root_children ∧
    in_subtree two_root_children 1 2 = false ∧
    rendering no_float two_root_children 1 = "\x7b\n  \"a\":1\n\x7d,\n".toList :=
  ⟨by decide, by decide, by decide,
    ((format_to_first_root_child_only no_float two_root_children).2 (by decide) (by decide)).1,
    ((format_to_first_root_child_only no_float two_root_children).2 (by decide)
      (by decide)).2.2.1 two_root_children_changed (by decide) (by decide) (by decide),
    (((format_to_first_root_child_only no_float two_root_children).2 (by decide)
      (by decide)).2.2.2 2 (by decide) (by decide) (by decide)).1 2 (by decide) (by decide),
    by decide⟩

end document_tree
end jxxson
